import Mathlib

/-!
# Forward dataflow fixed-point engine (`src/analysis/fpc.h`)

A shallow embedding of `computeFixedPoint` and of the containers it uses,
followed by the properties of the engine that are proved about it.

* `DenseMap` is `llvm::DenseMap`: an entry list without repeated keys.  Assigning
  to a key that is present rewrites its entry in place, a new key gets a new
  entry.  The order of the entries stands for the iteration order.
* A `CFGBlock*` is an address (`Nat`); the fields of the block it points to are
  read through the `CFG`.
* `std::priority_queue` is a list of pending elements with the library's
  contract: `top` is an element that the comparator puts before no other.
* The `while` loop is run with fuel: `loop n` performs at most `n` iterations.
* The `printf` calls behind `VERBOSITY` only read the state and are left out;
  `num_evaluations`, which they print, is kept.
* `assert` is the macro of `<cassert>`: the function is given the build it is
  compiled in (`NDEBUG` defined or not), and the assertion is checked only in
  a build without `NDEBUG`.
-/

set_option linter.unusedSectionVars false

namespace pyston

/-! ## Association lists -/

section AssocList

variable {K V : Type} [DecidableEq K]

/-- Value of the first entry of an entry list with key `k`. -/
def alFind (k : K) : List (K × V) → Option V
  | [] => none
  | p :: t => if p.1 = k then some p.2 else alFind k t

/-- Rewrite the entry with key `k` in place, or add a new entry at the end. -/
def alSet (k : K) (v : V) : List (K × V) → List (K × V)
  | [] => [(k, v)]
  | p :: t => if p.1 = k then (k, v) :: t else p :: alSet k v t

theorem alSet_keys (k : K) (v : V) (l : List (K × V)) :
    (alSet k v l).map Prod.fst =
      if k ∈ l.map Prod.fst then l.map Prod.fst else l.map Prod.fst ++ [k] := by
  induction l with
  | nil => simp [alSet]
  | cons p t ih =>
    by_cases hp : p.1 = k
    · simp [alSet, hp]
    · have hp' : ¬ k = p.1 := fun e => hp e.symm
      simp only [alSet, hp, if_false, List.map_cons, ih, List.mem_cons, hp', false_or]
      split <;> simp

theorem alSet_nodup (k : K) (v : V) {l : List (K × V)}
    (h : (l.map Prod.fst).Nodup) : ((alSet k v l).map Prod.fst).Nodup := by
  rw [alSet_keys]
  split
  · exact h
  · rename_i hk
    rw [List.nodup_append]
    refine ⟨h, List.nodup_singleton k, ?_⟩
    intro a ha hb
    rw [List.mem_singleton] at hb
    subst hb
    exact hk ha

end AssocList

/-! ## `llvm::DenseMap` -/

/-- The container `llvm::DenseMap<K, V>`: entries with pairwise different keys. -/
structure DenseMap (K V : Type) where
  entries : List (K × V)
  nodup : (entries.map Prod.fst).Nodup

namespace DenseMap

theorem ext_entries {K V : Type} {a b : DenseMap K V} (h : a.entries = b.entries) : a = b := by
  cases a; cases b; cases h; rfl

variable {K V : Type} [DecidableEq K]

instance [DecidableEq V] : DecidableEq (DenseMap K V) := fun a b =>
  if h : a.entries = b.entries then isTrue (ext_entries h)
  else isFalse (fun e => h (e ▸ rfl))

/-- The default-constructed (empty) map. -/
def empty : DenseMap K V := ⟨[], List.nodup_nil⟩

/-- The keys, in iteration order. -/
def keys (m : DenseMap K V) : List K := m.entries.map Prod.fst

/-- The lookup `m.find(k)`. -/
def find? (m : DenseMap K V) (k : K) : Option V := alFind k m.entries

/-- The test `m.count(k) != 0`. -/
def contains (m : DenseMap K V) (k : K) : Bool := (m.find? k).isSome

/-- The assignment `m[k] = v`. -/
def set (m : DenseMap K V) (k : K) (v : V) : DenseMap K V :=
  ⟨alSet k v m.entries, alSet_nodup k v m.nodup⟩

/-- The access `m[k]`, which default-constructs a missing entry: the map after
the access and the value the returned reference points to. -/
def getOrInsert (m : DenseMap K V) (k : K) (dflt : V) : DenseMap K V × V :=
  match m.find? k with
  | some v => (m, v)
  | none => (m.set k dflt, dflt)

/-- The number of entries, `m.size()`. -/
def size (m : DenseMap K V) : Nat := m.entries.length

end DenseMap

/-! ## The control-flow graph and the analyzer -/

/-- A block reference `CFGBlock*`: the address of the block. -/
abbrev CFGBlock := Nat

/-- A fact key `InternedString`: the identity of the interned name. -/
abbrev InternedString := Nat

/-- Modelled from the spec: `core/cfg.h` is not part of the sources.  The engine
reads `cfg->blocks`, `cfg->getStartingBlock()`, and of a block `idx` and
`successors` (an ordered list of block references). -/
structure CFG where
  blocks : List CFGBlock
  startingBlock : CFGBlock
  idx : CFGBlock → Int
  successors : CFGBlock → List CFGBlock

/-- The type `BBAnalyzer<T>::Map`. -/
abbrev Map (T : Type) := DenseMap InternedString T

/-- The type `BBAnalyzer<T>::AllMap`. -/
abbrev AllMap (T : Type) := DenseMap CFGBlock (Map T)

/-- The class `BBAnalyzer<T>`.  `processBB` mutates the map it is given; here it
returns the map it leaves behind. -/
structure BBAnalyzer (T : Type) where
  merge : T → T → T
  mergeBlank : T → T
  processBB : Map T → CFGBlock → Map T

/-- The comparator `CFGBlockMinIndex::operator()`. -/
def CFGBlockMinIndex (cfg : CFG) (lhs rhs : CFGBlock) : Bool :=
  decide (cfg.idx lhs > cfg.idx rhs)

/-! ## `std::priority_queue` and `llvm::SmallPtrSet` -/

/-- The element `top()` of a priority queue with comparator `cmp`: scanning the
pending elements, the candidate is replaced whenever `cmp` orders it before
the next element. -/
def pqTop {α : Type} (cmp : α → α → Bool) : List α → Option α
  | [] => none
  | a :: t => some (t.foldl (fun best x => if cmp best x then x else best) a)

/-- The queue after `pop()`, which removes the element `top()`. -/
def pqPop {α : Type} [DecidableEq α] (cmp : α → α → Bool) (q : List α) : List α :=
  match pqTop cmp q with
  | none => q
  | some a => q.erase a

/-- The queue after `push(a)`. -/
def pqPush {α : Type} (q : List α) (a : α) : List α := q ++ [a]

/-- The call `set.insert(b)` on a `SmallPtrSet`: the set afterwards and `.second`,
which tells whether `b` was new. -/
def setInsert (s : List CFGBlock) (b : CFGBlock) : List CFGBlock × Bool :=
  if b ∈ s then (s, false) else (b :: s, true)

/-- The call `set.erase(b)` on a `SmallPtrSet`. -/
def setErase (s : List CFGBlock) (b : CFGBlock) : List CFGBlock :=
  s.filter (fun x => decide (x ≠ b))

/-! ## The engine -/

/-- A call of the analyzer made while one edge is propagated, with the key it
was made for. -/
inductive AnalyzerCall (T : Type) where
  | merge (key : InternedString) (src into : T)
  | mergeBlank (key : InternedString) (into : T)
  deriving DecidableEq

/-- The variables of one successor update: the map `next`, the flag `changed`
and the calls of the analyzer made so far. -/
structure EdgeState (T : Type) where
  next : Map T
  changed : Bool
  calls : List (AnalyzerCall T)

section Engine

variable {T : Type} [DecidableEq T]

/-- One round of the loop `for (const auto& p : ending)` (lines 88-105). -/
def mergeEntry (analyzer : BBAnalyzer T) (initial : Bool) (e : EdgeState T)
    (p : InternedString × T) : EdgeState T :=
  match e.next.find? p.1 with
  | none =>
    if initial then
      { next := e.next.set p.1 p.2, changed := true, calls := e.calls }
    else
      { next := e.next.set p.1 (analyzer.mergeBlank p.2), changed := true,
        calls := e.calls ++ [AnalyzerCall.mergeBlank p.1 p.2] }
  | some next_elt =>
    let new_elt := analyzer.merge p.2 next_elt
    if next_elt ≠ new_elt then
      { next := e.next.set p.1 new_elt, changed := true,
        calls := e.calls ++ [AnalyzerCall.merge p.1 p.2 next_elt] }
    else
      { next := e.next, changed := e.changed,
        calls := e.calls ++ [AnalyzerCall.merge p.1 p.2 next_elt] }

/-- One round of the loop `for (const auto& p : next)` (lines 107-116).  The
loop assigns only to the key it is visiting, so `p` is the entry as it was
when the loop began. -/
def blankEntry (analyzer : BBAnalyzer T) (ending : Map T) (e : EdgeState T)
    (p : InternedString × T) : EdgeState T :=
  if ending.contains p.1 then e
  else
    let next_elt := analyzer.mergeBlank p.2
    if next_elt ≠ p.2 then
      { next := e.next.set p.1 next_elt, changed := true,
        calls := e.calls ++ [AnalyzerCall.mergeBlank p.1 p.2] }
    else
      { next := e.next, changed := e.changed,
        calls := e.calls ++ [AnalyzerCall.mergeBlank p.1 p.2] }

/-- The two loops over the keys (lines 88-116), started with the map `next`
and the flags `changed` and `initial`. -/
def mergeEdge (analyzer : BBAnalyzer T) (ending : Map T) (initial changed : Bool)
    (next : Map T) : EdgeState T :=
  let e1 := ending.entries.foldl (mergeEntry analyzer initial)
    { next := next, changed := changed, calls := [] }
  e1.next.entries.foldl (blankEntry analyzer ending) e1

/-- The local variables of `computeFixedPoint` that live across iterations.
The counter `num_evaluations` is only ever incremented and printed. -/
structure FPState (T : Type) where
  starting_states : AllMap T
  ending_states : AllMap T
  in_queue : List CFGBlock
  q : List CFGBlock
  num_evaluations : Nat

/-- The statement `if (changed && in_queue.insert(next_block).second) q.push(next_block)`
(lines 118-120), on the membership set and the queue. -/
def enqueueIfChanged (changed : Bool) (next_block : CFGBlock)
    (in_queue q : List CFGBlock) : List CFGBlock × List CFGBlock :=
  if changed then
    let r := setInsert in_queue next_block
    if r.2 then (r.1, pqPush q next_block) else (r.1, q)
  else (in_queue, q)

/-- Lines 80-116 for the successor `next_block`: the flags `changed` and
`initial` are set when `starting_states` has no entry for it, `next` is
`starting_states[next_block]`, and the two loops run. -/
def successorEdge (analyzer : BBAnalyzer T) (ending : Map T) (st : FPState T)
    (next_block : CFGBlock) : EdgeState T :=
  let initial := !st.starting_states.contains next_block
  let changed := initial
  let next := (st.starting_states.getOrInsert next_block DenseMap.empty).2
  mergeEdge analyzer ending initial changed next

/-- One round of the loop over `block->successors` (lines 79-120): `next` is a
reference into `starting_states`, so what the loops leave in it is the new
entry of `next_block`. -/
def updateSuccessor (analyzer : BBAnalyzer T) (ending : Map T) (st : FPState T)
    (next_block : CFGBlock) : FPState T :=
  let e := successorEdge analyzer ending st next_block
  let r := st.starting_states.getOrInsert next_block DenseMap.empty
  let w := enqueueIfChanged e.changed next_block st.in_queue st.q
  { st with starting_states := r.1.set next_block e.next, in_queue := w.1, q := w.2 }

/-- The exit map of `block`: a copy of `starting_states[block]` run through
`processBB` (lines 70-76), together with the table after the access. -/
def exitMap (analyzer : BBAnalyzer T) (block : CFGBlock) (st : FPState T) :
    AllMap T × Map T :=
  let r := st.starting_states.getOrInsert block DenseMap.empty
  (r.1, analyzer.processBB r.2 block)

/-- The loop body from line 70 on: transfer, propagation to the successors,
and the write to `ending_states`. -/
def processBlock (cfg : CFG) (analyzer : BBAnalyzer T) (block : CFGBlock)
    (st : FPState T) : FPState T :=
  let x := exitMap analyzer block st
  let st1 := (cfg.successors block).foldl (updateSuccessor analyzer x.2)
    { st with starting_states := x.1 }
  { st1 with ending_states := st1.ending_states.set block x.2 }

/-- Lines 65-68: count the evaluation and take `block` off the queue and out of
the membership set. -/
def popBlock (cfg : CFG) (block : CFGBlock) (st : FPState T) : FPState T :=
  { st with
    num_evaluations := st.num_evaluations + 1
    q := pqPop (CFGBlockMinIndex cfg) st.q
    in_queue := setErase st.in_queue block }

/-- One iteration of the `while` loop; `none` when the queue is empty. -/
def step (cfg : CFG) (analyzer : BBAnalyzer T) (st : FPState T) : Option (FPState T) :=
  match pqTop (CFGBlockMinIndex cfg) st.q with
  | none => none
  | some block => some (processBlock cfg analyzer block (popBlock cfg block st))

/-- The state before the loop (lines 53-63). -/
def initState (cfg : CFG) : FPState T :=
  { starting_states := (DenseMap.empty : AllMap T).set cfg.startingBlock DenseMap.empty
    ending_states := DenseMap.empty
    in_queue := (setInsert [] cfg.startingBlock).1
    q := pqPush [] cfg.startingBlock
    num_evaluations := 0 }

/-- The `while` loop, cut off after `fuel` iterations: the state in which the
loop ends, or `none` when the queue is not yet empty by then. -/
def loop (cfg : CFG) (analyzer : BBAnalyzer T) : Nat → FPState T → Option (FPState T)
  | 0, st => if st.q = [] then some st else none
  | fuel + 1, st =>
    match step cfg analyzer st with
    | none => some st
    | some st1 => loop cfg analyzer fuel st1

/-- The state after `n` iterations, as long as the loop is running. -/
def iterate (cfg : CFG) (analyzer : BBAnalyzer T) : Nat → FPState T → Option (FPState T)
  | 0, st => some st
  | n + 1, st =>
    match step cfg analyzer st with
    | none => none
    | some st1 => iterate cfg analyzer n st1

/-- The blocks evaluated by the first `n` iterations, in order. -/
def evalTrace (cfg : CFG) (analyzer : BBAnalyzer T) : Nat → FPState T → List CFGBlock
  | 0, _ => []
  | n + 1, st =>
    match pqTop (CFGBlockMinIndex cfg) st.q, step cfg analyzer st with
    | some block, some st1 => block :: evalTrace cfg analyzer n st1
    | _, _ => []

/-- The ways a call of `computeFixedPoint` can fail to return. -/
inductive Failure where
  | assertion
  | outOfFuel
  deriving DecidableEq

/-- The function `computeFixedPoint` with the loop cut off after `fuel`
iterations. `ndebug` tells whether the function is compiled with `NDEBUG`
defined: line 49, `assert(!reverse)`, is the only place that reads `reverse`,
and the `assert` of `<cassert>` checks its condition when `NDEBUG` is not
defined and expands to nothing when it is. -/
def computeFixedPoint (ndebug : Bool) (cfg : CFG) (analyzer : BBAnalyzer T) (reverse : Bool)
    (fuel : Nat) : Except Failure (AllMap T) :=
  if reverse && !ndebug then Except.error Failure.assertion
  else
    match loop cfg analyzer fuel (initState cfg) with
    | some st => Except.ok st.ending_states
    | none => Except.error Failure.outOfFuel

end Engine

/-! ## Notions used in the statements, and example inputs -/

/-- The key an analyzer call was made for. -/
def AnalyzerCall.key {T : Type} : AnalyzerCall T → InternedString
  | AnalyzerCall.merge k _ _ => k
  | AnalyzerCall.mergeBlank k _ => k

/-- The calls in a log that were made for key `k`. -/
def callsFor {T : Type} (k : InternedString) (calls : List (AnalyzerCall T)) :
    List (AnalyzerCall T) :=
  calls.filter (fun c => decide (c.key = k))

section EdgeFactsDefs

variable {T : Type} [DecidableEq T]

/-- The value the first loop leaves at a key of the exit map, given the value
the successor had there. -/
def joined (analyzer : BBAnalyzer T) (initial : Bool) (v : T) : Option T → T
  | none => if initial then v else analyzer.mergeBlank v
  | some m => analyzer.merge v m

/-- The calls the first loop makes at a key of the exit map. -/
def joinedCalls (initial : Bool) (k : InternedString) (v : T) :
    Option T → List (AnalyzerCall T)
  | none => if initial then [] else [AnalyzerCall.mergeBlank k v]
  | some m => [AnalyzerCall.merge k v m]

/-- The value a key has after one successor update, from its values in the exit
map and in the successor's map before the update. -/
def edgeValue (analyzer : BBAnalyzer T) (initial : Bool) : Option T → Option T → Option T
  | some v, m => some (joined analyzer initial v m)
  | none, some m => some (analyzer.mergeBlank m)
  | none, none => none

/-- The analyzer calls one successor update makes for key `k`. -/
def edgeCalls (initial : Bool) (k : InternedString) :
    Option T → Option T → List (AnalyzerCall T)
  | some v, m => joinedCalls initial k v m
  | none, some m => [AnalyzerCall.mergeBlank k m]
  | none, none => []

end EdgeFactsDefs

/-- The map with the single entry `x ↦ v`, where `x` is the name `0`. -/
def singleFact (v : Nat) : Map Nat := (DenseMap.empty : Map Nat).set 0 v

/-- Analyzer over `Nat` with `merge = max` and `mergeBlank = id`; block `0` sets
`x = 5`, every other block leaves its map alone. -/
def maxAnalyzer : BBAnalyzer Nat where
  merge := fun src into => max src into
  mergeBlank := fun into => into
  processBB := fun m b => if b = 0 then m.set 0 5 else m

/-- The graph `0 → 1` with the block addresses as indices. -/
def linearCfg : CFG where
  blocks := [0, 1]
  startingBlock := 0
  idx := fun b => (b : Int)
  successors := fun b => if b = 0 then [1] else []

/-- The state of the engine on `linearCfg` after block `0` has been evaluated. -/
def linearMid : FPState Nat where
  starting_states :=
    ((DenseMap.empty : AllMap Nat).set 0 DenseMap.empty).set 1 (singleFact 5)
  ending_states := (DenseMap.empty : AllMap Nat).set 0 (singleFact 5)
  in_queue := [1]
  q := [1]
  num_evaluations := 1

section ReachDefs

variable {T : Type} [DecidableEq T]

/-- The states in which the loop condition is tested. -/
inductive Reachable (cfg : CFG) (analyzer : BBAnalyzer T) : FPState T → Prop where
  | init : Reachable cfg analyzer (initState cfg)
  | next {st st1 : FPState T} : Reachable cfg analyzer st →
      step cfg analyzer st = some st1 → Reachable cfg analyzer st1

/-- The state inside the iteration that begins in `st`, after the transfer
function and the first `i` successor updates. -/
def midState (cfg : CFG) (analyzer : BBAnalyzer T) (st : FPState T) (i : Nat) :
    Option (FPState T) :=
  match pqTop (CFGBlockMinIndex cfg) st.q with
  | none => none
  | some block =>
    let x := exitMap analyzer block (popBlock cfg block st)
    some (((cfg.successors block).take i).foldl (updateSuccessor analyzer x.2)
      { popBlock cfg block st with starting_states := x.1 })

/-- A block that some path of successor edges leads to from the starting block. -/
def GraphReach (cfg : CFG) (b : CFGBlock) : Prop :=
  Relation.ReflTransGen (fun x y => y ∈ cfg.successors x) cfg.startingBlock b

/-- The queue holds no block twice and the membership set holds the queued blocks. -/
def QueueInv (st : FPState T) : Prop :=
  st.q.Nodup ∧ ∀ b, b ∈ st.in_queue ↔ b ∈ st.q

/-- Every block in a table, in the membership set or in the queue is reachable. -/
def AllReach (cfg : CFG) (st : FPState T) : Prop :=
  ∀ b, (b ∈ st.starting_states.keys ∨ b ∈ st.ending_states.keys ∨ b ∈ st.in_queue ∨ b ∈ st.q) →
    GraphReach cfg b

/-- The states the engine is in at the loop head and inside an iteration. -/
def Visited (cfg : CFG) (analyzer : BBAnalyzer T) (st1 : FPState T) : Prop :=
  Reachable cfg analyzer st1 ∨
    ∃ st i, Reachable cfg analyzer st ∧ midState cfg analyzer st i = some st1

/-- At the loop head: the starting block has an entry, a block with an entry
in `starting_states` is pending or has been evaluated, and the successors of
an evaluated block have entries in `starting_states`. -/
def Covers (cfg : CFG) (st : FPState T) : Prop :=
  cfg.startingBlock ∈ st.starting_states.keys ∧
  (∀ b, b ∈ st.starting_states.keys → b ∈ st.in_queue ∨ b ∈ st.ending_states.keys) ∧
  (∀ b, b ∈ st.ending_states.keys → ∀ s ∈ cfg.successors b, s ∈ st.starting_states.keys)

/-- The same inside the iteration that evaluates `block`. -/
def CoversMid (cfg : CFG) (block : CFGBlock) (st : FPState T) : Prop :=
  cfg.startingBlock ∈ st.starting_states.keys ∧
  (∀ b, b ∈ st.starting_states.keys →
    b = block ∨ b ∈ st.in_queue ∨ b ∈ st.ending_states.keys) ∧
  (∀ b, b ∈ st.ending_states.keys → ∀ s ∈ cfg.successors b, s ∈ st.starting_states.keys)

/-- The table `computeFixedPoint` returns on `linearCfg` with `maxAnalyzer`. -/
def linearResult : AllMap Nat :=
  ((DenseMap.empty : AllMap Nat).set 0 (singleFact 5)).set 1 (singleFact 5)

/-- The laws of the analyzer under which a finished run is stable: `merge` is
a semilattice join, `mergeBlank` is above its argument and idempotent, and a
value `mergeBlank` leaves alone is still left alone after a merge into it. -/
structure StableLaws (analyzer : BBAnalyzer T) : Prop where
  merge_idem : ∀ a, analyzer.merge a a = a
  merge_comm : ∀ a b, analyzer.merge a b = analyzer.merge b a
  merge_assoc : ∀ a b c, analyzer.merge (analyzer.merge a b) c =
    analyzer.merge a (analyzer.merge b c)
  blank_above : ∀ a, analyzer.merge a (analyzer.mergeBlank a) = analyzer.mergeBlank a
  blank_idem : ∀ a, analyzer.mergeBlank (analyzer.mergeBlank a) = analyzer.mergeBlank a
  blank_merge : ∀ a b, analyzer.mergeBlank b = b →
    analyzer.mergeBlank (analyzer.merge a b) = analyzer.merge a b

/-- The map `m` already holds everything the exit map `ending` would add: an
update of `m` from `ending` changes no value. -/
def Absorbed (analyzer : BBAnalyzer T) (ending m : Map T) : Prop :=
  (∀ k e, ending.find? k = some e → ∃ v, m.find? k = some v ∧ analyzer.merge e v = v) ∧
  (∀ k v, ending.find? k = none → m.find? k = some v → analyzer.mergeBlank v = v)

/-- The successor `s` has a starting map that absorbs `ending`. -/
def SuccAbsorbed (analyzer : BBAnalyzer T) (ending : Map T) (s : CFGBlock)
    (st : FPState T) : Prop :=
  ∃ m, st.starting_states.find? s = some m ∧ Absorbed analyzer ending m

/-- At the loop head, for an evaluated block that is not pending: its exit map
is the transfer of its current starting map, and every successor's starting
map absorbs that exit map. -/
def Settled (cfg : CFG) (analyzer : BBAnalyzer T) (st : FPState T) : Prop :=
  ∀ b e, st.ending_states.find? b = some e → b ∉ st.in_queue →
    (∃ m, st.starting_states.find? b = some m ∧ analyzer.processBB m b = e) ∧
    ∀ s ∈ cfg.successors b, SuccAbsorbed analyzer e s st

/-- The same inside the iteration that evaluates `block` with exit map `ending`. -/
def SettledMid (cfg : CFG) (analyzer : BBAnalyzer T) (block : CFGBlock) (ending : Map T)
    (st : FPState T) : Prop :=
  (∀ b e, b ≠ block → st.ending_states.find? b = some e → b ∉ st.in_queue →
    (∃ m, st.starting_states.find? b = some m ∧ analyzer.processBB m b = e) ∧
    ∀ s ∈ cfg.successors b, SuccAbsorbed analyzer e s st) ∧
  (block ∉ st.in_queue →
    ∃ m, st.starting_states.find? block = some m ∧ analyzer.processBB m block = ending)

end ReachDefs

/-- The state in which the loop ends on `linearCfg` with `maxAnalyzer`. -/
def linearFinal : FPState Nat where
  starting_states :=
    ((DenseMap.empty : AllMap Nat).set 0 DenseMap.empty).set 1 (singleFact 5)
  ending_states := linearResult
  in_queue := []
  q := []
  num_evaluations := 2

/-- The graph `0 → 1, 0 → 2, 0 → 3, 1 → 4, 2 → 4, 3 → 4` with the block
addresses as indices. -/
def fanCfg : CFG where
  blocks := [0, 1, 2, 3, 4]
  startingBlock := 0
  idx := fun b => (b : Int)
  successors := fun b =>
    if b = 0 then [1, 2, 3] else if b = 1 ∨ b = 2 ∨ b = 3 then [4] else []

/-- Analyzer over `Nat` with `merge = max` and a `mergeBlank` that widens `1` to
`2` and keeps every other value; block `1` sets `x = 0`, block `3` sets `x = 1`,
the other blocks leave their map alone. -/
def widenAnalyzer : BBAnalyzer Nat where
  merge := fun src into => max src into
  mergeBlank := fun into => if into = 1 then 2 else into
  processBB := fun m b => if b = 1 then m.set 0 0 else if b = 3 then m.set 0 1 else m

/-- The state in which the loop ends on `fanCfg` with `widenAnalyzer`. -/
def fanFinal : FPState Nat where
  starting_states :=
    (((((DenseMap.empty : AllMap Nat).set 0 DenseMap.empty).set 1 DenseMap.empty).set 2
      DenseMap.empty).set 3 DenseMap.empty).set 4 (singleFact 1)
  ending_states :=
    (((((DenseMap.empty : AllMap Nat).set 0 DenseMap.empty).set 1 (singleFact 0)).set 2
      DenseMap.empty).set 3 (singleFact 1)).set 4 (singleFact 1)
  in_queue := []
  q := []
  num_evaluations := 5

/-- The graph `0 → 1, 1 → 2, 2 → 1, 2 → 3, 3 → 2` with the block addresses as
indices: block `2` joins the exits of blocks `1` and `3` and feeds both. -/
def cycleCfg : CFG where
  blocks := [0, 1, 2, 3]
  startingBlock := 0
  idx := fun b => (b : Int)
  successors := fun b =>
    if b = 0 then [1] else if b = 1 then [2] else if b = 2 then [1, 3]
    else if b = 3 then [2] else []

/-- Analyzer over `Bool` whose `merge` returns the arriving value and whose
`mergeBlank` is the identity; block `1` sets `x = false`, block `3` sets
`x = true`, the other blocks leave their map alone. -/
def projAnalyzer : BBAnalyzer Bool where
  merge := fun src _ => src
  mergeBlank := fun into => into
  processBB := fun m b => if b = 1 then m.set 0 false else if b = 3 then m.set 0 true else m

/-- The order `false ≤ true` on `Bool`. -/
def boolLe (a b : Bool) : Prop := a = false ∨ b = true

/-- The graph `0 → 1, 1 → 1` with the block addresses as indices. -/
def growCfg : CFG where
  blocks := [0, 1]
  startingBlock := 0
  idx := fun b => (b : Int)
  successors := fun b => if b = 0 then [1] else if b = 1 then [1] else []

/-- A key above every key of the map. -/
def freshKey {V : Type} (m : DenseMap InternedString V) : InternedString :=
  m.keys.foldr (fun k acc => max (k + 1) acc) 0

/-- Analyzer over `Unit` (a single fact value); block `1` adds a key that its
map does not have yet. -/
def growAnalyzer : BBAnalyzer Unit where
  merge := fun _ _ => ()
  mergeBlank := fun _ => ()
  processBB := fun m b => if b = 1 then m.set (freshKey m) () else m

/-- A partial order in which a strictly ascending chain has at most `H + 1`
members. -/
structure FiniteHeight {T : Type} (le : T → T → Prop) (H : Nat) : Prop where
  refl : ∀ a, le a a
  trans : ∀ a b c, le a b → le b c → le a c
  antisymm : ∀ a b, le a b → le b a → a = b
  chain : ∀ l : List T, l.Chain' (fun a b => le a b ∧ a ≠ b) → l.length ≤ H + 1

section WeightsDefs

variable {K V : Type} [DecidableEq K]

/-- The sum of the weights of the values of an entry list. -/
def alWeight (w : V → Nat) (l : List (K × V)) : Nat := (l.map (fun p => w p.2)).sum

end WeightsDefs

section EdgeGrowthDefs

variable {T : Type} [DecidableEq T]

/-- The weight of a fact map: every key counts one plus the rank of its value. -/
def mapWeight (rank : T → Nat) (m : Map T) : Nat :=
  alWeight (fun v => 1 + rank v) m.entries

/-- From `e` to `e1` the weight of `next` has not dropped, and it has grown if
`changed` was set on the way. -/
def EdgeGrows (rank : T → Nat) (e e1 : EdgeState T) : Prop :=
  mapWeight rank e.next ≤ mapWeight rank e1.next ∧
  (e1.changed = true → e.changed = true ∨ mapWeight rank e.next < mapWeight rank e1.next)

end EdgeGrowthDefs

/-- The starting block and the successors of the blocks of `cfg` are among
`cfg.blocks`. -/
def CFG.Closed (cfg : CFG) : Prop :=
  cfg.startingBlock ∈ cfg.blocks ∧
  ∀ b ∈ cfg.blocks, ∀ s ∈ cfg.successors b, s ∈ cfg.blocks

section BudgetDefs

variable {T : Type} [DecidableEq T]

/-- The weight of `starting_states`: every entry counts one plus the weight of
its map. -/
def tableWeight (rank : T → Nat) (ss : AllMap T) : Nat :=
  alWeight (fun m => 1 + mapWeight rank m) ss.entries

/-- The evaluations made and those pending are paid for by the weight of
`starting_states`. -/
def Budget (rank : T → Nat) (st : FPState T) : Prop :=
  st.num_evaluations + st.q.length ≤ tableWeight rank st.starting_states

/-- The keys of every map in `starting_states` are among `univ`. -/
def KeysIn (univ : List InternedString) (st : FPState T) : Prop :=
  ∀ b m, st.starting_states.find? b = some m → ∀ k ∈ m.keys, k ∈ univ

end BudgetDefs

/-- Analyzer over `Bool` with `merge = or` and `mergeBlank = id`; block `0` sets
`x = true`, every other block leaves its map alone. -/
def orAnalyzer : BBAnalyzer Bool where
  merge := fun src into => src || into
  mergeBlank := fun into => into
  processBB := fun m b => if b = 0 then m.set 0 true else m

/-- The one-point order on `Unit`. -/
def unitLe (_ _ : Unit) : Prop := True

/-- Both `merge` (in each argument) and `mergeBlank` are monotone for `le`. -/
def MergeMonotone {T : Type} (analyzer : BBAnalyzer T) (le : T → T → Prop) : Prop :=
  (∀ a a1 b b1, le a a1 → le b b1 → le (analyzer.merge a b) (analyzer.merge a1 b1)) ∧
  (∀ a b, le a b → le (analyzer.mergeBlank a) (analyzer.mergeBlank b))

/-- Neither `merge` nor `mergeBlank` goes below the value merged into. -/
def MergeInflationary {T : Type} (analyzer : BBAnalyzer T) (le : T → T → Prop) : Prop :=
  (∀ src into, le into (analyzer.merge src into)) ∧
  (∀ into, le into (analyzer.mergeBlank into))

section TieDefs

variable {T : Type} [DecidableEq T]

/-- Lines 65-68 when `block` is the block taken off the queue. -/
def popAt (block : CFGBlock) (st : FPState T) : FPState T :=
  { st with
    num_evaluations := st.num_evaluations + 1
    q := st.q.erase block
    in_queue := setErase st.in_queue block }

/-- One iteration of the loop that takes `block` off the queue. -/
def evalAt (cfg : CFG) (analyzer : BBAnalyzer T) (block : CFGBlock) (st : FPState T) :
    FPState T :=
  processBlock cfg analyzer block (popAt block st)

/-- The block is pending and no pending block has a smaller index: a block
that `top()` may return. -/
def IsMinPending (cfg : CFG) (st : FPState T) (block : CFGBlock) : Prop :=
  block ∈ st.q ∧ ∀ c ∈ st.q, cfg.idx block ≤ cfg.idx c

/-- The states at the loop head when `top()` may return any pending block of
least index. -/
inductive TieReachable (cfg : CFG) (analyzer : BBAnalyzer T) : FPState T → Prop where
  | init : TieReachable cfg analyzer (initState cfg)
  | next {st : FPState T} {block : CFGBlock} : TieReachable cfg analyzer st →
      IsMinPending cfg st block → TieReachable cfg analyzer (evalAt cfg analyzer block st)

/-- A run of the loop from `st` that evaluates the blocks of the list in turn,
each of them a pending block of least index when it is taken. -/
inductive TieRun (cfg : CFG) (analyzer : BBAnalyzer T) :
    FPState T → List CFGBlock → FPState T → Prop where
  | done (st : FPState T) : TieRun cfg analyzer st [] st
  | next {st st1 : FPState T} {block : CFGBlock} {l : List CFGBlock} :
      IsMinPending cfg st block → TieRun cfg analyzer (evalAt cfg analyzer block st) l st1 →
      TieRun cfg analyzer st (block :: l) st1

end TieDefs

/-- Scenario A: the graph `start → B2` with blocks `0` and `1` and any indices. -/
def scenarioA (idx : CFGBlock → Int) : CFG where
  blocks := [0, 1]
  startingBlock := 0
  idx := idx
  successors := fun b => if b = 0 then [1] else []

/-- Scenario B: the diamond `start → B2, start → B3, B2 → B4, B3 → B4` with
blocks `0, 1, 2, 3` and any indices. -/
def scenarioB (idx : CFGBlock → Int) : CFG where
  blocks := [0, 1, 2, 3]
  startingBlock := 0
  idx := idx
  successors := fun b =>
    if b = 0 then [1, 2] else if b = 1 then [3] else if b = 2 then [3] else []

/-- Analyzer of scenario B over `Nat` with `merge = max` and `mergeBlank = id`;
block `0` sets `x = 1`, block `1` sets `x = 2`, the others leave their map alone. -/
def diamondAnalyzer : BBAnalyzer Nat where
  merge := fun src into => max src into
  mergeBlank := fun into => into
  processBB := fun m b => if b = 0 then m.set 0 1 else if b = 1 then m.set 0 2 else m

/-- Scenario B after `start` has been evaluated. -/
def diamondS1 : FPState Nat where
  starting_states :=
    (((DenseMap.empty : AllMap Nat).set 0 DenseMap.empty).set 1 (singleFact 1)).set 2
      (singleFact 1)
  ending_states := (DenseMap.empty : AllMap Nat).set 0 (singleFact 1)
  in_queue := [2, 1]
  q := [1, 2]
  num_evaluations := 1

/-- Scenario B after `start` and `B2` have been evaluated. -/
def diamondS2 : FPState Nat where
  starting_states := diamondS1.starting_states.set 3 (singleFact 2)
  ending_states := diamondS1.ending_states.set 1 (singleFact 2)
  in_queue := [3, 2]
  q := [2, 3]
  num_evaluations := 2

/-- Scenario B after `start`, `B2` and `B3` have been evaluated. -/
def diamondS3 : FPState Nat where
  starting_states := diamondS2.starting_states
  ending_states := diamondS2.ending_states.set 2 (singleFact 1)
  in_queue := [3]
  q := [3]
  num_evaluations := 3

/-- Scenario B when the loop ends. -/
def diamondS4 : FPState Nat where
  starting_states := diamondS3.starting_states
  ending_states := diamondS3.ending_states.set 3 (singleFact 2)
  in_queue := []
  q := []
  num_evaluations := 4

section RunDefs

variable {T : Type} [DecidableEq T]

/-- Every pending block has an entry in `starting_states`. -/
def QueuedHaveStart (st : FPState T) : Prop :=
  ∀ b, b ∈ st.q → b ∈ st.starting_states.keys

/-- At the loop head, the exit map of an evaluated block that is not pending is
the transfer of its current starting map. -/
def Fresh (analyzer : BBAnalyzer T) (st : FPState T) : Prop :=
  ∀ b e, st.ending_states.find? b = some e → b ∉ st.in_queue →
    ∃ m, st.starting_states.find? b = some m ∧ analyzer.processBB m b = e

/-- The same inside the iteration that evaluates `block` with exit map `ending`. -/
def FreshMid (analyzer : BBAnalyzer T) (block : CFGBlock) (ending : Map T)
    (st : FPState T) : Prop :=
  (∀ b e, b ≠ block → st.ending_states.find? b = some e → b ∉ st.in_queue →
    ∃ m, st.starting_states.find? b = some m ∧ analyzer.processBB m b = e) ∧
  (block ∉ st.in_queue →
    ∃ m, st.starting_states.find? block = some m ∧ analyzer.processBB m block = ending)

/-- The successor `s` has a starting map that is `R`-related to `ending`. -/
def SuccRel (R : Map T → Map T → Prop) (ending : Map T) (s : CFGBlock)
    (st : FPState T) : Prop :=
  ∃ m, st.starting_states.find? s = some m ∧ R ending m

/-- Along every edge out of an evaluated block, the block's exit map is
`R`-related to the successor's starting map. -/
def EdgeRel (cfg : CFG) (R : Map T → Map T → Prop) (st : FPState T) : Prop :=
  ∀ b e, st.ending_states.find? b = some e → ∀ s ∈ cfg.successors b, SuccRel R e s st

/-- Every key of the first map is a key of the second. -/
def KeysSubset (a b : Map T) : Prop := ∀ k, k ∈ a.keys → k ∈ b.keys

/-- Every value of the first map is below the value the second map has at the
same key. -/
def MapLe (le : T → T → Prop) (a b : Map T) : Prop :=
  ∀ k v, a.find? k = some v → ∃ w, b.find? k = some w ∧ le v w

end RunDefs

/-- Scenario D: the loop `S → H, H → B, H → E, B → H` with blocks `0, 1, 2, 3`
and any indices. -/
def scenarioD (idx : CFGBlock → Int) : CFG where
  blocks := [0, 1, 2, 3]
  startingBlock := 0
  idx := idx
  successors := fun b =>
    if b = 0 then [1] else if b = 1 then [2, 3] else if b = 2 then [1] else []

section ScenarioDDefs

variable {T : Type} [DecidableEq T]

/-- The map with the single entry `y ↦ v`, where `y` is the name `0`. -/
def oneFact (v : T) : Map T := (DenseMap.empty : Map T).set 0 v

/-- Analyzer of scenario D with the given `merge` and `mergeBlank`: the loop
body `B` (block `2`) sets `y := v`, every other block leaves its map alone. -/
def loopAnalyzer (merge : T → T → T) (mergeBlank : T → T) (v : T) : BBAnalyzer T where
  merge := merge
  mergeBlank := mergeBlank
  processBB := fun m b => if b = 2 then m.set 0 v else m

/-- Scenario D after `S` has been evaluated. -/
def widenS1 : FPState T where
  starting_states := ((DenseMap.empty : AllMap T).set 0 DenseMap.empty).set 1 DenseMap.empty
  ending_states := (DenseMap.empty : AllMap T).set 0 DenseMap.empty
  in_queue := [1]
  q := [1]
  num_evaluations := 1

/-- Scenario D after `S, H` have been evaluated. -/
def widenS2 : FPState T where
  starting_states :=
    ((widenS1 : FPState T).starting_states.set 2 DenseMap.empty).set 3 DenseMap.empty
  ending_states := (widenS1 : FPState T).ending_states.set 1 DenseMap.empty
  in_queue := [3, 2]
  q := [2, 3]
  num_evaluations := 2

/-- Scenario D after `S, H, B` have been evaluated. -/
def widenS3 (mergeBlank : T → T) (v : T) : FPState T where
  starting_states := (widenS2 : FPState T).starting_states.set 1 (oneFact (mergeBlank v))
  ending_states := (widenS2 : FPState T).ending_states.set 2 (oneFact v)
  in_queue := [1, 3]
  q := [3, 1]
  num_evaluations := 3

/-- Scenario D after `S, H, B, H` have been evaluated. -/
def widenS4 (mergeBlank : T → T) (v : T) : FPState T where
  starting_states :=
    ((widenS3 mergeBlank v).starting_states.set 2 (oneFact (mergeBlank (mergeBlank v)))).set 3
      (oneFact (mergeBlank (mergeBlank v)))
  ending_states := (widenS3 mergeBlank v).ending_states.set 1 (oneFact (mergeBlank v))
  in_queue := [2, 3]
  q := [3, 2]
  num_evaluations := 4

/-- Scenario D after `S, H, B, H, B` have been evaluated. -/
def widenS5 (mergeBlank : T → T) (v : T) : FPState T where
  starting_states := (widenS4 mergeBlank v).starting_states
  ending_states := (widenS4 mergeBlank v).ending_states.set 2 (oneFact v)
  in_queue := [3]
  q := [3]
  num_evaluations := 5

/-- Scenario D when the loop ends, after `S, H, B, H, B, E` have been evaluated. -/
def widenS6 (mergeBlank : T → T) (v : T) : FPState T where
  starting_states := (widenS5 mergeBlank v).starting_states
  ending_states :=
    (widenS5 mergeBlank v).ending_states.set 3 (oneFact (mergeBlank (mergeBlank v)))
  in_queue := []
  q := []
  num_evaluations := 6

end ScenarioDDefs

/-- Analyzer of scenario C over the integers `0, ..., K` with `merge = max` and
`mergeBlank = id`: block `b` sets `x` (the name `0`) to `c b` when that is a
value, and leaves its map alone otherwise. -/
def constAnalyzer (K : Nat) (c : CFGBlock → Option (Fin (K + 1))) :
    BBAnalyzer (Fin (K + 1)) where
  merge := fun src into => max src into
  mergeBlank := fun into => into
  processBB := fun m b =>
    match c b with
    | some n => m.set 0 n
    | none => m

/-- The value of `x` at the exit of block `b` when it is `v` (or absent) at the
entry, for the analyzer `constAnalyzer K c`. -/
def outValue {α : Type} (c : CFGBlock → Option α) (b : CFGBlock) (v : Option α) : Option α :=
  match c b with
  | some n => some n
  | none => v

/-- The value `v` of `x` (or its absence) is carried into block `b` along some
path of successor edges from the starting block. -/
inductive Carried {α : Type} (cfg : CFG) (c : CFGBlock → Option α) :
    CFGBlock → Option α → Prop where
  | start : Carried cfg c cfg.startingBlock none
  | edge {b s : CFGBlock} {v : Option α} : Carried cfg c b v → s ∈ cfg.successors b →
      Carried cfg c s (outValue c b v)

/-- The order on optional values in which an absent value is below every value. -/
def optLe {α : Type} (le : α → α → Prop) : Option α → Option α → Prop
  | none, _ => True
  | some _, none => False
  | some a, some b => le a b

/-- Scenario C on the one-block graph with a self-loop. -/
def selfLoopCfg : CFG where
  blocks := [0]
  startingBlock := 0
  idx := fun b => (b : Int)
  successors := fun b => if b = 0 then [0] else []

section OrderDefs

variable {T : Type} [DecidableEq T]

/-- At the loop head: every evaluated block has a smaller index than every
pending block, and each evaluation so far was of a different block. -/
def Ordered (cfg : CFG) (st : FPState T) : Prop :=
  (∀ e ∈ st.ending_states.keys, ∀ p ∈ st.q, cfg.idx e < cfg.idx p) ∧
  st.num_evaluations = st.ending_states.keys.length

/-- The same inside the iteration that evaluates `block`. -/
def OrderedMid (cfg : CFG) (block : CFGBlock) (st : FPState T) : Prop :=
  (∀ e ∈ st.ending_states.keys, ∀ p ∈ st.q, cfg.idx e < cfg.idx p) ∧
  (∀ p ∈ st.q, cfg.idx block < cfg.idx p) ∧
  (∀ e ∈ st.ending_states.keys, cfg.idx e < cfg.idx block) ∧
  st.num_evaluations = st.ending_states.keys.length + 1 ∧
  GraphReach cfg block

end OrderDefs

section TieBreakDefs

variable {T : Type} [DecidableEq T]

/-- Two maps with the same keys and the same value at every key. -/
def MapEq (a b : Map T) : Prop := ∀ k, a.find? k = b.find? k

/-- Two tables with the same blocks and, at every block, maps with the same
keys and values. -/
def TableEq (a b : AllMap T) : Prop :=
  (∀ c, c ∈ a.keys ↔ c ∈ b.keys) ∧
  ∀ c m m1, a.find? c = some m → b.find? c = some m1 → MapEq m m1

/-- The laws under which the order of arrival at a block does not matter:
`merge` is commutative and associative, `mergeBlank` is idempotent and moves
through `merge`, and `processBB` looks only at the keys and values of its
map. -/
structure TieLaws (analyzer : BBAnalyzer T) : Prop where
  merge_comm : ∀ a b, analyzer.merge a b = analyzer.merge b a
  merge_assoc : ∀ a b c,
    analyzer.merge (analyzer.merge a b) c = analyzer.merge a (analyzer.merge b c)
  blank_idem : ∀ a, analyzer.mergeBlank (analyzer.mergeBlank a) = analyzer.mergeBlank a
  blank_merge : ∀ a b,
    analyzer.mergeBlank (analyzer.merge a b) = analyzer.merge a (analyzer.mergeBlank b)
  transfer_ext : ∀ m m1 b, MapEq m m1 →
    MapEq (analyzer.processBB m b) (analyzer.processBB m1 b)

/-- What one arrival of an exit map does to one key of a successor's entry:
`none` is a successor without an entry, `some none` an entry without the key. -/
def keyJoin (analyzer : BBAnalyzer T) : Option (Option T) → Option T → Option (Option T)
  | none, a => some a
  | some c, a => some (edgeValue analyzer false a c)

/-- The state of key `k` in the entry map of block `b`. -/
def entryVal (st : FPState T) (b : CFGBlock) (k : InternedString) : Option (Option T) :=
  (st.starting_states.find? b).map (fun m => m.find? k)

/-- The value of key `k` in the exit map of block `p`, if any. -/
def exitVal (st : FPState T) (p : CFGBlock) (k : InternedString) : Option T :=
  (st.ending_states.find? p).bind (fun e => e.find? k)

/-- The state of a key of block `b` before the loop. -/
def firstVal (cfg : CFG) (b : CFGBlock) : Option (Option T) :=
  if b = cfg.startingBlock then some none else none

/-- The values of key `k` that arrive at block `b` when the blocks of `l` are
evaluated in turn, one for every edge into `b`. -/
def arrivals (cfg : CFG) (st : FPState T) (b : CFGBlock) (k : InternedString)
    (l : List CFGBlock) : List (Option T) :=
  l.flatMap (fun p => List.replicate ((cfg.successors p).count b) (exitVal st p k))

/-- The blocks evaluated so far were evaluated once each, in some order `l`,
and every entry map is what the arrivals in that order make it. -/
def Hist (cfg : CFG) (analyzer : BBAnalyzer T) (st : FPState T) : Prop :=
  ∃ l : List CFGBlock, l.Nodup ∧ (∀ p, p ∈ l ↔ p ∈ st.ending_states.keys) ∧
    ∀ b k, entryVal st b k = (arrivals cfg st b k l).foldl (keyJoin analyzer) (firstVal cfg b)

/-- At the loop head: no evaluated block has a larger index than a pending
block, and no evaluated block is pending. -/
def Sorted (cfg : CFG) (st : FPState T) : Prop :=
  (∀ e ∈ st.ending_states.keys, ∀ p ∈ st.q, cfg.idx e ≤ cfg.idx p) ∧
  (∀ e ∈ st.ending_states.keys, e ∉ st.q)

/-- The same inside the iteration that evaluates `block`. -/
def SortedMid (cfg : CFG) (block : CFGBlock) (st : FPState T) : Prop :=
  (∀ e ∈ st.ending_states.keys, ∀ p ∈ st.q, cfg.idx e ≤ cfg.idx p) ∧
  (∀ e ∈ st.ending_states.keys, e ∉ st.q) ∧
  (∀ p ∈ st.q, cfg.idx block ≤ cfg.idx p) ∧
  (∀ e ∈ st.ending_states.keys, cfg.idx e ≤ cfg.idx block) ∧
  block ∉ st.q ∧ block ∉ st.ending_states.keys

end TieBreakDefs

/-- The graph `0 → 1, 0 → 2, 0 → 3, 1 → 4, 2 → 4, 3 → 4` in which the blocks
`1`, `2` and `3` share the index `1`; block `0` has index `0` and block `4`
index `2`. -/
def tieFanCfg : CFG where
  blocks := [0, 1, 2, 3, 4]
  startingBlock := 0
  idx := fun b => if b = 0 then 0 else if b = 4 then 2 else 1
  successors := fun b =>
    if b = 0 then [1, 2, 3] else if b = 1 ∨ b = 2 ∨ b = 3 then [4] else []

/-- Analyzer over `Nat` with `merge = max` and a `mergeBlank` that raises a
value to at least `2`; block `1` sets `x = 0`, block `3` sets `x = 1`, the
other blocks leave their map alone. -/
def raiseAnalyzer : BBAnalyzer Nat where
  merge := fun src into => max src into
  mergeBlank := fun into => max into 2
  processBB := fun m b => if b = 1 then m.set 0 0 else if b = 3 then m.set 0 1 else m

/-- The state after the blocks of `l` have been evaluated in turn from `st`. -/
def evalList {T : Type} [DecidableEq T] (cfg : CFG) (analyzer : BBAnalyzer T) :
    List CFGBlock → FPState T → FPState T
  | [], st => st
  | block :: l, st => evalList cfg analyzer l (evalAt cfg analyzer block st)

/-- The acyclic graph `0 → 1, 0 → 2, 1 → 2, 2 → 3` in which the blocks `1` and
`2` share the index `1` although `1 → 2` is an edge; block `0` has index `0`
and block `3` index `2`. -/
def skewCfg : CFG where
  blocks := [0, 1, 2, 3]
  startingBlock := 0
  idx := fun b => if b = 0 then 0 else if b = 3 then 2 else 1
  successors := fun b =>
    if b = 0 then [1, 2] else if b = 1 then [2] else if b = 2 then [3] else []

/-- Analyzer over `Nat` with `merge = max` and `mergeBlank = id`; block `0` sets
`x = 1`, block `1` sets `x = 5`, block `2` resets `x` to `0` when it is `5` at
its entry, and block `3` leaves its map alone. -/
def dropAnalyzer : BBAnalyzer Nat where
  merge := fun src into => max src into
  mergeBlank := fun into => into
  processBB := fun m b =>
    if b = 0 then m.set 0 1 else if b = 1 then m.set 0 5
    else if b = 2 then (if m.find? 0 = some 5 then m.set 0 0 else m) else m

/-! ## Facts about entry lists and `DenseMap` -/

section AssocListFacts

variable {K V : Type} [DecidableEq K]

theorem alFind_eq_none {k : K} {l : List (K × V)} :
    alFind k l = none ↔ k ∉ l.map Prod.fst := by
  induction l with
  | nil => simp [alFind]
  | cons p t ih =>
    by_cases h : p.1 = k
    · simp [alFind, h]
    · simp only [alFind, h, if_false, ih, List.map_cons, List.mem_cons, not_or]
      constructor
      · intro h1; exact ⟨fun h2 => h h2.symm, h1⟩
      · intro h1; exact h1.2

theorem alFind_isSome {k : K} {l : List (K × V)} :
    (alFind k l).isSome = true ↔ k ∈ l.map Prod.fst := by
  rw [← not_iff_not, ← alFind_eq_none]
  cases alFind k l <;> simp

theorem alFind_alSet (k k' : K) (v : V) (l : List (K × V)) :
    alFind k' (alSet k v l) = if k' = k then some v else alFind k' l := by
  induction l with
  | nil =>
    by_cases h : k' = k
    · simp [alSet, alFind, h]
    · have h' : ¬ k = k' := fun e => h e.symm
      simp [alSet, alFind, h, h']
  | cons p t ih =>
    by_cases hp : p.1 = k
    · by_cases h : k' = k
      · simp [alSet, alFind, hp, h]
      · have h' : ¬ k = k' := fun e => h e.symm
        simp [alSet, alFind, hp, h, h']
    · by_cases h : k' = k
      · subst h
        simp [alSet, alFind, hp, ih]
      · simp only [alSet, hp, if_false, alFind, ih, h]

theorem alSet_self {k : K} {v : V} {l : List (K × V)} (h : alFind k l = some v) :
    alSet k v l = l := by
  induction l with
  | nil => simp [alFind] at h
  | cons p t ih =>
    by_cases hp : p.1 = k
    · simp only [alFind, hp, if_true, Option.some.injEq] at h
      simp only [alSet, hp, if_true]
      rw [← hp, ← h]
    · simp only [alFind, hp, if_false] at h
      simp only [alSet, hp, if_false, ih h]

theorem alFind_mem {k : K} {v : V} {l : List (K × V)} (h : alFind k l = some v) :
    (k, v) ∈ l := by
  induction l with
  | nil => simp [alFind] at h
  | cons p t ih =>
    by_cases hp : p.1 = k
    · simp only [alFind, hp, if_true, Option.some.injEq] at h
      have : p = (k, v) := Prod.ext hp h
      simp [this]
    · simp only [alFind, hp, if_false] at h
      exact List.mem_cons_of_mem _ (ih h)

theorem alFind_of_mem {k : K} {v : V} {l : List (K × V)}
    (hn : (l.map Prod.fst).Nodup) (h : (k, v) ∈ l) : alFind k l = some v := by
  induction l with
  | nil => simp at h
  | cons p t ih =>
    rw [List.map_cons, List.nodup_cons] at hn
    rcases List.mem_cons.1 h with h1 | h1
    · subst h1; simp [alFind]
    · have hk : k ∈ t.map Prod.fst := List.mem_map.2 ⟨(k, v), h1, rfl⟩
      have hp : ¬ p.1 = k := fun e => hn.1 (e ▸ hk)
      simp only [alFind, hp, if_false]
      exact ih hn.2 h1

end AssocListFacts

namespace DenseMap

variable {K V : Type} [DecidableEq K]

theorem find?_def (m : DenseMap K V) (k : K) : m.find? k = alFind k m.entries := rfl

theorem find?_empty (k : K) : (empty : DenseMap K V).find? k = none := rfl

theorem find?_set (m : DenseMap K V) (k k' : K) (v : V) :
    (m.set k v).find? k' = if k' = k then some v else m.find? k' :=
  alFind_alSet k k' v m.entries

theorem find?_set_self (m : DenseMap K V) (k : K) (v : V) :
    (m.set k v).find? k = some v := by
  rw [find?_set]; simp

theorem find?_set_ne (m : DenseMap K V) {k k' : K} (v : V) (h : k' ≠ k) :
    (m.set k v).find? k' = m.find? k' := by
  rw [find?_set]; simp [h]

theorem mem_keys_iff (m : DenseMap K V) (k : K) :
    k ∈ m.keys ↔ (m.find? k).isSome = true := alFind_isSome.symm

theorem contains_iff (m : DenseMap K V) (k : K) :
    m.contains k = true ↔ k ∈ m.keys := alFind_isSome

theorem not_mem_keys_iff (m : DenseMap K V) (k : K) :
    k ∉ m.keys ↔ m.find? k = none := alFind_eq_none.symm

theorem mem_keys_set (m : DenseMap K V) (k k' : K) (v : V) :
    k' ∈ (m.set k v).keys ↔ k' = k ∨ k' ∈ m.keys := by
  rw [mem_keys_iff, mem_keys_iff, find?_set]
  by_cases h : k' = k <;> simp [h]

theorem set_eq_self {m : DenseMap K V} {k : K} {v : V} (h : m.find? k = some v) :
    m.set k v = m := ext_entries (alSet_self h)

theorem find?_of_mem_entries (m : DenseMap K V) {p : K × V} (h : p ∈ m.entries) :
    m.find? p.1 = some p.2 := alFind_of_mem m.nodup h

theorem getOrInsert_find? (m : DenseMap K V) (k k' : K) (d : V) :
    (m.getOrInsert k d).1.find? k' =
      if k' = k then some (m.getOrInsert k d).2 else m.find? k' := by
  unfold getOrInsert
  cases h : m.find? k with
  | none =>
    simp only [find?_set]
  | some v =>
    by_cases hk : k' = k
    · subst hk; simp [h]
    · simp [hk]

theorem getOrInsert_snd (m : DenseMap K V) (k : K) (d : V) :
    (m.getOrInsert k d).2 = (m.find? k).getD d := by
  unfold getOrInsert
  cases h : m.find? k <;> rfl

theorem getOrInsert_of_find? {m : DenseMap K V} {k : K} {v : V} (d : V)
    (h : m.find? k = some v) : m.getOrInsert k d = (m, v) := by
  unfold getOrInsert; rw [h]

theorem getOrInsert_set (m : DenseMap K V) (k : K) (d v : V) :
    ((m.getOrInsert k d).1.set k v).find? = (m.set k v).find? := by
  funext k'
  rw [find?_set, find?_set, getOrInsert_find?]
  by_cases hk : k' = k <;> simp [hk]

end DenseMap

/-! ## One successor update -/

theorem callsFor_append {T : Type} (k : InternedString) (a b : List (AnalyzerCall T)) :
    callsFor k (a ++ b) = callsFor k a ++ callsFor k b := by
  simp [callsFor]

section EdgeFacts

variable {T : Type} [DecidableEq T]

theorem mergeEntry_find? (analyzer : BBAnalyzer T) (initial : Bool) (e : EdgeState T)
    (p : InternedString × T) (k : InternedString) :
    (mergeEntry analyzer initial e p).next.find? k =
      if k = p.1 then some (joined analyzer initial p.2 (e.next.find? p.1))
      else e.next.find? k := by
  unfold mergeEntry
  cases h : e.next.find? p.1 with
  | none =>
    cases initial <;> simp [joined, DenseMap.find?_set]
  | some m =>
    by_cases hm : m = analyzer.merge p.2 m
    · by_cases hk : k = p.1
      · subst hk
        simp only [joined, ne_eq, hm.symm, not_true_eq_false, if_false, if_true, h]
      · simp [hm.symm, hk]
    · simp [joined, hm, DenseMap.find?_set]

theorem mergeEntry_calls (analyzer : BBAnalyzer T) (initial : Bool) (e : EdgeState T)
    (p : InternedString × T) :
    (mergeEntry analyzer initial e p).calls =
      e.calls ++ joinedCalls initial p.1 p.2 (e.next.find? p.1) := by
  unfold mergeEntry
  cases h : e.next.find? p.1 with
  | none => cases initial <;> simp [joinedCalls]
  | some m =>
    by_cases hm : m = analyzer.merge p.2 m
    · simp [joinedCalls, hm.symm]
    · simp [joinedCalls, hm]

theorem foldl_mergeEntry_find? (analyzer : BBAnalyzer T) (initial : Bool)
    (l : List (InternedString × T)) (hl : (l.map Prod.fst).Nodup) (e : EdgeState T)
    (k : InternedString) :
    (l.foldl (mergeEntry analyzer initial) e).next.find? k =
      match alFind k l with
      | none => e.next.find? k
      | some v => some (joined analyzer initial v (e.next.find? k)) := by
  induction l generalizing e with
  | nil => simp [alFind]
  | cons p t ih =>
    rw [List.map_cons, List.nodup_cons] at hl
    rw [List.foldl_cons, ih hl.2, mergeEntry_find?]
    by_cases hk : p.1 = k
    · subst hk
      have hn : alFind p.1 t = none := alFind_eq_none.2 hl.1
      simp [alFind, hn]
    · have hk' : ¬ k = p.1 := fun h => hk h.symm
      simp [alFind, hk, hk']

theorem foldl_mergeEntry_calls (analyzer : BBAnalyzer T) (initial : Bool)
    (l : List (InternedString × T)) (hl : (l.map Prod.fst).Nodup) (e : EdgeState T)
    (k : InternedString) :
    callsFor k (l.foldl (mergeEntry analyzer initial) e).calls =
      callsFor k e.calls ++
      match alFind k l with
      | none => []
      | some v => joinedCalls initial k v (e.next.find? k) := by
  induction l generalizing e with
  | nil => simp [alFind]
  | cons p t ih =>
    rw [List.map_cons, List.nodup_cons] at hl
    rw [List.foldl_cons, ih hl.2, mergeEntry_calls, mergeEntry_find?, callsFor_append]
    by_cases hk : p.1 = k
    · subst hk
      have hn : alFind p.1 t = none := alFind_eq_none.2 hl.1
      have hc : callsFor p.1 (joinedCalls initial p.1 p.2 (e.next.find? p.1)) =
          joinedCalls initial p.1 p.2 (e.next.find? p.1) := by
        cases e.next.find? p.1 <;> cases initial <;>
          simp [joinedCalls, callsFor, AnalyzerCall.key]
      simp [alFind, hn, hc]
    · have hk' : ¬ k = p.1 := fun h => hk h.symm
      have hc : callsFor k (joinedCalls initial p.1 p.2 (e.next.find? p.1)) = [] := by
        cases e.next.find? p.1 <;> cases initial <;>
          simp [joinedCalls, callsFor, AnalyzerCall.key, hk]
      simp [alFind, hk, hk', hc]

theorem blankEntry_find? (analyzer : BBAnalyzer T) (ending : Map T) (e : EdgeState T)
    (p : InternedString × T) (k : InternedString) (hp : e.next.find? p.1 = some p.2) :
    (blankEntry analyzer ending e p).next.find? k =
      if k = p.1 then
        some (if ending.contains p.1 then p.2 else analyzer.mergeBlank p.2)
      else e.next.find? k := by
  unfold blankEntry
  by_cases hc : ending.contains p.1 = true
  · by_cases hk : k = p.1
    · subst hk; simp [hc, hp]
    · simp [hc, hk]
  · by_cases hm : analyzer.mergeBlank p.2 = p.2
    · by_cases hk : k = p.1
      · subst hk; simp [hc, hm, hp]
      · simp [hc, hm, hk]
    · simp [hc, hm, DenseMap.find?_set]

theorem blankEntry_calls (analyzer : BBAnalyzer T) (ending : Map T) (e : EdgeState T)
    (p : InternedString × T) :
    (blankEntry analyzer ending e p).calls =
      e.calls ++ if ending.contains p.1 then [] else [AnalyzerCall.mergeBlank p.1 p.2] := by
  unfold blankEntry
  by_cases hc : ending.contains p.1 = true
  · simp [hc]
  · by_cases hm : analyzer.mergeBlank p.2 = p.2
    · simp [hc, hm]
    · simp [hc, hm]

theorem foldl_blankEntry_find? (analyzer : BBAnalyzer T) (ending : Map T)
    (l : List (InternedString × T)) (hl : (l.map Prod.fst).Nodup) (e : EdgeState T)
    (he : ∀ p ∈ l, e.next.find? p.1 = some p.2) (k : InternedString) :
    (l.foldl (blankEntry analyzer ending) e).next.find? k =
      match alFind k l with
      | none => e.next.find? k
      | some v => some (if ending.contains k then v else analyzer.mergeBlank v) := by
  induction l generalizing e with
  | nil => simp [alFind]
  | cons p t ih =>
    rw [List.map_cons, List.nodup_cons] at hl
    have hp := he p (List.mem_cons_self _ _)
    have he' : ∀ x ∈ t, (blankEntry analyzer ending e p).next.find? x.1 = some x.2 := by
      intro x hx
      have hx1 : x.1 ≠ p.1 := fun h => hl.1 (h ▸ List.mem_map.2 ⟨x, hx, rfl⟩)
      rw [blankEntry_find? analyzer ending e p x.1 hp, if_neg hx1]
      exact he x (List.mem_cons_of_mem _ hx)
    rw [List.foldl_cons, ih hl.2 _ he', blankEntry_find? analyzer ending e p k hp]
    by_cases hk : p.1 = k
    · subst hk
      have hn : alFind p.1 t = none := alFind_eq_none.2 hl.1
      simp [alFind, hn]
    · have hk' : ¬ k = p.1 := fun h => hk h.symm
      simp [alFind, hk, hk']

theorem foldl_blankEntry_calls (analyzer : BBAnalyzer T) (ending : Map T)
    (l : List (InternedString × T)) (hl : (l.map Prod.fst).Nodup) (e : EdgeState T)
    (k : InternedString) :
    callsFor k (l.foldl (blankEntry analyzer ending) e).calls =
      callsFor k e.calls ++
      match alFind k l with
      | none => []
      | some v => if ending.contains k then [] else [AnalyzerCall.mergeBlank k v] := by
  induction l generalizing e with
  | nil => simp [alFind]
  | cons p t ih =>
    rw [List.map_cons, List.nodup_cons] at hl
    rw [List.foldl_cons, ih hl.2, blankEntry_calls, callsFor_append]
    by_cases hk : p.1 = k
    · subst hk
      have hn : alFind p.1 t = none := alFind_eq_none.2 hl.1
      by_cases hc : ending.contains p.1 = true
      · simp [alFind, hn, hc, callsFor]
      · simp [alFind, hn, hc, callsFor, AnalyzerCall.key]
    · by_cases hc : ending.contains p.1 = true
      · simp [alFind, hk, hc, callsFor]
      · simp [alFind, hk, hc, callsFor, AnalyzerCall.key]

theorem mergeEdge_find? (analyzer : BBAnalyzer T) (ending : Map T) (initial changed : Bool)
    (next : Map T) (k : InternedString) :
    (mergeEdge analyzer ending initial changed next).next.find? k =
      edgeValue analyzer initial (ending.find? k) (next.find? k) := by
  unfold mergeEdge
  simp only
  rw [foldl_blankEntry_find? analyzer ending _ (DenseMap.nodup _) _
    (fun p hp => DenseMap.find?_of_mem_entries _ hp)]
  rw [← DenseMap.find?_def, foldl_mergeEntry_find? analyzer initial _ ending.nodup,
    ← DenseMap.find?_def]
  cases he : ending.find? k with
  | none =>
    cases hn : next.find? k with
    | none => simp [edgeValue]
    | some m => simp [edgeValue, DenseMap.contains, he]
  | some v => simp [edgeValue, DenseMap.contains, he]

theorem mergeEdge_calls (analyzer : BBAnalyzer T) (ending : Map T) (initial changed : Bool)
    (next : Map T) (k : InternedString) :
    callsFor k (mergeEdge analyzer ending initial changed next).calls =
      edgeCalls initial k (ending.find? k) (next.find? k) := by
  unfold mergeEdge
  simp only
  rw [foldl_blankEntry_calls analyzer ending _ (DenseMap.nodup _),
    foldl_mergeEntry_calls analyzer initial _ ending.nodup]
  simp only [← DenseMap.find?_def]
  rw [foldl_mergeEntry_find? analyzer initial _ ending.nodup]
  simp only [← DenseMap.find?_def]
  cases he : ending.find? k with
  | none =>
    cases hn : next.find? k with
    | none => simp [edgeCalls, callsFor]
    | some m => simp [edgeCalls, DenseMap.contains, he, callsFor]
  | some v => simp [edgeCalls, DenseMap.contains, he, callsFor]

end EdgeFacts

section EdgeChanged

variable {T : Type} [DecidableEq T]

theorem alSet_of_not_mem {K V : Type} [DecidableEq K] {k : K} (v : V) {l : List (K × V)}
    (h : k ∉ l.map Prod.fst) : alSet k v l = l ++ [(k, v)] := by
  induction l with
  | nil => rfl
  | cons p t ih =>
    rw [List.map_cons, List.mem_cons, not_or] at h
    have hp : ¬ p.1 = k := fun e => h.1 e.symm
    simp only [alSet, hp, if_false, ih h.2, List.cons_append]

theorem mergeEntry_unchanged (analyzer : BBAnalyzer T) (initial : Bool) (e : EdgeState T)
    (p : InternedString × T) (h : (mergeEntry analyzer initial e p).changed = false) :
    (mergeEntry analyzer initial e p).next = e.next ∧ e.changed = false := by
  unfold mergeEntry at h ⊢
  cases hf : e.next.find? p.1 with
  | none => rw [hf] at h; cases initial <;> simp at h
  | some m =>
    rw [hf] at h
    by_cases hm : m = analyzer.merge p.2 m
    · simp only [ne_eq, hm.symm, not_true_eq_false, if_false] at h ⊢
      exact ⟨trivial, h⟩
    · simp [hm] at h

theorem foldl_mergeEntry_unchanged (analyzer : BBAnalyzer T) (initial : Bool)
    (l : List (InternedString × T)) (e : EdgeState T)
    (h : (l.foldl (mergeEntry analyzer initial) e).changed = false) :
    (l.foldl (mergeEntry analyzer initial) e).next = e.next ∧ e.changed = false := by
  induction l generalizing e with
  | nil => exact ⟨rfl, h⟩
  | cons p t ih =>
    rw [List.foldl_cons] at h ⊢
    have h1 := ih _ h
    have h2 := mergeEntry_unchanged analyzer initial e p h1.2
    exact ⟨h1.1.trans h2.1, h2.2⟩

theorem blankEntry_unchanged (analyzer : BBAnalyzer T) (ending : Map T) (e : EdgeState T)
    (p : InternedString × T) (h : (blankEntry analyzer ending e p).changed = false) :
    (blankEntry analyzer ending e p).next = e.next ∧ e.changed = false := by
  unfold blankEntry at h ⊢
  by_cases hc : ending.contains p.1 = true
  · simp only [hc, if_true] at h ⊢
    exact ⟨trivial, h⟩
  · by_cases hm : analyzer.mergeBlank p.2 = p.2
    · simp [hc, hm] at h ⊢
      exact h
    · simp [hc, hm] at h

theorem foldl_blankEntry_unchanged (analyzer : BBAnalyzer T) (ending : Map T)
    (l : List (InternedString × T)) (e : EdgeState T)
    (h : (l.foldl (blankEntry analyzer ending) e).changed = false) :
    (l.foldl (blankEntry analyzer ending) e).next = e.next ∧ e.changed = false := by
  induction l generalizing e with
  | nil => exact ⟨rfl, h⟩
  | cons p t ih =>
    rw [List.foldl_cons] at h ⊢
    have h1 := ih _ h
    have h2 := blankEntry_unchanged analyzer ending e p h1.2
    exact ⟨h1.1.trans h2.1, h2.2⟩

/-- A successor update that leaves `changed` false has not touched the map. -/
theorem mergeEdge_unchanged (analyzer : BBAnalyzer T) (ending : Map T) (initial changed : Bool)
    (next : Map T) (h : (mergeEdge analyzer ending initial changed next).changed = false) :
    (mergeEdge analyzer ending initial changed next).next = next ∧ changed = false := by
  unfold mergeEdge at h ⊢
  simp only at h ⊢
  have h1 := foldl_blankEntry_unchanged analyzer ending _ _ h
  have h2 := foldl_mergeEntry_unchanged analyzer initial _ _ h1.2
  exact ⟨h1.1.trans h2.1, h2.2⟩

theorem foldl_mergeEntry_fixed (analyzer : BBAnalyzer T) (initial : Bool)
    (l : List (InternedString × T)) (e : EdgeState T)
    (h : ∀ p ∈ l, ∃ m, e.next.find? p.1 = some m ∧ analyzer.merge p.2 m = m) :
    (l.foldl (mergeEntry analyzer initial) e).next = e.next ∧
      (l.foldl (mergeEntry analyzer initial) e).changed = e.changed := by
  induction l generalizing e with
  | nil => exact ⟨rfl, rfl⟩
  | cons p t ih =>
    obtain ⟨m, hm1, hm2⟩ := h p (List.mem_cons_self _ _)
    have hstep : (mergeEntry analyzer initial e p).next = e.next ∧
        (mergeEntry analyzer initial e p).changed = e.changed := by
      unfold mergeEntry
      rw [hm1]
      simp [hm2]
    rw [List.foldl_cons]
    have h' : ∀ x ∈ t, ∃ m, (mergeEntry analyzer initial e p).next.find? x.1 = some m ∧
        analyzer.merge x.2 m = m := by
      intro x hx
      rw [hstep.1]
      exact h x (List.mem_cons_of_mem _ hx)
    have h1 := ih _ h'
    exact ⟨h1.1.trans hstep.1, h1.2.trans hstep.2⟩

theorem foldl_blankEntry_fixed (analyzer : BBAnalyzer T) (ending : Map T)
    (l : List (InternedString × T)) (e : EdgeState T)
    (h : ∀ p ∈ l, ending.contains p.1 = true ∨ analyzer.mergeBlank p.2 = p.2) :
    (l.foldl (blankEntry analyzer ending) e).next = e.next ∧
      (l.foldl (blankEntry analyzer ending) e).changed = e.changed := by
  induction l generalizing e with
  | nil => exact ⟨rfl, rfl⟩
  | cons p t ih =>
    rw [List.foldl_cons]
    have hstep : (blankEntry analyzer ending e p).next = e.next ∧
        (blankEntry analyzer ending e p).changed = e.changed := by
      unfold blankEntry
      by_cases hc : ending.contains p.1 = true
      · simp [hc]
      · have hm := (h p (List.mem_cons_self _ _)).resolve_left hc
        simp [hc, hm]
    have h1 := ih (blankEntry analyzer ending e p)
      (fun x hx => h x (List.mem_cons_of_mem _ hx))
    exact ⟨h1.1.trans hstep.1, h1.2.trans hstep.2⟩

/-- A successor update that leaves every value as it was leaves `changed` as it was. -/
theorem mergeEdge_fixed (analyzer : BBAnalyzer T) (ending : Map T) (initial changed : Bool)
    (next : Map T)
    (h : ∀ k, (mergeEdge analyzer ending initial changed next).next.find? k = next.find? k) :
    (mergeEdge analyzer ending initial changed next).next = next ∧
      (mergeEdge analyzer ending initial changed next).changed = changed := by
  have h1 : ∀ p ∈ ending.entries, ∃ m, next.find? p.1 = some m ∧ analyzer.merge p.2 m = m := by
    intro p hp
    have hk := h p.1
    rw [mergeEdge_find?, DenseMap.find?_of_mem_entries ending hp] at hk
    cases hn : next.find? p.1 with
    | none => rw [hn] at hk; simp [edgeValue] at hk
    | some m =>
      rw [hn] at hk
      simp only [edgeValue, joined, Option.some.injEq] at hk
      exact ⟨m, rfl, hk⟩
  have h2 : ∀ p ∈ next.entries, ending.contains p.1 = true ∨ analyzer.mergeBlank p.2 = p.2 := by
    intro p hp
    by_cases hc : ending.contains p.1 = true
    · exact Or.inl hc
    · right
      have hk := h p.1
      have he : ending.find? p.1 = none := by
        cases hf : ending.find? p.1 with
        | none => rfl
        | some v => simp [DenseMap.contains, hf] at hc
      rw [mergeEdge_find?, DenseMap.find?_of_mem_entries next hp, he] at hk
      simpa [edgeValue] using hk
  unfold mergeEdge
  simp only
  have f1 := foldl_mergeEntry_fixed analyzer initial ending.entries
    { next := next, changed := changed, calls := [] } h1
  have f2 := foldl_blankEntry_fixed analyzer ending
    (ending.entries.foldl (mergeEntry analyzer initial)
      { next := next, changed := changed, calls := [] }).next.entries
    (ending.entries.foldl (mergeEntry analyzer initial)
      { next := next, changed := changed, calls := [] })
    (by rw [f1.1]; exact h2)
  exact ⟨f2.1.trans f1.1, f2.2.trans f1.2⟩

/-- The flag `changed` of an update that starts with it cleared tells whether
the map was altered. -/
theorem mergeEdge_changed_iff (analyzer : BBAnalyzer T) (ending : Map T) (initial : Bool)
    (next : Map T) :
    (mergeEdge analyzer ending initial false next).changed = true ↔
      (mergeEdge analyzer ending initial false next).next ≠ next := by
  constructor
  · intro hc he
    have := (mergeEdge_fixed analyzer ending initial false next (fun k => by rw [he])).2
    rw [hc] at this
    exact Bool.noConfusion this
  · intro hne
    cases hc : (mergeEdge analyzer ending initial false next).changed with
    | true => rfl
    | false => exact absurd (mergeEdge_unchanged analyzer ending initial false next hc).1 hne

theorem foldl_mergeEntry_fresh (analyzer : BBAnalyzer T)
    (l : List (InternedString × T)) (e : EdgeState T)
    (hl : ((e.next.entries ++ l).map Prod.fst).Nodup) :
    (l.foldl (mergeEntry analyzer true) e).next.entries = e.next.entries ++ l := by
  induction l generalizing e with
  | nil => simp
  | cons p t ih =>
    have hp : p.1 ∉ e.next.entries.map Prod.fst := by
      rw [List.map_append, List.nodup_append] at hl
      intro hmem
      exact hl.2.2 hmem (by simp)
    have hstep : (mergeEntry analyzer true e p).next.entries = e.next.entries ++ [p] := by
      unfold mergeEntry
      rw [(DenseMap.not_mem_keys_iff e.next p.1).1 hp]
      simp only [if_true, DenseMap.set]
      exact alSet_of_not_mem p.2 hp
    rw [List.foldl_cons, ih, hstep]
    · simp
    · rw [hstep]
      simpa using hl

/-- The first arrival at a successor copies the exit map. -/
theorem mergeEdge_initial (analyzer : BBAnalyzer T) (ending : Map T) (changed : Bool) :
    (mergeEdge analyzer ending true changed DenseMap.empty).next = ending := by
  have h1 : (ending.entries.foldl (mergeEntry analyzer true)
      { next := DenseMap.empty, changed := changed, calls := [] }).next = ending := by
    apply DenseMap.ext_entries
    rw [foldl_mergeEntry_fresh]
    · simp [DenseMap.empty]
    · simpa [DenseMap.empty] using ending.nodup
  unfold mergeEdge
  simp only
  have h2 := foldl_blankEntry_fixed analyzer ending
    (ending.entries.foldl (mergeEntry analyzer true)
      { next := DenseMap.empty, changed := changed, calls := [] }).next.entries
    (ending.entries.foldl (mergeEntry analyzer true)
      { next := DenseMap.empty, changed := changed, calls := [] })
    (by
      rw [h1]
      intro p hp
      left
      rw [DenseMap.contains, DenseMap.find?_of_mem_entries ending hp]
      rfl)
  exact h2.1.trans h1

theorem foldl_mergeEntry_changed_mono (analyzer : BBAnalyzer T) (initial : Bool)
    (l : List (InternedString × T)) (e : EdgeState T) (h : e.changed = true) :
    (l.foldl (mergeEntry analyzer initial) e).changed = true := by
  cases hc : (l.foldl (mergeEntry analyzer initial) e).changed with
  | true => rfl
  | false =>
    have := (foldl_mergeEntry_unchanged analyzer initial l e hc).2
    rw [h] at this
    exact Bool.noConfusion this

/-- The flag `changed` is never cleared by an update. -/
theorem mergeEdge_changed_mono (analyzer : BBAnalyzer T) (ending : Map T) (initial : Bool)
    (next : Map T) : (mergeEdge analyzer ending initial true next).changed = true := by
  cases hc : (mergeEdge analyzer ending initial true next).changed with
  | true => rfl
  | false => exact Bool.noConfusion (mergeEdge_unchanged analyzer ending initial true next hc).2

theorem calls_eq_nil {T : Type} (l : List (AnalyzerCall T)) (h : ∀ k, callsFor k l = []) :
    l = [] := by
  cases l with
  | nil => rfl
  | cons c t =>
    have := h c.key
    simp [callsFor, List.filter_cons] at this

end EdgeChanged

/-! ## The successor loop on the engine state -/

section SuccessorFacts

variable {T : Type} [DecidableEq T]

theorem successorEdge_of_none (analyzer : BBAnalyzer T) (ending : Map T) (st : FPState T)
    (s : CFGBlock) (h : st.starting_states.find? s = none) :
    successorEdge analyzer ending st s = mergeEdge analyzer ending true true DenseMap.empty := by
  unfold successorEdge
  simp [DenseMap.contains, h, DenseMap.getOrInsert]

theorem successorEdge_of_some (analyzer : BBAnalyzer T) (ending : Map T) (st : FPState T)
    (s : CFGBlock) {m : Map T} (h : st.starting_states.find? s = some m) :
    successorEdge analyzer ending st s = mergeEdge analyzer ending false false m := by
  unfold successorEdge
  simp [DenseMap.contains, h, DenseMap.getOrInsert]

theorem updateSuccessor_starting (analyzer : BBAnalyzer T) (ending : Map T) (st : FPState T)
    (s b : CFGBlock) :
    (updateSuccessor analyzer ending st s).starting_states.find? b =
      if b = s then some (successorEdge analyzer ending st s).next
      else st.starting_states.find? b := by
  unfold updateSuccessor
  simp only
  rw [DenseMap.find?_set, DenseMap.getOrInsert_find?]
  by_cases h : b = s <;> simp [h]

theorem updateSuccessor_ending (analyzer : BBAnalyzer T) (ending : Map T) (st : FPState T)
    (s : CFGBlock) :
    (updateSuccessor analyzer ending st s).ending_states = st.ending_states := rfl

theorem updateSuccessor_num (analyzer : BBAnalyzer T) (ending : Map T) (st : FPState T)
    (s : CFGBlock) :
    (updateSuccessor analyzer ending st s).num_evaluations = st.num_evaluations := rfl

theorem updateSuccessor_queue (analyzer : BBAnalyzer T) (ending : Map T) (st : FPState T)
    (s : CFGBlock) :
    ((updateSuccessor analyzer ending st s).in_queue, (updateSuccessor analyzer ending st s).q) =
      enqueueIfChanged (successorEdge analyzer ending st s).changed s st.in_queue st.q := rfl

theorem enqueueIfChanged_false (s : CFGBlock) (iq q : List CFGBlock) :
    enqueueIfChanged false s iq q = (iq, q) := rfl

theorem enqueueIfChanged_mem (s : CFGBlock) (iq q : List CFGBlock) (h : s ∈ iq) (c : Bool) :
    enqueueIfChanged c s iq q = (iq, q) := by
  cases c <;> simp [enqueueIfChanged, setInsert, h]

theorem enqueueIfChanged_new (s : CFGBlock) (iq q : List CFGBlock) (h : s ∉ iq) :
    enqueueIfChanged true s iq q = (s :: iq, q ++ [s]) := by
  simp [enqueueIfChanged, setInsert, h, pqPush]

theorem updateSuccessor_in_queue_mem (analyzer : BBAnalyzer T) (ending : Map T)
    (st : FPState T) (s b : CFGBlock) :
    b ∈ (updateSuccessor analyzer ending st s).in_queue ↔
      b ∈ st.in_queue ∨ (b = s ∧ (successorEdge analyzer ending st s).changed = true) := by
  have h := updateSuccessor_queue analyzer ending st s
  cases hc : (successorEdge analyzer ending st s).changed with
  | false =>
    rw [hc, enqueueIfChanged_false] at h
    rw [show (updateSuccessor analyzer ending st s).in_queue = _ from congrArg Prod.fst h]
    simp
  | true =>
    rw [hc] at h
    by_cases hm : s ∈ st.in_queue
    · rw [enqueueIfChanged_mem s _ _ hm] at h
      rw [show (updateSuccessor analyzer ending st s).in_queue = _ from congrArg Prod.fst h]
      constructor
      · exact Or.inl
      · rintro (h1 | ⟨rfl, _⟩)
        · exact h1
        · exact hm
    · rw [enqueueIfChanged_new s _ _ hm] at h
      rw [show (updateSuccessor analyzer ending st s).in_queue = _ from congrArg Prod.fst h]
      simp [or_comm]

theorem updateSuccessor_q_mem (analyzer : BBAnalyzer T) (ending : Map T)
    (st : FPState T) (s b : CFGBlock) :
    b ∈ (updateSuccessor analyzer ending st s).q ↔
      b ∈ st.q ∨ (b = s ∧ (successorEdge analyzer ending st s).changed = true ∧
        s ∉ st.in_queue) := by
  have h := updateSuccessor_queue analyzer ending st s
  cases hc : (successorEdge analyzer ending st s).changed with
  | false =>
    rw [hc, enqueueIfChanged_false] at h
    rw [show (updateSuccessor analyzer ending st s).q = _ from congrArg Prod.snd h]
    simp
  | true =>
    rw [hc] at h
    by_cases hm : s ∈ st.in_queue
    · rw [enqueueIfChanged_mem s _ _ hm] at h
      rw [show (updateSuccessor analyzer ending st s).q = _ from congrArg Prod.snd h]
      simp [hm]
    · rw [enqueueIfChanged_new s _ _ hm] at h
      rw [show (updateSuccessor analyzer ending st s).q = _ from congrArg Prod.snd h]
      simp [hm]

/-- An update that changes nothing in the successor's map returns the state it
was given. -/
theorem updateSuccessor_eq_self (analyzer : BBAnalyzer T) (ending : Map T) (st : FPState T)
    (s : CFGBlock) {m : Map T} (hm : st.starting_states.find? s = some m)
    (hc : (successorEdge analyzer ending st s).changed = false) :
    updateSuccessor analyzer ending st s = st := by
  have he := successorEdge_of_some analyzer ending st s hm
  have hn : (successorEdge analyzer ending st s).next = m := by
    rw [he] at hc ⊢
    exact (mergeEdge_unchanged analyzer ending false false m hc).1
  unfold updateSuccessor
  simp only [hc, hn, enqueueIfChanged_false, DenseMap.getOrInsert_of_find? _ hm,
    DenseMap.set_eq_self hm]

end SuccessorFacts

/-! ## The successor update rule -/

section SuccessorClaims

variable {T : Type} [DecidableEq T]

/-- C5. Successor update, first arrival: when the successor `s` has no entry in
`starting_states`, the update leaves `starting_states[s]` equal to the exit map
(neither `merge` nor `mergeBlank` is called), sets `changed`, and leaves `s` in
the membership set and, when the set only held queued blocks, in the queue;
this holds for every exit map, the empty one included. -/
theorem updateSuccessor_first_arrival (analyzer : BBAnalyzer T) (ending : Map T)
    (st : FPState T) (s : CFGBlock) (h : st.starting_states.find? s = none) :
    (successorEdge analyzer ending st s).next = ending ∧
    (successorEdge analyzer ending st s).calls = [] ∧
    (successorEdge analyzer ending st s).changed = true ∧
    (updateSuccessor analyzer ending st s).starting_states.find? s = some ending ∧
    s ∈ (updateSuccessor analyzer ending st s).in_queue ∧
    ((∀ b, b ∈ st.in_queue → b ∈ st.q) → s ∈ (updateSuccessor analyzer ending st s).q) := by
  have he := successorEdge_of_none analyzer ending st s h
  have hn : (successorEdge analyzer ending st s).next = ending := by
    rw [he]; exact mergeEdge_initial analyzer ending true
  have hc : (successorEdge analyzer ending st s).changed = true := by
    rw [he]; exact mergeEdge_changed_mono analyzer ending true DenseMap.empty
  refine ⟨hn, ?_, hc, ?_, ?_, ?_⟩
  · apply calls_eq_nil
    intro k
    rw [he, mergeEdge_calls]
    cases hk : ending.find? k <;> simp [edgeCalls, joinedCalls, DenseMap.find?_empty]
  · rw [updateSuccessor_starting, if_pos rfl, hn]
  · rw [updateSuccessor_in_queue_mem]
    exact Or.inr ⟨rfl, hc⟩
  · intro hq
    rw [updateSuccessor_q_mem]
    by_cases hm : s ∈ st.in_queue
    · exact Or.inl (hq s hm)
    · exact Or.inr ⟨rfl, hc, hm⟩

theorem updateSuccessor_first_arrival_witness :
    (initState linearCfg : FPState Nat).starting_states.find? 1 = none ∧
    (updateSuccessor maxAnalyzer (singleFact 5) (initState linearCfg) 1).starting_states.find? 1
      = some (singleFact 5) ∧
    (1 : CFGBlock) ∈ (updateSuccessor maxAnalyzer (singleFact 5) (initState linearCfg) 1).q :=
  have h := updateSuccessor_first_arrival maxAnalyzer (singleFact 5) (initState linearCfg) 1
    (by decide)
  ⟨by decide, h.2.2.2.1, h.2.2.2.2.2 (by decide)⟩

/-- C6. Successor update, later arrival: when the successor `s` already has the
map `m` in `starting_states`, the update leaves a map whose keys are those of
`m` and of the exit map; a key of both holds `merge(exit value, old value)`, a
key of the exit map alone holds `mergeBlank(exit value)`, a key of `m` alone
holds `mergeBlank(old value)`, and for each of these keys that one call is the
only call of the analyzer made for it, while no call is made for other keys. -/
theorem updateSuccessor_later_arrival (analyzer : BBAnalyzer T) (ending : Map T)
    (st : FPState T) (s : CFGBlock) (m : Map T) (h : st.starting_states.find? s = some m) :
    (updateSuccessor analyzer ending st s).starting_states.find? s =
      some (successorEdge analyzer ending st s).next ∧
    (∀ k, k ∈ (successorEdge analyzer ending st s).next.keys ↔ k ∈ m.keys ∨ k ∈ ending.keys) ∧
    (∀ k ev mv, ending.find? k = some ev → m.find? k = some mv →
      (successorEdge analyzer ending st s).next.find? k = some (analyzer.merge ev mv) ∧
      callsFor k (successorEdge analyzer ending st s).calls = [AnalyzerCall.merge k ev mv]) ∧
    (∀ k ev, ending.find? k = some ev → m.find? k = none →
      (successorEdge analyzer ending st s).next.find? k = some (analyzer.mergeBlank ev) ∧
      callsFor k (successorEdge analyzer ending st s).calls = [AnalyzerCall.mergeBlank k ev]) ∧
    (∀ k mv, ending.find? k = none → m.find? k = some mv →
      (successorEdge analyzer ending st s).next.find? k = some (analyzer.mergeBlank mv) ∧
      callsFor k (successorEdge analyzer ending st s).calls = [AnalyzerCall.mergeBlank k mv]) ∧
    (∀ k, ending.find? k = none → m.find? k = none →
      callsFor k (successorEdge analyzer ending st s).calls = []) := by
  have he := successorEdge_of_some analyzer ending st s h
  refine ⟨?_, ?_, ?_, ?_, ?_, ?_⟩
  · rw [updateSuccessor_starting, if_pos rfl]
  · intro k
    rw [DenseMap.mem_keys_iff, DenseMap.mem_keys_iff, DenseMap.mem_keys_iff, he, mergeEdge_find?]
    cases h1 : ending.find? k <;> cases h2 : m.find? k <;> simp [edgeValue]
  · intro k ev mv h1 h2
    rw [he, mergeEdge_find?, mergeEdge_calls, h1, h2]
    exact ⟨rfl, rfl⟩
  · intro k ev h1 h2
    rw [he, mergeEdge_find?, mergeEdge_calls, h1, h2]
    exact ⟨rfl, rfl⟩
  · intro k mv h1 h2
    rw [he, mergeEdge_find?, mergeEdge_calls, h1, h2]
    exact ⟨rfl, rfl⟩
  · intro k h1 h2
    rw [he, mergeEdge_calls, h1, h2]
    rfl

theorem updateSuccessor_later_arrival_witness :
    linearMid.starting_states.find? 1 = some (singleFact 5) ∧
    (successorEdge maxAnalyzer (singleFact 7) linearMid 1).next.find? 0 = some (max 7 5) ∧
    callsFor 0 (successorEdge maxAnalyzer (singleFact 7) linearMid 1).calls =
      [AnalyzerCall.merge 0 7 5] :=
  have h := updateSuccessor_later_arrival maxAnalyzer (singleFact 7) linearMid 1 (singleFact 5)
    (by decide)
  ⟨by decide, (h.2.2.1 0 7 5 (by decide) (by decide)).1,
    (h.2.2.1 0 7 5 (by decide) (by decide)).2⟩

/-- C7. Re-enqueue rule: in the update of a successor `s` that already has the
map `m` in `starting_states`, `changed` is set exactly when the update leaves a
map different from `m` (one that differs from `m` at some key); `s` is in the
membership set afterwards exactly when
it was before or `changed` is set, the same holds for the queue when set and
queue held the same blocks, and with `changed` clear both are left as they
were. -/
theorem updateSuccessor_reenqueue (analyzer : BBAnalyzer T) (ending : Map T)
    (st : FPState T) (s : CFGBlock) (m : Map T) (h : st.starting_states.find? s = some m) :
    ((successorEdge analyzer ending st s).changed = true ↔
      (updateSuccessor analyzer ending st s).starting_states.find? s ≠ some m) ∧
    ((successorEdge analyzer ending st s).changed = true ↔
      ∃ k, (successorEdge analyzer ending st s).next.find? k ≠ m.find? k) ∧
    (s ∈ (updateSuccessor analyzer ending st s).in_queue ↔
      s ∈ st.in_queue ∨ (successorEdge analyzer ending st s).changed = true) ∧
    ((∀ b, b ∈ st.in_queue ↔ b ∈ st.q) →
      (s ∈ (updateSuccessor analyzer ending st s).q ↔
        s ∈ st.q ∨ (successorEdge analyzer ending st s).changed = true)) ∧
    ((successorEdge analyzer ending st s).changed = false →
      (updateSuccessor analyzer ending st s).in_queue = st.in_queue ∧
      (updateSuccessor analyzer ending st s).q = st.q) := by
  have he := successorEdge_of_some analyzer ending st s h
  refine ⟨?_, ?_, ?_, ?_, ?_⟩
  · rw [updateSuccessor_starting, if_pos rfl, he, mergeEdge_changed_iff]
    simp
  · rw [he]
    constructor
    · intro hc
      by_contra hne
      have hall : ∀ k, (mergeEdge analyzer ending false false m).next.find? k = m.find? k := by
        intro k
        by_contra hk
        exact hne ⟨k, hk⟩
      have := (mergeEdge_fixed analyzer ending false false m hall).2
      rw [hc] at this
      exact Bool.noConfusion this
    · rintro ⟨k, hk⟩
      cases hc : (mergeEdge analyzer ending false false m).changed with
      | true => rfl
      | false =>
        rw [(mergeEdge_unchanged analyzer ending false false m hc).1] at hk
        exact absurd rfl hk
  · rw [updateSuccessor_in_queue_mem]
    simp
  · intro hq
    rw [updateSuccessor_q_mem]
    constructor
    · rintro (h1 | ⟨_, h2, _⟩)
      · exact Or.inl h1
      · exact Or.inr h2
    · rintro (h1 | h2)
      · exact Or.inl h1
      · by_cases hm : s ∈ st.in_queue
        · exact Or.inl ((hq s).1 hm)
        · exact Or.inr ⟨rfl, h2, hm⟩
  · intro hc
    rw [updateSuccessor_eq_self analyzer ending st s h hc]
    exact ⟨rfl, rfl⟩

theorem updateSuccessor_reenqueue_witness :
    linearMid.starting_states.find? 1 = some (singleFact 5) ∧
    ((successorEdge maxAnalyzer (singleFact 7) linearMid 1).changed = true ↔
      (updateSuccessor maxAnalyzer (singleFact 7) linearMid 1).starting_states.find? 1 ≠
        some (singleFact 5)) :=
  ⟨by decide,
    (updateSuccessor_reenqueue maxAnalyzer (singleFact 7) linearMid 1 (singleFact 5)
      (by decide)).1⟩

end SuccessorClaims

/-! ## The worklist -/

theorem foldl_best_mem {α : Type} (cmp : α → α → Bool) (t : List α) (a : α) :
    t.foldl (fun best x => if cmp best x then x else best) a ∈ a :: t := by
  induction t generalizing a with
  | nil => simp
  | cons x t ih =>
    rw [List.foldl_cons]
    have h := ih (if cmp a x then x else a)
    rcases List.mem_cons.1 h with h1 | h1
    · rw [h1]
      split <;> simp
    · exact List.mem_cons_of_mem _ (List.mem_cons_of_mem _ h1)

theorem pqTop_mem {α : Type} (cmp : α → α → Bool) {q : List α} {a : α}
    (h : pqTop cmp q = some a) : a ∈ q := by
  cases q with
  | nil => simp [pqTop] at h
  | cons b t =>
    simp only [pqTop, Option.some.injEq] at h
    rw [← h]
    exact foldl_best_mem cmp t b

theorem pqTop_eq_none {α : Type} (cmp : α → α → Bool) {q : List α} :
    pqTop cmp q = none ↔ q = [] := by
  cases q <;> simp [pqTop]

theorem pqTop_isSome {α : Type} (cmp : α → α → Bool) {q : List α} (h : q ≠ []) :
    ∃ a, pqTop cmp q = some a := by
  cases q with
  | nil => exact absurd rfl h
  | cons b t => exact ⟨_, rfl⟩

theorem foldl_best_min (cfg : CFG) (t : List CFGBlock) (a : CFGBlock) :
    ∀ c ∈ a :: t,
      cfg.idx (t.foldl (fun best x => if CFGBlockMinIndex cfg best x then x else best) a) ≤
        cfg.idx c := by
  induction t generalizing a with
  | nil => simp
  | cons x t ih =>
    intro c hc
    rw [List.foldl_cons]
    have h := ih (if CFGBlockMinIndex cfg a x then x else a)
    have hax : cfg.idx (if CFGBlockMinIndex cfg a x then x else a) ≤ cfg.idx a ∧
        cfg.idx (if CFGBlockMinIndex cfg a x then x else a) ≤ cfg.idx x := by
      by_cases hlt : cfg.idx a > cfg.idx x
      · simp only [CFGBlockMinIndex, hlt, decide_True, if_true]
        exact ⟨le_of_lt hlt, le_refl _⟩
      · simp only [CFGBlockMinIndex, hlt, decide_False]
        exact ⟨le_refl _, not_lt.1 hlt⟩
    rcases List.mem_cons.1 hc with h1 | h1
    · rw [h1]
      exact le_trans (h _ (List.mem_cons_self _ _)) hax.1
    · rcases List.mem_cons.1 h1 with h2 | h2
      · rw [h2]
        exact le_trans (h _ (List.mem_cons_self _ _)) hax.2
      · exact h c (List.mem_cons_of_mem _ h2)

/-- The top of the queue has the least index among the pending blocks. -/
theorem pqTop_min (cfg : CFG) {q : List CFGBlock} {a : CFGBlock}
    (h : pqTop (CFGBlockMinIndex cfg) q = some a) : ∀ c ∈ q, cfg.idx a ≤ cfg.idx c := by
  cases q with
  | nil => simp [pqTop] at h
  | cons b t =>
    simp only [pqTop, Option.some.injEq] at h
    rw [← h]
    exact foldl_best_min cfg t b

theorem pqPop_eq {α : Type} [DecidableEq α] (cmp : α → α → Bool) {q : List α} {a : α}
    (h : pqTop cmp q = some a) : pqPop cmp q = q.erase a := by
  simp [pqPop, h]

theorem mem_setErase (s : List CFGBlock) (b c : CFGBlock) :
    c ∈ setErase s b ↔ c ∈ s ∧ c ≠ b := by
  simp [setErase]

section Reach

variable {T : Type} [DecidableEq T]

theorem foldl_updateSuccessor_inv (analyzer : BBAnalyzer T) (ending : Map T)
    (P : FPState T → Prop) (l : List CFGBlock) (st : FPState T) (h0 : P st)
    (hstep : ∀ st s, s ∈ l → P st → P (updateSuccessor analyzer ending st s)) :
    P (l.foldl (updateSuccessor analyzer ending) st) := by
  induction l generalizing st with
  | nil => exact h0
  | cons s t ih =>
    rw [List.foldl_cons]
    exact ih _ (hstep st s (List.mem_cons_self _ _) h0)
      (fun st' s' hs' => hstep st' s' (List.mem_cons_of_mem _ hs'))

theorem foldl_updateSuccessor_keys (analyzer : BBAnalyzer T) (ending : Map T)
    (l : List CFGBlock) (st : FPState T) :
    (∀ b, b ∈ st.starting_states.keys →
      b ∈ (l.foldl (updateSuccessor analyzer ending) st).starting_states.keys) ∧
    (∀ s ∈ l, s ∈ (l.foldl (updateSuccessor analyzer ending) st).starting_states.keys) := by
  induction l generalizing st with
  | nil => simp
  | cons s t ih =>
    rw [List.foldl_cons]
    have h := ih (updateSuccessor analyzer ending st s)
    have hk : ∀ b, b ∈ st.starting_states.keys ∨ b = s →
        b ∈ (updateSuccessor analyzer ending st s).starting_states.keys := by
      intro b hb
      rw [DenseMap.mem_keys_iff, updateSuccessor_starting]
      by_cases hbs : b = s
      · simp [hbs]
      · rw [if_neg hbs, ← DenseMap.mem_keys_iff]
        exact hb.resolve_right hbs
    refine ⟨fun b hb => h.1 b (hk b (Or.inl hb)), ?_⟩
    intro x hx
    rcases List.mem_cons.1 hx with h1 | h1
    · exact h.1 x (hk x (Or.inr h1))
    · exact h.2 x h1

/-- Induction over one iteration: a property `P` of the states at the loop
head is kept when it yields a property `Q` after the pop, every successor
update keeps `Q`, and `Q` yields `P` again after the write to `ending_states`. -/
theorem step_induction (cfg : CFG) (analyzer : BBAnalyzer T)
    (P : FPState T → Prop) (Q : CFGBlock → Map T → FPState T → Prop)
    (hpop : ∀ st block, P st → pqTop (CFGBlockMinIndex cfg) st.q = some block →
      Q block (exitMap analyzer block (popBlock cfg block st)).2
        { popBlock cfg block st with
          starting_states := (exitMap analyzer block (popBlock cfg block st)).1 })
    (hupd : ∀ st block ending s, s ∈ cfg.successors block → Q block ending st →
      Q block ending (updateSuccessor analyzer ending st s))
    (hfin : ∀ st block ending, Q block ending st →
      (∀ s ∈ cfg.successors block, s ∈ st.starting_states.keys) →
      P { st with ending_states := st.ending_states.set block ending })
    {st st1 : FPState T} (hP : P st) (hs : step cfg analyzer st = some st1) : P st1 := by
  unfold step at hs
  cases ht : pqTop (CFGBlockMinIndex cfg) st.q with
  | none => rw [ht] at hs; exact Option.noConfusion hs
  | some block =>
    rw [ht] at hs
    simp only [Option.some.injEq] at hs
    rw [← hs]
    unfold processBlock
    simp only
    apply hfin
    · apply foldl_updateSuccessor_inv analyzer _ (Q block _)
      · exact hpop st block hP ht
      · intro st' s hs' hQ
        exact hupd st' block _ s hs' hQ
    · exact (foldl_updateSuccessor_keys analyzer _ _ _).2

/-- The same induction for the states inside an iteration. -/
theorem midState_induction (cfg : CFG) (analyzer : BBAnalyzer T)
    (P : FPState T → Prop) (Q : CFGBlock → Map T → FPState T → Prop)
    (hpop : ∀ st block, P st → pqTop (CFGBlockMinIndex cfg) st.q = some block →
      Q block (exitMap analyzer block (popBlock cfg block st)).2
        { popBlock cfg block st with
          starting_states := (exitMap analyzer block (popBlock cfg block st)).1 })
    (hupd : ∀ st block ending s, s ∈ cfg.successors block → Q block ending st →
      Q block ending (updateSuccessor analyzer ending st s))
    {st st1 : FPState T} {i : Nat} (hP : P st) (hs : midState cfg analyzer st i = some st1) :
    ∃ block ending, pqTop (CFGBlockMinIndex cfg) st.q = some block ∧ Q block ending st1 := by
  unfold midState at hs
  cases ht : pqTop (CFGBlockMinIndex cfg) st.q with
  | none => rw [ht] at hs; exact Option.noConfusion hs
  | some block =>
    rw [ht] at hs
    simp only [Option.some.injEq] at hs
    rw [← hs]
    refine ⟨block, (exitMap analyzer block (popBlock cfg block st)).2, rfl, ?_⟩
    apply foldl_updateSuccessor_inv analyzer _ (Q block _)
    · exact hpop st block hP ht
    · intro st' s hs' hQ
      exact hupd st' block _ s (List.mem_of_mem_take hs') hQ

theorem reachable_induction (cfg : CFG) (analyzer : BBAnalyzer T)
    (P : FPState T → Prop) (Q : CFGBlock → Map T → FPState T → Prop)
    (hinit : P (initState cfg))
    (hpop : ∀ st block, P st → pqTop (CFGBlockMinIndex cfg) st.q = some block →
      Q block (exitMap analyzer block (popBlock cfg block st)).2
        { popBlock cfg block st with
          starting_states := (exitMap analyzer block (popBlock cfg block st)).1 })
    (hupd : ∀ st block ending s, s ∈ cfg.successors block → Q block ending st →
      Q block ending (updateSuccessor analyzer ending st s))
    (hfin : ∀ st block ending, Q block ending st →
      (∀ s ∈ cfg.successors block, s ∈ st.starting_states.keys) →
      P { st with ending_states := st.ending_states.set block ending })
    {st : FPState T} (hr : Reachable cfg analyzer st) : P st := by
  induction hr with
  | init => exact hinit
  | next _ hs ih => exact step_induction cfg analyzer P Q hpop hupd hfin ih hs

end Reach

section QueueFacts

variable {T : Type} [DecidableEq T]

theorem queueInv_init (cfg : CFG) : QueueInv (initState cfg : FPState T) := by
  constructor
  · simp [initState, pqPush]
  · intro b
    simp [initState, pqPush, setInsert]

theorem queueInv_pop (cfg : CFG) {st : FPState T} {block : CFGBlock} (h : QueueInv st)
    (ht : pqTop (CFGBlockMinIndex cfg) st.q = some block) (m : AllMap T) :
    QueueInv { popBlock cfg block st with starting_states := m } := by
  constructor
  · show (pqPop (CFGBlockMinIndex cfg) st.q).Nodup
    rw [pqPop_eq _ ht]
    exact h.1.erase block
  · intro b
    show b ∈ setErase st.in_queue block ↔ b ∈ pqPop (CFGBlockMinIndex cfg) st.q
    rw [pqPop_eq _ ht, mem_setErase, h.1.mem_erase_iff, h.2 b, and_comm]

theorem queueInv_update (analyzer : BBAnalyzer T) (ending : Map T) {st : FPState T}
    (s : CFGBlock) (h : QueueInv st) : QueueInv (updateSuccessor analyzer ending st s) := by
  have hq := updateSuccessor_queue analyzer ending st s
  have h1 : (updateSuccessor analyzer ending st s).in_queue = _ := congrArg Prod.fst hq
  have h2 : (updateSuccessor analyzer ending st s).q = _ := congrArg Prod.snd hq
  unfold QueueInv
  rw [h1, h2]
  cases hc : (successorEdge analyzer ending st s).changed with
  | false => exact h
  | true =>
    by_cases hm : s ∈ st.in_queue
    · rw [enqueueIfChanged_mem s _ _ hm]
      exact h
    · rw [enqueueIfChanged_new s _ _ hm]
      constructor
      · rw [List.nodup_append]
        refine ⟨h.1, List.nodup_singleton s, ?_⟩
        intro a ha hb
        rw [List.mem_singleton] at hb
        subst hb
        exact hm ((h.2 a).2 ha)
      · intro b
        rw [List.mem_cons, List.mem_append, List.mem_singleton, h.2 b]
        exact or_comm

theorem queueInv_reachable (cfg : CFG) (analyzer : BBAnalyzer T) {st : FPState T}
    (hr : Reachable cfg analyzer st) : QueueInv st :=
  reachable_induction cfg analyzer QueueInv (fun _ _ st => QueueInv st)
    (queueInv_init cfg)
    (fun _ _ hP ht => queueInv_pop cfg hP ht _)
    (fun _ _ ending s _ hQ => queueInv_update analyzer ending s hQ)
    (fun _ _ _ hQ _ => hQ) hr

theorem queueInv_midState (cfg : CFG) (analyzer : BBAnalyzer T) {st st1 : FPState T} {i : Nat}
    (hr : Reachable cfg analyzer st) (hm : midState cfg analyzer st i = some st1) :
    QueueInv st1 := by
  obtain ⟨_, _, _, h⟩ := midState_induction cfg analyzer QueueInv (fun _ _ st => QueueInv st)
    (fun _ _ hP ht => queueInv_pop cfg hP ht _)
    (fun _ _ ending s _ hQ => queueInv_update analyzer ending s hQ)
    (queueInv_reachable cfg analyzer hr) hm
  exact h

/-- C4, as amended. The direction flag is read by `assert(!reverse)` only.
Compiled without `NDEBUG`, a call with `reverse = true` fails on the assertion
whatever the graph, the analyzer and the number of iterations allowed (none
included), so no block is evaluated and no table is returned. Compiled with
`NDEBUG`, the flag is not looked at: a call with `reverse = true` does what
the call with `reverse = false` does. With `reverse = false` the assertion
fails in neither build, and the result is the same in both. -/
theorem reverse_rejected (cfg : CFG) (analyzer : BBAnalyzer T) (fuel : Nat) :
    computeFixedPoint false cfg analyzer true fuel = Except.error Failure.assertion ∧
    computeFixedPoint false cfg analyzer true 0 = Except.error Failure.assertion ∧
    (∀ r, computeFixedPoint false cfg analyzer true fuel ≠ Except.ok r) ∧
    computeFixedPoint true cfg analyzer true fuel =
      computeFixedPoint true cfg analyzer false fuel ∧
    (∀ ndebug, computeFixedPoint ndebug cfg analyzer false fuel ≠
      Except.error Failure.assertion) ∧
    (∀ ndebug, computeFixedPoint ndebug cfg analyzer false fuel =
      computeFixedPoint false cfg analyzer false fuel) := by
  refine ⟨rfl, rfl, ?_, rfl, ?_, fun _ => rfl⟩
  · intro r h
    simp [computeFixedPoint] at h
  · intro ndebug h
    have h1 : computeFixedPoint ndebug cfg analyzer false fuel =
        match loop cfg analyzer fuel (initState cfg) with
        | some st => Except.ok st.ending_states
        | none => Except.error Failure.outOfFuel := rfl
    rw [h1] at h
    cases hl : loop cfg analyzer fuel (initState cfg) with
    | none => rw [hl] at h; simp at h
    | some st => rw [hl] at h; simp at h

theorem reverse_rejected_witness :
    computeFixedPoint false linearCfg maxAnalyzer true 2 = Except.error Failure.assertion ∧
    computeFixedPoint true linearCfg maxAnalyzer true 2 =
      computeFixedPoint true linearCfg maxAnalyzer false 2 ∧
    computeFixedPoint true linearCfg maxAnalyzer false 2 = Except.ok linearResult :=
  ⟨(reverse_rejected linearCfg maxAnalyzer 2).1,
    (reverse_rejected linearCfg maxAnalyzer 2).2.2.2.1, rfl⟩

/-- C4, as stated, fails. Compiled with `NDEBUG`, `assert(!reverse)` is no
code: on `linearCfg` with `maxAnalyzer` the call with `reverse = true` does
not fail, evaluates both blocks in two iterations and returns the table of
the forward analysis. -/
theorem reverse_runs_without_assertions :
    computeFixedPoint true linearCfg maxAnalyzer true 2 = Except.ok linearResult ∧
    computeFixedPoint true linearCfg maxAnalyzer true 2 ≠ Except.error Failure.assertion ∧
    loop linearCfg maxAnalyzer 2 (initState linearCfg) = some linearFinal ∧
    linearFinal.num_evaluations = 2 ∧
    evalTrace linearCfg maxAnalyzer 2 (initState linearCfg) = [0, 1] ∧
    linearResult.find? 0 = some (singleFact 5) ∧
    linearResult.find? 1 = some (singleFact 5) := by
  refine ⟨rfl, ?_, rfl, rfl, rfl, by decide, by decide⟩
  intro h
  have h1 : computeFixedPoint true linearCfg maxAnalyzer true 2 = Except.ok linearResult := rfl
  rw [h1] at h
  exact Except.noConfusion h

/-- C9. Worklist pop-min: in every state the loop reaches with a non-empty
queue, the block chosen for evaluation is pending (in the queue and in the
membership set), no pending block has a smaller index, and the transfer
function runs on a state from which the block is gone from the queue and
from the membership set, with the other pending blocks and both tables
untouched. -/
theorem pop_min (cfg : CFG) (analyzer : BBAnalyzer T) (st : FPState T)
    (hr : Reachable cfg analyzer st) (hq : st.q ≠ []) :
    ∃ block, pqTop (CFGBlockMinIndex cfg) st.q = some block ∧
      block ∈ st.q ∧ block ∈ st.in_queue ∧
      (∀ c ∈ st.q, cfg.idx block ≤ cfg.idx c) ∧
      step cfg analyzer st = some (processBlock cfg analyzer block (popBlock cfg block st)) ∧
      block ∉ (popBlock cfg block st).q ∧
      block ∉ (popBlock cfg block st).in_queue ∧
      (∀ c, c ≠ block → (c ∈ (popBlock cfg block st).q ↔ c ∈ st.q)) ∧
      (∀ c, c ≠ block → (c ∈ (popBlock cfg block st).in_queue ↔ c ∈ st.in_queue)) ∧
      (popBlock cfg block st).starting_states = st.starting_states ∧
      (popBlock cfg block st).ending_states = st.ending_states := by
  obtain ⟨block, ht⟩ := pqTop_isSome (CFGBlockMinIndex cfg) hq
  have hinv := queueInv_reachable cfg analyzer hr
  have hmem := pqTop_mem _ ht
  have hpq : (popBlock cfg block st).q = st.q.erase block := pqPop_eq _ ht
  have hpi : (popBlock cfg block st).in_queue = setErase st.in_queue block := rfl
  refine ⟨block, ht, hmem, (hinv.2 block).2 hmem, pqTop_min cfg ht, ?_, ?_, ?_, ?_, ?_, rfl, rfl⟩
  · simp [step, ht]
  · rw [hpq, hinv.1.mem_erase_iff]
    simp
  · rw [hpi, mem_setErase]
    simp
  · intro c hc
    rw [hpq, hinv.1.mem_erase_iff]
    simp [hc]
  · intro c hc
    rw [hpi, mem_setErase]
    simp [hc]

theorem pop_min_witness :
    ∃ block, pqTop (CFGBlockMinIndex linearCfg) (initState linearCfg : FPState Nat).q =
        some block ∧
      block ∈ (initState linearCfg : FPState Nat).q ∧
      (∀ c ∈ (initState linearCfg : FPState Nat).q, linearCfg.idx block ≤ linearCfg.idx c) ∧
      block ∉ (popBlock linearCfg block (initState linearCfg : FPState Nat)).q :=
  have ⟨block, h⟩ := pop_min linearCfg maxAnalyzer (initState linearCfg) Reachable.init
    (by decide)
  ⟨block, h.1, h.2.1, h.2.2.2.1, h.2.2.2.2.2.1⟩

/-- C10. Worklist deduplication: at the start of every loop iteration, and
after the transfer function and each successor update inside it, the queue
holds no block twice and the membership set holds exactly the blocks of the
queue; so the enqueue statement leaves set and queue as they are when the
block is already pending. -/
theorem worklist_dedup (cfg : CFG) (analyzer : BBAnalyzer T) (st : FPState T)
    (hr : Reachable cfg analyzer st) :
    (st.q.Nodup ∧ ∀ b, b ∈ st.in_queue ↔ b ∈ st.q) ∧
    (∀ b changed, b ∈ st.q →
      enqueueIfChanged changed b st.in_queue st.q = (st.in_queue, st.q)) ∧
    (∀ i st1, midState cfg analyzer st i = some st1 →
      (st1.q.Nodup ∧ ∀ b, b ∈ st1.in_queue ↔ b ∈ st1.q) ∧
      (∀ b changed, b ∈ st1.q →
        enqueueIfChanged changed b st1.in_queue st1.q = (st1.in_queue, st1.q))) := by
  have hinv := queueInv_reachable cfg analyzer hr
  refine ⟨hinv, ?_, ?_⟩
  · intro b changed hb
    exact enqueueIfChanged_mem b _ _ ((hinv.2 b).2 hb) changed
  · intro i st1 hm
    have h1 := queueInv_midState cfg analyzer hr hm
    refine ⟨h1, ?_⟩
    intro b changed hb
    exact enqueueIfChanged_mem b _ _ ((h1.2 b).2 hb) changed

theorem worklist_dedup_witness :
    (initState linearCfg : FPState Nat).q.Nodup ∧
    (∀ b, b ∈ (initState linearCfg : FPState Nat).in_queue ↔
      b ∈ (initState linearCfg : FPState Nat).q) :=
  (worklist_dedup linearCfg maxAnalyzer (initState linearCfg) Reachable.init).1

end QueueFacts

/-! ## Reachability of the blocks in the tables -/

section Coverage

variable {T : Type} [DecidableEq T]

theorem mem_keys_getOrInsert {K V : Type} [DecidableEq K] (m : DenseMap K V) (k k' : K)
    (d : V) : k' ∈ (m.getOrInsert k d).1.keys ↔ k' = k ∨ k' ∈ m.keys := by
  rw [DenseMap.mem_keys_iff, DenseMap.mem_keys_iff, DenseMap.getOrInsert_find?]
  by_cases h : k' = k <;> simp [h]

theorem updateSuccessor_keys (analyzer : BBAnalyzer T) (ending : Map T) (st : FPState T)
    (s b : CFGBlock) :
    b ∈ (updateSuccessor analyzer ending st s).starting_states.keys ↔
      b = s ∨ b ∈ st.starting_states.keys := by
  rw [DenseMap.mem_keys_iff, DenseMap.mem_keys_iff, updateSuccessor_starting]
  by_cases h : b = s <;> simp [h]

theorem allReach_init (cfg : CFG) : AllReach cfg (initState cfg : FPState T) := by
  intro b hb
  have : b = cfg.startingBlock := by
    rcases hb with h | h | h | h
    · rw [initState, DenseMap.mem_keys_set] at h
      rcases h with h | h
      · exact h
      · simp [DenseMap.keys, DenseMap.empty] at h
    · simp [initState, DenseMap.keys, DenseMap.empty] at h
    · simpa [initState, setInsert] using h
    · simpa [initState, pqPush] using h
  rw [this]
  exact Relation.ReflTransGen.refl

theorem allReach_pop (cfg : CFG) (analyzer : BBAnalyzer T) {st : FPState T} {block : CFGBlock}
    (h : AllReach cfg st) (ht : pqTop (CFGBlockMinIndex cfg) st.q = some block) :
    GraphReach cfg block ∧
    AllReach cfg { popBlock cfg block st with
      starting_states := (exitMap analyzer block (popBlock cfg block st)).1 } := by
  have hb : GraphReach cfg block := h block (Or.inr (Or.inr (Or.inr (pqTop_mem _ ht))))
  refine ⟨hb, ?_⟩
  intro b hmem
  rcases hmem with h1 | h1 | h1 | h1
  · have h2 : b ∈ (st.starting_states.getOrInsert block DenseMap.empty).1.keys := h1
    rw [mem_keys_getOrInsert] at h2
    rcases h2 with h2 | h2
    · rw [h2]; exact hb
    · exact h b (Or.inl h2)
  · exact h b (Or.inr (Or.inl h1))
  · have h2 : b ∈ setErase st.in_queue block := h1
    rw [mem_setErase] at h2
    exact h b (Or.inr (Or.inr (Or.inl h2.1)))
  · have h2 : b ∈ pqPop (CFGBlockMinIndex cfg) st.q := h1
    rw [pqPop_eq _ ht] at h2
    exact h b (Or.inr (Or.inr (Or.inr (List.mem_of_mem_erase h2))))

theorem allReach_update (cfg : CFG) (analyzer : BBAnalyzer T) (ending : Map T)
    {st : FPState T} {block s : CFGBlock} (hs : s ∈ cfg.successors block)
    (h : GraphReach cfg block ∧ AllReach cfg st) :
    GraphReach cfg block ∧ AllReach cfg (updateSuccessor analyzer ending st s) := by
  have hsr : GraphReach cfg s := Relation.ReflTransGen.tail h.1 hs
  refine ⟨h.1, ?_⟩
  intro b hmem
  rcases hmem with h1 | h1 | h1 | h1
  · rw [updateSuccessor_keys] at h1
    rcases h1 with h1 | h1
    · rw [h1]; exact hsr
    · exact h.2 b (Or.inl h1)
  · exact h.2 b (Or.inr (Or.inl h1))
  · rw [updateSuccessor_in_queue_mem] at h1
    rcases h1 with h1 | h1
    · exact h.2 b (Or.inr (Or.inr (Or.inl h1)))
    · rw [h1.1]; exact hsr
  · rw [updateSuccessor_q_mem] at h1
    rcases h1 with h1 | h1
    · exact h.2 b (Or.inr (Or.inr (Or.inr h1)))
    · rw [h1.1]; exact hsr

theorem allReach_finish (cfg : CFG) {st : FPState T} {block : CFGBlock} (ending : Map T)
    (h : GraphReach cfg block ∧ AllReach cfg st) :
    AllReach cfg { st with ending_states := st.ending_states.set block ending } := by
  intro b hmem
  rcases hmem with h1 | h1 | h1 | h1
  · exact h.2 b (Or.inl h1)
  · have h2 : b ∈ (st.ending_states.set block ending).keys := h1
    rw [DenseMap.mem_keys_set] at h2
    rcases h2 with h2 | h2
    · rw [h2]; exact h.1
    · exact h.2 b (Or.inr (Or.inl h2))
  · exact h.2 b (Or.inr (Or.inr (Or.inl h1)))
  · exact h.2 b (Or.inr (Or.inr (Or.inr h1)))

theorem allReach_reachable (cfg : CFG) (analyzer : BBAnalyzer T) {st : FPState T}
    (hr : Reachable cfg analyzer st) : AllReach cfg st :=
  reachable_induction cfg analyzer (AllReach cfg)
    (fun block _ st => GraphReach cfg block ∧ AllReach cfg st)
    (allReach_init cfg)
    (fun _ _ hP ht => allReach_pop cfg analyzer hP ht)
    (fun _ _ ending _ hs hQ => allReach_update cfg analyzer ending hs hQ)
    (fun _ _ ending hQ _ => allReach_finish cfg ending hQ) hr

theorem allReach_midState (cfg : CFG) (analyzer : BBAnalyzer T) {st st1 : FPState T} {i : Nat}
    (hr : Reachable cfg analyzer st) (hm : midState cfg analyzer st i = some st1) :
    AllReach cfg st1 := by
  obtain ⟨_, _, _, h⟩ := midState_induction cfg analyzer (AllReach cfg)
    (fun block _ st => GraphReach cfg block ∧ AllReach cfg st)
    (fun _ _ hP ht => allReach_pop cfg analyzer hP ht)
    (fun _ _ ending _ hs hQ => allReach_update cfg analyzer ending hs hQ)
    (allReach_reachable cfg analyzer hr) hm
  exact h.2

theorem loop_reachable (cfg : CFG) (analyzer : BBAnalyzer T) (fuel : Nat) {st0 st : FPState T}
    (hr : Reachable cfg analyzer st0) (h : loop cfg analyzer fuel st0 = some st) :
    Reachable cfg analyzer st ∧ st.q = [] := by
  induction fuel generalizing st0 with
  | zero =>
    unfold loop at h
    by_cases hq : st0.q = []
    · rw [if_pos hq] at h
      simp only [Option.some.injEq] at h
      rw [← h]
      exact ⟨hr, hq⟩
    · rw [if_neg hq] at h
      exact Option.noConfusion h
  | succ n ih =>
    unfold loop at h
    cases hs : step cfg analyzer st0 with
    | none =>
      rw [hs] at h
      simp only [Option.some.injEq] at h
      rw [← h]
      refine ⟨hr, ?_⟩
      unfold step at hs
      cases ht : pqTop (CFGBlockMinIndex cfg) st0.q with
      | none => exact (pqTop_eq_none _).1 ht
      | some b => rw [ht] at hs; exact Option.noConfusion hs
    | some st1 =>
      rw [hs] at h
      exact ih (Reachable.next hr hs) h

theorem computeFixedPoint_ok (ndebug : Bool) (cfg : CFG) (analyzer : BBAnalyzer T) (fuel : Nat)
    {r : AllMap T}
    (h : computeFixedPoint ndebug cfg analyzer false fuel = Except.ok r) :
    ∃ st, loop cfg analyzer fuel (initState cfg) = some st ∧ st.ending_states = r ∧
      Reachable cfg analyzer st ∧ st.q = [] := by
  simp only [computeFixedPoint, Bool.false_and, Bool.false_eq_true, if_false] at h
  cases hl : loop cfg analyzer fuel (initState cfg) with
  | none => rw [hl] at h; exact Except.noConfusion h
  | some st =>
    rw [hl] at h
    simp only [Except.ok.injEq] at h
    exact ⟨st, rfl, h, loop_reachable cfg analyzer fuel Reachable.init hl⟩

/-- C2. In every state of a run of `computeFixedPoint` (at the loop head or
inside an iteration, after any number of iterations), a block that has an
entry in `starting_states` or `ending_states`, or that is pending, is
reachable from the starting block along successor edges; so a block without
such a path has no entry in either table, nor in a table that is returned. -/
theorem tables_only_reachable (ndebug : Bool) (cfg : CFG) (analyzer : BBAnalyzer T)
    (st : FPState T)
    (hv : Visited cfg analyzer st) :
    (∀ b, (b ∈ st.starting_states.keys ∨ b ∈ st.ending_states.keys ∨ b ∈ st.in_queue ∨
      b ∈ st.q) → GraphReach cfg b) ∧
    (∀ b, ¬ GraphReach cfg b →
      st.starting_states.find? b = none ∧ st.ending_states.find? b = none) ∧
    (∀ fuel r b, computeFixedPoint ndebug cfg analyzer false fuel = Except.ok r →
      ¬ GraphReach cfg b → r.find? b = none) := by
  have h : AllReach cfg st := by
    rcases hv with hr | ⟨st0, i, hr, hm⟩
    · exact allReach_reachable cfg analyzer hr
    · exact allReach_midState cfg analyzer hr hm
  refine ⟨h, ?_, ?_⟩
  · intro b hb
    constructor
    · rw [← DenseMap.not_mem_keys_iff]
      exact fun hk => hb (h b (Or.inl hk))
    · rw [← DenseMap.not_mem_keys_iff]
      exact fun hk => hb (h b (Or.inr (Or.inl hk)))
  · intro fuel r b hok hb
    obtain ⟨st1, _, he, hr1, _⟩ := computeFixedPoint_ok ndebug cfg analyzer fuel hok
    rw [← he, ← DenseMap.not_mem_keys_iff]
    exact fun hk => hb (allReach_reachable cfg analyzer hr1 b (Or.inr (Or.inl hk)))

theorem linearMid_reachable : Reachable linearCfg maxAnalyzer linearMid :=
  Reachable.next Reachable.init rfl

theorem tables_only_reachable_witness :
    Visited linearCfg maxAnalyzer linearMid ∧ GraphReach linearCfg 1 :=
  ⟨Or.inl linearMid_reachable,
    (tables_only_reachable false linearCfg maxAnalyzer linearMid (Or.inl linearMid_reachable)).1 1
      (Or.inl (by decide))⟩

end Coverage

/-! ## The returned table covers the reachable blocks -/

section Covered

variable {T : Type} [DecidableEq T]

theorem covers_init (cfg : CFG) : Covers cfg (initState cfg : FPState T) := by
  refine ⟨?_, ?_, ?_⟩
  · simp [initState, DenseMap.mem_keys_set]
  · intro b hb
    rw [initState, DenseMap.mem_keys_set] at hb
    rcases hb with hb | hb
    · left; simp [initState, setInsert, hb]
    · simp [DenseMap.keys, DenseMap.empty] at hb
  · intro b hb
    simp [initState, DenseMap.keys, DenseMap.empty] at hb

theorem covers_pop (cfg : CFG) (analyzer : BBAnalyzer T) {st : FPState T} {block : CFGBlock}
    (h : Covers cfg st) :
    CoversMid cfg block { popBlock cfg block st with
      starting_states := (exitMap analyzer block (popBlock cfg block st)).1 } := by
  have hk : ∀ b, b ∈ (exitMap analyzer block (popBlock cfg block st)).1.keys ↔
      b = block ∨ b ∈ st.starting_states.keys := fun b => mem_keys_getOrInsert _ _ _ _
  refine ⟨(hk _).2 (Or.inr h.1), ?_, ?_⟩
  · intro b hb
    rcases (hk b).1 hb with h1 | h1
    · exact Or.inl h1
    · by_cases hbb : b = block
      · exact Or.inl hbb
      · rcases h.2.1 b h1 with h2 | h2
        · exact Or.inr (Or.inl ((mem_setErase _ _ _).2 ⟨h2, hbb⟩))
        · exact Or.inr (Or.inr h2)
  · intro b hb s hs
    exact (hk s).2 (Or.inr (h.2.2 b hb s hs))

theorem covers_update (cfg : CFG) (analyzer : BBAnalyzer T) (ending : Map T)
    {st : FPState T} {block : CFGBlock} (s : CFGBlock) (h : CoversMid cfg block st) :
    CoversMid cfg block (updateSuccessor analyzer ending st s) := by
  refine ⟨(updateSuccessor_keys _ _ _ _ _).2 (Or.inr h.1), ?_, ?_⟩
  · intro b hb
    rw [updateSuccessor_in_queue_mem]
    by_cases hold : b ∈ st.starting_states.keys
    · rcases h.2.1 b hold with h1 | h1 | h1
      · exact Or.inl h1
      · exact Or.inr (Or.inl (Or.inl h1))
      · exact Or.inr (Or.inr h1)
    · have hbs : b = s := ((updateSuccessor_keys _ _ _ _ _).1 hb).resolve_right hold
      subst hbs
      have hn : st.starting_states.find? b = none := (DenseMap.not_mem_keys_iff _ _).1 hold
      have hc : (successorEdge analyzer ending st b).changed = true := by
        rw [successorEdge_of_none analyzer ending st b hn]
        exact mergeEdge_changed_mono analyzer ending true DenseMap.empty
      exact Or.inr (Or.inl (Or.inr ⟨rfl, hc⟩))
  · intro b hb x hx
    exact (updateSuccessor_keys _ _ _ _ _).2 (Or.inr (h.2.2 b hb x hx))

theorem covers_finish (cfg : CFG) {st : FPState T} {block : CFGBlock} (ending : Map T)
    (h : CoversMid cfg block st)
    (hs : ∀ s ∈ cfg.successors block, s ∈ st.starting_states.keys) :
    Covers cfg { st with ending_states := st.ending_states.set block ending } := by
  refine ⟨h.1, ?_, ?_⟩
  · intro b hb
    rcases h.2.1 b hb with h1 | h1 | h1
    · exact Or.inr ((DenseMap.mem_keys_set _ _ _ _).2 (Or.inl h1))
    · exact Or.inl h1
    · exact Or.inr ((DenseMap.mem_keys_set _ _ _ _).2 (Or.inr h1))
  · intro b hb x hx
    rcases (DenseMap.mem_keys_set _ _ _ _).1 hb with h1 | h1
    · subst h1; exact hs x hx
    · exact h.2.2 b h1 x hx

theorem covers_reachable (cfg : CFG) (analyzer : BBAnalyzer T) {st : FPState T}
    (hr : Reachable cfg analyzer st) : Covers cfg st :=
  reachable_induction cfg analyzer (Covers cfg) (fun block _ st => CoversMid cfg block st)
    (covers_init cfg)
    (fun _ _ hP _ => covers_pop cfg analyzer hP)
    (fun _ _ ending s _ hQ => covers_update cfg analyzer ending s hQ)
    (fun _ _ ending hQ hs => covers_finish cfg ending hQ hs) hr

/-- When the queue is empty every reachable block has been evaluated. -/
theorem covers_final (cfg : CFG) (analyzer : BBAnalyzer T) {st : FPState T}
    (hr : Reachable cfg analyzer st) (hq : st.q = []) (b : CFGBlock) (hb : GraphReach cfg b) :
    b ∈ st.ending_states.keys := by
  have hc := covers_reachable cfg analyzer hr
  have hi := queueInv_reachable cfg analyzer hr
  have hse : ∀ x, x ∈ st.starting_states.keys → x ∈ st.ending_states.keys := by
    intro x hx
    rcases hc.2.1 x hx with h1 | h1
    · have := (hi.2 x).1 h1
      rw [hq] at this
      exact absurd this (List.not_mem_nil x)
    · exact h1
  induction hb with
  | refl => exact hse _ hc.1
  | tail _ hedge ih => exact hse _ (hc.2.2 _ ih _ hedge)

theorem foldl_updateSuccessor_ending (analyzer : BBAnalyzer T) (ending : Map T)
    (l : List CFGBlock) (st : FPState T) :
    (l.foldl (updateSuccessor analyzer ending) st).ending_states = st.ending_states :=
  foldl_updateSuccessor_inv analyzer ending (fun x => x.ending_states = st.ending_states) l st
    rfl (fun _ _ _ h => h)

theorem processBlock_ending (cfg : CFG) (analyzer : BBAnalyzer T) (block : CFGBlock)
    (st : FPState T) :
    (processBlock cfg analyzer block st).ending_states =
      st.ending_states.set block (exitMap analyzer block st).2 := by
  unfold processBlock
  simp only
  rw [foldl_updateSuccessor_ending]

theorem step_ending_keys (cfg : CFG) (analyzer : BBAnalyzer T) {st st1 : FPState T}
    {block : CFGBlock} (ht : pqTop (CFGBlockMinIndex cfg) st.q = some block)
    (hs : step cfg analyzer st = some st1) (b : CFGBlock) :
    b ∈ st1.ending_states.keys ↔ b = block ∨ b ∈ st.ending_states.keys := by
  unfold step at hs
  rw [ht] at hs
  simp only [Option.some.injEq] at hs
  rw [← hs, processBlock_ending, DenseMap.mem_keys_set]
  rfl

/-- The blocks with an entry in `ending_states` when the loop ends are those
that had one before and those evaluated on the way. -/
theorem loop_ending_keys (cfg : CFG) (analyzer : BBAnalyzer T) (fuel : Nat)
    {st0 st : FPState T} (h : loop cfg analyzer fuel st0 = some st) (b : CFGBlock) :
    b ∈ st.ending_states.keys ↔
      b ∈ st0.ending_states.keys ∨ b ∈ evalTrace cfg analyzer fuel st0 := by
  induction fuel generalizing st0 with
  | zero =>
    unfold loop at h
    by_cases hq : st0.q = []
    · rw [if_pos hq] at h
      simp only [Option.some.injEq] at h
      rw [← h]
      simp [evalTrace]
    · rw [if_neg hq] at h
      exact Option.noConfusion h
  | succ n ih =>
    unfold loop at h
    unfold evalTrace
    cases hs : step cfg analyzer st0 with
    | none =>
      rw [hs] at h
      simp only [Option.some.injEq] at h
      rw [← h]
      cases pqTop (CFGBlockMinIndex cfg) st0.q <;> simp
    | some st1 =>
      rw [hs] at h
      cases ht : pqTop (CFGBlockMinIndex cfg) st0.q with
      | none => simp [step, ht] at hs
      | some block =>
        simp only [List.mem_cons]
        rw [ih h, step_ending_keys cfg analyzer ht hs]
        constructor
        · rintro ((h1 | h1) | h1)
          · exact Or.inr (Or.inl h1)
          · exact Or.inl h1
          · exact Or.inr (Or.inr h1)
        · rintro (h1 | h1 | h1)
          · exact Or.inl (Or.inr h1)
          · exact Or.inl (Or.inl h1)
          · exact Or.inr h1

/-- C1. When `computeFixedPoint` (with `reverse = false`) returns, the blocks
with an entry in the returned table are exactly the blocks reachable from the
starting block along successor edges, and exactly the blocks the loop has
evaluated. -/
theorem ending_states_exactly_reachable (ndebug : Bool) (cfg : CFG) (analyzer : BBAnalyzer T)
    (fuel : Nat)
    (r : AllMap T) (h : computeFixedPoint ndebug cfg analyzer false fuel = Except.ok r) :
    (∀ b, b ∈ r.keys ↔ GraphReach cfg b) ∧
    (∀ b, b ∈ r.keys ↔ b ∈ evalTrace cfg analyzer fuel (initState cfg)) := by
  obtain ⟨st, hl, he, hr, hq⟩ := computeFixedPoint_ok ndebug cfg analyzer fuel h
  rw [← he]
  constructor
  · intro b
    constructor
    · intro hb
      exact allReach_reachable cfg analyzer hr b (Or.inr (Or.inl hb))
    · exact covers_final cfg analyzer hr hq b
  · intro b
    rw [loop_ending_keys cfg analyzer fuel hl b]
    simp [initState, DenseMap.keys, DenseMap.empty]

theorem ending_states_exactly_reachable_witness :
    computeFixedPoint false linearCfg maxAnalyzer false 2 = Except.ok linearResult ∧
    ((1 : CFGBlock) ∈ linearResult.keys ↔ GraphReach linearCfg 1) ∧
    ((1 : CFGBlock) ∈ linearResult.keys ↔
      1 ∈ evalTrace linearCfg maxAnalyzer 2 (initState linearCfg)) :=
  have h := ending_states_exactly_reachable false linearCfg maxAnalyzer 2 linearResult rfl
  ⟨rfl, h.1 1, h.2 1⟩

end Covered

/-! ## Re-running a block on a converged state -/

section Converged

variable {T : Type} [DecidableEq T]

theorem absorbed_unchanged (analyzer : BBAnalyzer T) {ending m : Map T}
    (h : Absorbed analyzer ending m) :
    (mergeEdge analyzer ending false false m).next = m ∧
      (mergeEdge analyzer ending false false m).changed = false := by
  apply mergeEdge_fixed
  intro k
  rw [mergeEdge_find?]
  cases he : ending.find? k with
  | none =>
    cases hm : m.find? k with
    | none => rfl
    | some v => simp [edgeValue, h.2 k v he hm]
  | some e =>
    obtain ⟨v, hv1, hv2⟩ := h.1 k e he
    simp [edgeValue, joined, hv1, hv2]

theorem absorbed_self (analyzer : BBAnalyzer T) (hl : StableLaws analyzer) (ending : Map T) :
    Absorbed analyzer ending ending := by
  constructor
  · intro k e he
    exact ⟨e, he, hl.merge_idem e⟩
  · intro k v he hm
    rw [he] at hm
    exact Option.noConfusion hm

theorem absorbed_after (analyzer : BBAnalyzer T) (hl : StableLaws analyzer)
    (ending m : Map T) :
    Absorbed analyzer ending (mergeEdge analyzer ending false false m).next := by
  constructor
  · intro k e he
    rw [mergeEdge_find?, he]
    cases hm : m.find? k with
    | none => exact ⟨_, rfl, hl.blank_above e⟩
    | some v =>
      refine ⟨_, rfl, ?_⟩
      show analyzer.merge e (analyzer.merge e v) = analyzer.merge e v
      rw [← hl.merge_assoc, hl.merge_idem]
  · intro k v he hm
    rw [mergeEdge_find?, he] at hm
    cases hm' : m.find? k with
    | none => rw [hm'] at hm; exact Option.noConfusion hm
    | some w =>
      rw [hm'] at hm
      simp only [edgeValue, Option.some.injEq] at hm
      rw [← hm]
      exact hl.blank_idem w

theorem absorbed_preserved (analyzer : BBAnalyzer T) (hl : StableLaws analyzer)
    {ending m : Map T} (other : Map T) (h : Absorbed analyzer ending m) :
    Absorbed analyzer ending (mergeEdge analyzer other false false m).next := by
  constructor
  · intro k e he
    obtain ⟨v, hv1, hv2⟩ := h.1 k e he
    rw [mergeEdge_find?, hv1]
    cases ho : other.find? k with
    | none =>
      refine ⟨_, rfl, ?_⟩
      show analyzer.merge e (analyzer.mergeBlank v) = analyzer.mergeBlank v
      calc analyzer.merge e (analyzer.mergeBlank v)
          = analyzer.merge e (analyzer.merge v (analyzer.mergeBlank v)) := by
            rw [hl.blank_above]
        _ = analyzer.merge (analyzer.merge e v) (analyzer.mergeBlank v) := by
            rw [hl.merge_assoc]
        _ = analyzer.mergeBlank v := by rw [hv2, hl.blank_above]
    | some o =>
      refine ⟨_, rfl, ?_⟩
      show analyzer.merge e (analyzer.merge o v) = analyzer.merge o v
      calc analyzer.merge e (analyzer.merge o v)
          = analyzer.merge (analyzer.merge e o) v := by rw [hl.merge_assoc]
        _ = analyzer.merge (analyzer.merge o e) v := by rw [hl.merge_comm e o]
        _ = analyzer.merge o (analyzer.merge e v) := by rw [hl.merge_assoc]
        _ = analyzer.merge o v := by rw [hv2]
  · intro k v he hm
    rw [mergeEdge_find?] at hm
    cases ho : other.find? k with
    | none =>
      rw [ho] at hm
      cases hm' : m.find? k with
      | none => rw [hm'] at hm; exact Option.noConfusion hm
      | some w =>
        rw [hm'] at hm
        simp only [edgeValue, Option.some.injEq] at hm
        rw [← hm]
        exact hl.blank_idem w
    | some o =>
      rw [ho] at hm
      cases hm' : m.find? k with
      | none =>
        rw [hm'] at hm
        simp only [edgeValue, joined, Bool.false_eq_true, if_false, Option.some.injEq] at hm
        rw [← hm]
        exact hl.blank_idem o
      | some w =>
        rw [hm'] at hm
        simp only [edgeValue, joined, Option.some.injEq] at hm
        rw [← hm]
        exact hl.blank_merge o w (h.2 k w he hm')

theorem succAbsorbed_update (analyzer : BBAnalyzer T) (hl : StableLaws analyzer)
    (ending : Map T) (st : FPState T) (s : CFGBlock) :
    SuccAbsorbed analyzer ending s (updateSuccessor analyzer ending st s) := by
  refine ⟨_, by rw [updateSuccessor_starting, if_pos rfl], ?_⟩
  cases hs : st.starting_states.find? s with
  | none =>
    rw [successorEdge_of_none analyzer ending st s hs, mergeEdge_initial]
    exact absorbed_self analyzer hl ending
  | some m =>
    rw [successorEdge_of_some analyzer ending st s hs]
    exact absorbed_after analyzer hl ending m

theorem succAbsorbed_preserved (analyzer : BBAnalyzer T) (hl : StableLaws analyzer)
    (ending other : Map T) (st : FPState T) (s s' : CFGBlock)
    (h : SuccAbsorbed analyzer ending s st) :
    SuccAbsorbed analyzer ending s (updateSuccessor analyzer other st s') := by
  obtain ⟨m, hm, ha⟩ := h
  by_cases hss : s = s'
  · subst hss
    refine ⟨_, by rw [updateSuccessor_starting, if_pos rfl], ?_⟩
    rw [successorEdge_of_some analyzer other st s hm]
    exact absorbed_preserved analyzer hl other ha
  · exact ⟨m, by rw [updateSuccessor_starting, if_neg hss]; exact hm, ha⟩

theorem foldl_succAbsorbed (analyzer : BBAnalyzer T) (hl : StableLaws analyzer)
    (ending : Map T) (l : List CFGBlock) (st : FPState T) :
    ∀ s ∈ l, SuccAbsorbed analyzer ending s (l.foldl (updateSuccessor analyzer ending) st) := by
  induction l generalizing st with
  | nil => intro s hs; exact absurd hs (List.not_mem_nil s)
  | cons x t ih =>
    intro s hs
    rw [List.foldl_cons]
    by_cases hst : s ∈ t
    · exact ih _ s hst
    · have hsx : s = x := (List.mem_cons.1 hs).resolve_right hst
      subst hsx
      exact foldl_updateSuccessor_inv analyzer ending (SuccAbsorbed analyzer ending s) t _
        (succAbsorbed_update analyzer hl ending st s)
        (fun st' s' _ h => succAbsorbed_preserved analyzer hl ending ending st' s s' h)

end Converged

section ConvergedLoop

variable {T : Type} [DecidableEq T]

theorem settled_init (cfg : CFG) (analyzer : BBAnalyzer T) :
    Settled cfg analyzer (initState cfg) := by
  intro b e he
  simp [initState, DenseMap.find?_empty] at he

theorem settled_pop (cfg : CFG) (analyzer : BBAnalyzer T) {st : FPState T} (block : CFGBlock)
    (h : Settled cfg analyzer st) :
    SettledMid cfg analyzer block (exitMap analyzer block (popBlock cfg block st)).2
      { popBlock cfg block st with
        starting_states := (exitMap analyzer block (popBlock cfg block st)).1 } := by
  have hfind : ∀ x m, st.starting_states.find? x = some m →
      (exitMap analyzer block (popBlock cfg block st)).1.find? x = some m := by
    intro x m hx
    show (st.starting_states.getOrInsert block DenseMap.empty).1.find? x = some m
    rw [DenseMap.getOrInsert_find?]
    by_cases hxb : x = block
    · subst hxb
      rw [if_pos rfl, DenseMap.getOrInsert_snd, hx]
      rfl
    · rw [if_neg hxb, hx]
  constructor
  · intro b e hb he hq
    have hq' : b ∉ st.in_queue := fun hmem => hq ((mem_setErase _ _ _).2 ⟨hmem, hb⟩)
    obtain ⟨⟨m, hm1, hm2⟩, hsucc⟩ := h b e he hq'
    refine ⟨⟨m, hfind b m hm1, hm2⟩, ?_⟩
    intro s hs
    obtain ⟨ms, hms1, hms2⟩ := hsucc s hs
    exact ⟨ms, hfind s ms hms1, hms2⟩
  · intro _
    refine ⟨(st.starting_states.getOrInsert block DenseMap.empty).2, ?_, rfl⟩
    show (st.starting_states.getOrInsert block DenseMap.empty).1.find? block = _
    rw [DenseMap.getOrInsert_find?, if_pos rfl]

theorem updateSuccessor_find?_of_not_queued (analyzer : BBAnalyzer T) (ending : Map T)
    (st : FPState T) (s b : CFGBlock) {m : Map T} (hm : st.starting_states.find? b = some m)
    (hq : b ∉ (updateSuccessor analyzer ending st s).in_queue) :
    (updateSuccessor analyzer ending st s).starting_states.find? b = some m := by
  by_cases hbs : b = s
  · subst hbs
    cases hc : (successorEdge analyzer ending st b).changed with
    | true =>
      exact absurd ((updateSuccessor_in_queue_mem analyzer ending st b b).2
        (Or.inr ⟨rfl, hc⟩)) hq
    | false => rw [updateSuccessor_eq_self analyzer ending st b hm hc, hm]
  · rw [updateSuccessor_starting, if_neg hbs, hm]

theorem settled_update (cfg : CFG) (analyzer : BBAnalyzer T) (hl : StableLaws analyzer)
    {st : FPState T} {block : CFGBlock} {ending : Map T} (s : CFGBlock)
    (h : SettledMid cfg analyzer block ending st) :
    SettledMid cfg analyzer block ending (updateSuccessor analyzer ending st s) := by
  have hq_old : ∀ b, b ∉ (updateSuccessor analyzer ending st s).in_queue → b ∉ st.in_queue :=
    fun b hq hmem => hq ((updateSuccessor_in_queue_mem analyzer ending st s b).2 (Or.inl hmem))
  constructor
  · intro b e hb he hq
    obtain ⟨⟨m, hm1, hm2⟩, hsucc⟩ := h.1 b e hb he (hq_old b hq)
    refine ⟨⟨m, updateSuccessor_find?_of_not_queued analyzer ending st s b hm1 hq, hm2⟩, ?_⟩
    intro x hx
    exact succAbsorbed_preserved analyzer hl e ending st x s (hsucc x hx)
  · intro hq
    obtain ⟨m, hm1, hm2⟩ := h.2 (hq_old block hq)
    exact ⟨m, updateSuccessor_find?_of_not_queued analyzer ending st s block hm1 hq, hm2⟩

theorem settled_finish (cfg : CFG) (analyzer : BBAnalyzer T) {st : FPState T}
    {block : CFGBlock} {ending : Map T} (h : SettledMid cfg analyzer block ending st)
    (hs : ∀ s ∈ cfg.successors block, SuccAbsorbed analyzer ending s st) :
    Settled cfg analyzer { st with ending_states := st.ending_states.set block ending } := by
  intro b e he hq
  have he' : (st.ending_states.set block ending).find? b = some e := he
  rw [DenseMap.find?_set] at he'
  by_cases hb : b = block
  · subst hb
    rw [if_pos rfl] at he'
    simp only [Option.some.injEq] at he'
    subst he'
    exact ⟨h.2 hq, hs⟩
  · rw [if_neg hb] at he'
    exact h.1 b e hb he' hq

theorem settled_step (cfg : CFG) (analyzer : BBAnalyzer T) (hl : StableLaws analyzer)
    {st st1 : FPState T} (hP : Settled cfg analyzer st)
    (hs : step cfg analyzer st = some st1) : Settled cfg analyzer st1 := by
  unfold step at hs
  cases ht : pqTop (CFGBlockMinIndex cfg) st.q with
  | none => rw [ht] at hs; exact Option.noConfusion hs
  | some block =>
    rw [ht] at hs
    simp only [Option.some.injEq] at hs
    rw [← hs]
    unfold processBlock
    simp only
    apply settled_finish
    · apply foldl_updateSuccessor_inv analyzer _ (SettledMid cfg analyzer block _)
      · exact settled_pop cfg analyzer block hP
      · intro st' s _ hQ
        exact settled_update cfg analyzer hl s hQ
    · exact foldl_succAbsorbed analyzer hl _ _ _

theorem settled_reachable (cfg : CFG) (analyzer : BBAnalyzer T) (hl : StableLaws analyzer)
    {st : FPState T} (hr : Reachable cfg analyzer st) : Settled cfg analyzer st := by
  induction hr with
  | init => exact settled_init cfg analyzer
  | next _ hs ih => exact settled_step cfg analyzer hl ih hs

theorem foldl_updateSuccessor_eq_self (analyzer : BBAnalyzer T) (ending : Map T)
    (l : List CFGBlock) (st : FPState T)
    (h : ∀ s ∈ l, SuccAbsorbed analyzer ending s st) :
    l.foldl (updateSuccessor analyzer ending) st = st := by
  induction l with
  | nil => rfl
  | cons x t ih =>
    obtain ⟨m, hm, ha⟩ := h x (List.mem_cons_self _ _)
    have hc : (successorEdge analyzer ending st x).changed = false := by
      rw [successorEdge_of_some analyzer ending st x hm]
      exact (absorbed_unchanged analyzer ha).2
    rw [List.foldl_cons, updateSuccessor_eq_self analyzer ending st x hm hc]
    exact ih (fun s hs => h s (List.mem_cons_of_mem _ hs))

end ConvergedLoop

/-! ## Idempotence at convergence -/

section Idempotence

variable {T : Type} [DecidableEq T]

theorem maxAnalyzer_stable : StableLaws maxAnalyzer where
  merge_idem := fun a => Nat.max_self a
  merge_comm := fun a b => Nat.max_comm a b
  merge_assoc := fun a b c => Nat.max_assoc a b c
  blank_above := fun a => Nat.max_self a
  blank_idem := fun _ => rfl
  blank_merge := fun _ _ _ => rfl

/-- C8, as amended. Idempotence at convergence for an analyzer whose `merge`
is idempotent, commutative and associative and whose `mergeBlank` satisfies
`merge(a, mergeBlank(a)) = mergeBlank(a)`, `mergeBlank(mergeBlank(a)) =
mergeBlank(a)` and `mergeBlank(merge(a, b)) = merge(a, b)` whenever
`mergeBlank(b) = b`: when the loop has ended, re-running the loop body on the
final state for any block of the output returns the final state itself (every
starting and ending map, the queue and the membership set), and no successor
is marked changed. -/
theorem converged_rerun_stable (ndebug : Bool) (cfg : CFG) (analyzer : BBAnalyzer T)
    (hl : StableLaws analyzer) (fuel : Nat) (st : FPState T)
    (h : loop cfg analyzer fuel (initState cfg) = some st) (b : CFGBlock)
    (hb : b ∈ st.ending_states.keys) :
    computeFixedPoint ndebug cfg analyzer false fuel = Except.ok st.ending_states ∧
    processBlock cfg analyzer b st = st ∧
    (∀ s ∈ cfg.successors b,
      (successorEdge analyzer (exitMap analyzer b st).2 st s).changed = false) := by
  obtain ⟨hr, hq⟩ := loop_reachable cfg analyzer fuel Reachable.init h
  have hinv := queueInv_reachable cfg analyzer hr
  have hnq : b ∉ st.in_queue := by
    intro hmem
    have := (hinv.2 b).1 hmem
    rw [hq] at this
    exact absurd this (List.not_mem_nil b)
  obtain ⟨e, he⟩ : ∃ e, st.ending_states.find? b = some e := by
    have := (DenseMap.mem_keys_iff _ _).1 hb
    cases hf : st.ending_states.find? b with
    | none => rw [hf] at this; exact Bool.noConfusion this
    | some e => exact ⟨e, rfl⟩
  obtain ⟨⟨m, hm1, hm2⟩, hsucc⟩ := settled_reachable cfg analyzer hl hr b e he hnq
  have hx : exitMap analyzer b st = (st.starting_states, e) := by
    unfold exitMap
    simp only [DenseMap.getOrInsert_of_find? _ hm1, hm2]
  refine ⟨?_, ?_, ?_⟩
  · simp [computeFixedPoint, h]
  · unfold processBlock
    simp only [hx]
    have hst : ({ st with starting_states := st.starting_states } : FPState T) = st := rfl
    rw [hst, foldl_updateSuccessor_eq_self analyzer e _ st hsucc, DenseMap.set_eq_self he]
  · intro s hs
    obtain ⟨ms, hms, ha⟩ := hsucc s hs
    rw [hx, successorEdge_of_some analyzer e st s hms]
    exact (absorbed_unchanged analyzer ha).2

theorem converged_rerun_stable_witness :
    loop linearCfg maxAnalyzer 2 (initState linearCfg) = some linearFinal ∧
    (0 : CFGBlock) ∈ linearFinal.ending_states.keys ∧
    processBlock linearCfg maxAnalyzer 0 linearFinal = linearFinal :=
  ⟨rfl, by decide,
    (converged_rerun_stable false linearCfg maxAnalyzer maxAnalyzer_stable 2 linearFinal rfl 0
      (by decide)).2.1⟩

/-- C8, as stated, fails. On `fanCfg` with `widenAnalyzer` (`merge = max`;
`mergeBlank` monotone, above its argument and idempotent) the loop ends after
five evaluations with `starting_states[4] = {x: 1}`.  Block `2` is in the
output with an empty exit map; re-running the loop body for it applies
`mergeBlank` to the `1` that block `3` merged in after block `2` was evaluated:
`starting_states[4]` becomes `{x: 2}`, block `4` is marked changed and is
enqueued. -/
theorem converged_rerun_changes :
    loop fanCfg widenAnalyzer 5 (initState fanCfg) = some fanFinal ∧
    (∀ ndebug, computeFixedPoint ndebug fanCfg widenAnalyzer false 5 =
      Except.ok fanFinal.ending_states) ∧
    (2 : CFGBlock) ∈ fanFinal.ending_states.keys ∧
    fanFinal.starting_states.find? 4 = some (singleFact 1) ∧
    (processBlock fanCfg widenAnalyzer 2 fanFinal).starting_states.find? 4 =
      some (singleFact 2) ∧
    (successorEdge widenAnalyzer (exitMap widenAnalyzer 2 fanFinal).2 fanFinal 4).changed
      = true ∧
    (processBlock fanCfg widenAnalyzer 2 fanFinal).q = [4] ∧
    processBlock fanCfg widenAnalyzer 2 fanFinal ≠ fanFinal ∧
    (∀ a, widenAnalyzer.merge a a = a) ∧
    (∀ a b, widenAnalyzer.merge a b = widenAnalyzer.merge b a) ∧
    (∀ a b c, widenAnalyzer.merge (widenAnalyzer.merge a b) c =
      widenAnalyzer.merge a (widenAnalyzer.merge b c)) ∧
    (∀ a b, a ≤ b → widenAnalyzer.mergeBlank a ≤ widenAnalyzer.mergeBlank b) ∧
    (∀ a, a ≤ widenAnalyzer.mergeBlank a) ∧
    (∀ a, widenAnalyzer.mergeBlank (widenAnalyzer.mergeBlank a) =
      widenAnalyzer.mergeBlank a) := by
  refine ⟨rfl, fun _ => rfl, by decide, by decide, by decide, by decide, by decide, ?_, ?_, ?_,
    ?_, ?_, ?_, ?_⟩
  · intro h
    have hq : (processBlock fanCfg widenAnalyzer 2 fanFinal).q = fanFinal.q := by rw [h]
    exact absurd hq (by decide)
  · intro a; exact Nat.max_self a
  · intro a b; exact Nat.max_comm a b
  · intro a b c; exact Nat.max_assoc a b c
  · intro a b hab
    simp only [widenAnalyzer]
    split <;> split <;> omega
  · intro a
    simp only [widenAnalyzer]
    split <;> omega
  · intro a
    simp only [widenAnalyzer]
    split <;> simp_all

end Idempotence

/-! ## Runs that never end -/

section NeverEnds

variable {T : Type} [DecidableEq T]

/-- A property that holds before the loop and that every state with the
property hands on through an iteration keeps the loop running for ever. -/
theorem loop_never_ends (cfg : CFG) (analyzer : BBAnalyzer T) (P : FPState T → Prop)
    (hstep : ∀ st, P st → ∃ st1, step cfg analyzer st = some st1 ∧ P st1)
    (fuel : Nat) (st : FPState T) (h : P st) : loop cfg analyzer fuel st = none := by
  induction fuel generalizing st with
  | zero =>
    obtain ⟨st1, hs, _⟩ := hstep st h
    unfold loop
    have hq : st.q ≠ [] := by
      intro hq
      unfold step at hs
      rw [hq] at hs
      exact Option.noConfusion hs
    rw [if_neg hq]
  | succ n ih =>
    obtain ⟨st1, hs, h1⟩ := hstep st h
    unfold loop
    rw [hs]
    exact ih st1 h1

theorem foldl_updateSuccessor_setNum (analyzer : BBAnalyzer T) (ending : Map T)
    (l : List CFGBlock) (st : FPState T) (n : Nat) :
    l.foldl (updateSuccessor analyzer ending) { st with num_evaluations := n } =
      { l.foldl (updateSuccessor analyzer ending) st with num_evaluations := n } := by
  induction l generalizing st with
  | nil => rfl
  | cons s t ih =>
    rw [List.foldl_cons, List.foldl_cons, ← ih]
    rfl

theorem processBlock_setNum (cfg : CFG) (analyzer : BBAnalyzer T) (block : CFGBlock)
    (st : FPState T) (n : Nat) :
    processBlock cfg analyzer block { st with num_evaluations := n } =
      { processBlock cfg analyzer block st with num_evaluations := n } := by
  have h := foldl_updateSuccessor_setNum analyzer (exitMap analyzer block st).2
    (cfg.successors block) { st with starting_states := (exitMap analyzer block st).1 } n
  exact congrArg (fun s : FPState T =>
    ({ s with ending_states := s.ending_states.set block (exitMap analyzer block st).2 } :
      FPState T)) h

/-- The counter `num_evaluations` has no influence on an iteration. -/
theorem step_setNum (cfg : CFG) (analyzer : BBAnalyzer T) (st : FPState T) (n : Nat) :
    step cfg analyzer { st with num_evaluations := n } =
      (step cfg analyzer st).map (fun s => { s with num_evaluations := n + 1 }) := by
  unfold step
  cases ht : pqTop (CFGBlockMinIndex cfg) st.q with
  | none => simp [ht]
  | some block =>
    simp only [ht, Option.map_some']
    congr 1
    exact processBlock_setNum cfg analyzer block (popBlock cfg block st) (n + 1)

theorem iterate_succ_some (cfg : CFG) (analyzer : BBAnalyzer T) (n : Nat)
    {st st1 : FPState T} (h : iterate cfg analyzer (n + 1) st = some st1) :
    ∃ st2, iterate cfg analyzer n st = some st2 ∧ step cfg analyzer st2 = some st1 := by
  induction n generalizing st with
  | zero =>
    unfold iterate at h
    cases hs : step cfg analyzer st with
    | none => rw [hs] at h; exact Option.noConfusion h
    | some s =>
      rw [hs] at h
      simp only [iterate, Option.some.injEq] at h
      exact ⟨st, rfl, by rw [hs, h]⟩
  | succ k ih =>
    unfold iterate at h
    cases hs : step cfg analyzer st with
    | none => rw [hs] at h; exact Option.noConfusion h
    | some s =>
      rw [hs] at h
      obtain ⟨st2, h1, h2⟩ := ih h
      refine ⟨st2, ?_, h2⟩
      unfold iterate
      rw [hs]
      exact h1

theorem iterate_initial_some (cfg : CFG) (analyzer : BBAnalyzer T) (n : Nat)
    {st st1 : FPState T} (h : iterate cfg analyzer n st = some st1) (j : Nat) (hj : j ≤ n) :
    ∃ s, iterate cfg analyzer j st = some s := by
  induction n generalizing st1 with
  | zero =>
    have : j = 0 := by omega
    subst this
    exact ⟨_, h⟩
  | succ k ih =>
    by_cases hjk : j = k + 1
    · subst hjk
      exact ⟨_, h⟩
    · obtain ⟨st2, h2, _⟩ := iterate_succ_some cfg analyzer k h
      exact ih h2 (by omega)

/-- A run that comes back, after `p > 0` further iterations, to a state it has
been in (up to the evaluation counter) never ends. -/
theorem lasso_never_ends (cfg : CFG) (analyzer : BBAnalyzer T) (k p : Nat) (a : FPState T)
    (m : Nat) (hk : iterate cfg analyzer k (initState cfg) = some a)
    (hp : iterate cfg analyzer (p + 1) a = some { a with num_evaluations := m })
    (fuel : Nat) : loop cfg analyzer fuel (initState cfg) = none := by
  -- the states on the stem and on the cycle, with any value of the counter
  let P : FPState T → Prop := fun st =>
    (∃ j s n, j < k ∧ iterate cfg analyzer j (initState cfg) = some s ∧
      st = { s with num_evaluations := n }) ∨
    (∃ j s n, j ≤ p ∧ iterate cfg analyzer j a = some s ∧
      st = { s with num_evaluations := n })
  have hcyc : ∀ j, j ≤ p → ∀ s n, iterate cfg analyzer j a = some s →
      ∃ st1, step cfg analyzer { s with num_evaluations := n } = some st1 ∧ P st1 := by
    intro j hj s n hs
    have hlive : ∃ s1, iterate cfg analyzer (j + 1) a = some s1 :=
      iterate_initial_some cfg analyzer (p + 1) hp (j + 1) (by omega)
    obtain ⟨s1, hs1⟩ := hlive
    obtain ⟨s2, hs2, hstep⟩ := iterate_succ_some cfg analyzer j hs1
    rw [hs] at hs2
    simp only [Option.some.injEq] at hs2
    subst hs2
    refine ⟨{ s1 with num_evaluations := n + 1 }, ?_, ?_⟩
    · rw [step_setNum, hstep]
      rfl
    · by_cases hjp : j = p
      · subst hjp
        rw [hp] at hs1
        simp only [Option.some.injEq] at hs1
        right
        exact ⟨0, a, n + 1, Nat.zero_le _, rfl, by rw [← hs1]⟩
      · right
        exact ⟨j + 1, s1, n + 1, by omega, hs1, rfl⟩
  have hstem : ∀ j, j < k → ∀ s n, iterate cfg analyzer j (initState cfg) = some s →
      ∃ st1, step cfg analyzer { s with num_evaluations := n } = some st1 ∧ P st1 := by
    intro j hj s n hs
    have hlive : ∃ s1, iterate cfg analyzer (j + 1) (initState cfg) = some s1 :=
      iterate_initial_some cfg analyzer k hk (j + 1) (by omega)
    obtain ⟨s1, hs1⟩ := hlive
    obtain ⟨s2, hs2, hstep⟩ := iterate_succ_some cfg analyzer j hs1
    rw [hs] at hs2
    simp only [Option.some.injEq] at hs2
    subst hs2
    refine ⟨{ s1 with num_evaluations := n + 1 }, ?_, ?_⟩
    · rw [step_setNum, hstep]
      rfl
    · by_cases hjk : j + 1 = k
      · rw [hjk, hk] at hs1
        simp only [Option.some.injEq] at hs1
        right
        exact ⟨0, a, n + 1, Nat.zero_le _, rfl, by rw [← hs1]⟩
      · left
        exact ⟨j + 1, s1, n + 1, by omega, hs1, rfl⟩
  apply loop_never_ends cfg analyzer P
  · intro st hst
    rcases hst with ⟨j, s, n, hj, hs, rfl⟩ | ⟨j, s, n, hj, hs, rfl⟩
    · exact hstem j hj s n hs
    · exact hcyc j hj s n hs
  · by_cases hk0 : k = 0
    · subst hk0
      simp only [iterate, Option.some.injEq] at hk
      right
      exact ⟨0, a, a.num_evaluations, Nat.zero_le _, rfl, by rw [hk]⟩
    · left
      exact ⟨0, initState cfg, (initState cfg : FPState T).num_evaluations, by omega, rfl, rfl⟩

end NeverEnds

theorem chain_length_of_rank {T : Type} (le : T → T → Prop) (H : Nat) (rank : T → Nat)
    (hH : ∀ a, rank a ≤ H) (hlt : ∀ a b, le a b → a ≠ b → rank a < rank b)
    (l : List T) (hl : l.Chain' (fun a b => le a b ∧ a ≠ b)) : l.length ≤ H + 1 := by
  have key : ∀ (t : List T) (a : T), (a :: t).Chain' (fun a b => le a b ∧ a ≠ b) →
      (a :: t).length + rank a ≤ H + 1 := by
    intro t
    induction t with
    | nil =>
      intro a _
      have := hH a
      simp only [List.length_singleton]
      omega
    | cons b t ih =>
      intro a hc
      rw [List.chain'_cons] at hc
      have h1 := ih b hc.2
      have h2 := hlt a b hc.1.1 hc.1.2
      simp only [List.length_cons] at h1 ⊢
      omega
  cases l with
  | nil => simp
  | cons a t =>
    have := key t a hl
    omega

theorem boolLe_finiteHeight : FiniteHeight boolLe 1 where
  refl := fun a => by cases a <;> simp [boolLe]
  trans := fun a b c => by cases a <;> cases b <;> cases c <;> simp [boolLe]
  antisymm := fun a b => by cases a <;> cases b <;> simp [boolLe]
  chain := chain_length_of_rank boolLe 1 (fun b => if b then 1 else 0)
    (fun a => by cases a <;> simp)
    (fun a b => by cases a <;> cases b <;> simp [boolLe])

theorem lt_freshKey {V : Type} (m : DenseMap InternedString V) :
    ∀ k ∈ m.keys, k < freshKey m := by
  unfold freshKey
  induction m.keys with
  | nil => intro k hk; exact absurd hk (List.not_mem_nil k)
  | cons a t ih =>
    intro k hk
    rw [List.foldr_cons]
    rcases List.mem_cons.1 hk with h | h
    · rw [h]
      exact lt_of_lt_of_le (Nat.lt_succ_self a) (le_max_left _ _)
    · exact lt_of_lt_of_le (ih k h) (le_max_right _ _)

theorem freshKey_find? {V : Type} (m : DenseMap InternedString V) :
    m.find? (freshKey m) = none := by
  rw [← DenseMap.not_mem_keys_iff]
  intro h
  exact absurd (lt_freshKey m _ h) (lt_irrefl _)

theorem cycle_never_ends (fuel : Nat) :
    loop cycleCfg projAnalyzer fuel (initState cycleCfg) = none := by
  obtain ⟨a, h1, h2⟩ : ∃ a : FPState Bool,
      iterate cycleCfg projAnalyzer 5 (initState cycleCfg) = some a ∧
      iterate cycleCfg projAnalyzer 5 a = some { a with num_evaluations := 10 } :=
    ⟨_, rfl, rfl⟩
  exact lasso_never_ends cycleCfg projAnalyzer 5 4 a 10 h1 h2 fuel

theorem grow_never_ends (fuel : Nat) :
    loop growCfg growAnalyzer fuel (initState growCfg) = none := by
  apply loop_never_ends growCfg growAnalyzer (fun st =>
    st = initState growCfg ∨
      (st.q = [1] ∧ st.in_queue = [1] ∧ ∃ m, st.starting_states.find? 1 = some m))
  · intro st hst
    rcases hst with rfl | ⟨hq, hiq, m, hm⟩
    · exact ⟨_, rfl, Or.inr ⟨rfl, rfl, DenseMap.empty, rfl⟩⟩
    · refine ⟨processBlock growCfg growAnalyzer 1 (popBlock growCfg 1 st), ?_, Or.inr ?_⟩
      · simp [step, hq, pqTop]
      · have hx : exitMap growAnalyzer 1 (popBlock growCfg 1 st) =
            (st.starting_states, m.set (freshKey m) ()) := by
          unfold exitMap
          have : (popBlock growCfg 1 st).starting_states = st.starting_states := rfl
          simp only [this, DenseMap.getOrInsert_of_find? _ hm]
          rfl
        have hsucc : growCfg.successors 1 = [1] := rfl
        unfold processBlock
        simp only [hx, hsucc, List.foldl_cons, List.foldl_nil]
        have hm0 : ({ popBlock growCfg 1 st with starting_states := st.starting_states } :
            FPState Unit).starting_states.find? 1 = some m := hm
        have he := successorEdge_of_some growAnalyzer (m.set (freshKey m) ()) _ 1 hm0
        have hc : (successorEdge growAnalyzer (m.set (freshKey m) ())
            { popBlock growCfg 1 st with starting_states := st.starting_states } 1).changed
            = true := by
          rw [he, mergeEdge_changed_iff]
          intro heq
          have hf := congrArg (fun x => x.find? (freshKey m)) heq
          simp only [mergeEdge_find?, DenseMap.find?_set_self, freshKey_find?] at hf
          exact Option.noConfusion hf
        have hqu := updateSuccessor_queue growAnalyzer (m.set (freshKey m) ())
          { popBlock growCfg 1 st with starting_states := st.starting_states } 1
        rw [hc] at hqu
        have hpq : (popBlock growCfg 1 st).q = [] := by
          show pqPop (CFGBlockMinIndex growCfg) st.q = []
          rw [hq]; rfl
        have hpi : (popBlock growCfg 1 st).in_queue = [] := by
          show setErase st.in_queue 1 = []
          rw [hiq]; rfl
        have hnew := enqueueIfChanged_new 1 (popBlock growCfg 1 st).in_queue
          (popBlock growCfg 1 st).q (by rw [hpi]; exact List.not_mem_nil 1)
        rw [hpq, hpi] at hnew
        have hqu' : ((updateSuccessor growAnalyzer (m.set (freshKey m) ())
              { popBlock growCfg 1 st with starting_states := st.starting_states } 1).in_queue,
            (updateSuccessor growAnalyzer (m.set (freshKey m) ())
              { popBlock growCfg 1 st with starting_states := st.starting_states } 1).q) =
            ([1], [] ++ [1]) := by
          rw [hqu]
          show enqueueIfChanged true 1 (popBlock growCfg 1 st).in_queue
            (popBlock growCfg 1 st).q = _
          rw [hpq, hpi]
          exact hnew
        refine ⟨congrArg Prod.snd hqu', congrArg Prod.fst hqu', ?_⟩
        exact ⟨_, by
          show (updateSuccessor growAnalyzer (m.set (freshKey m) ())
            { popBlock growCfg 1 st with starting_states := st.starting_states }
            1).starting_states.find? 1 = _
          rw [updateSuccessor_starting, if_pos rfl]⟩
  · exact Or.inl rfl

/-! ## Termination under an inflationary analyzer -/

/-- In a partial order of height `H` every value has a rank of at most `H`
that grows strictly along the order. -/
theorem exists_rank {T : Type} (le : T → T → Prop) (H : Nat) (hfh : FiniteHeight le H) :
    ∃ rank : T → Nat, (∀ a, rank a ≤ H) ∧ ∀ a b, le a b → a ≠ b → rank a < rank b := by
  let S : T → Set Nat := fun a =>
    {n | ∃ l : List T, l.Chain' (fun a b => le a b ∧ a ≠ b) ∧ l.getLast? = some a ∧
      l.length = n + 1}
  have hne : ∀ a, (S a).Nonempty := fun a => ⟨0, [a], List.chain'_singleton a, rfl, rfl⟩
  have hbdd : ∀ a, BddAbove (S a) := by
    intro a
    refine ⟨H, ?_⟩
    rintro n ⟨l, hc, _, hlen⟩
    have := hfh.chain l hc
    omega
  refine ⟨fun a => sSup (S a), ?_, ?_⟩
  · intro a
    show sSup (S a) ≤ H
    obtain ⟨l, hc, _, hlen⟩ := Nat.sSup_mem (hne a) (hbdd a)
    have := hfh.chain l hc
    omega
  · intro a b hab hab'
    show sSup (S a) < sSup (S b)
    obtain ⟨l, hc, hlast, hlen⟩ := Nat.sSup_mem (hne a) (hbdd a)
    have hmem : sSup (S a) + 1 ∈ S b := by
      refine ⟨l ++ [b], ?_, ?_, ?_⟩
      · apply List.Chain'.append hc (List.chain'_singleton b)
        intro x hx y hy
        rw [hlast] at hx
        simp only [Option.mem_def, Option.some.injEq] at hx
        simp only [List.head?_cons, Option.mem_def, Option.some.injEq] at hy
        rw [← hx, ← hy]
        exact ⟨hab, hab'⟩
      · simp
      · simp [hlen]
    exact Nat.lt_of_succ_le (le_csSup (hbdd b) hmem)

section Weights

variable {K V : Type} [DecidableEq K]

theorem alWeight_alSet_none (w : V → Nat) (k : K) (v : V) {l : List (K × V)}
    (h : alFind k l = none) : alWeight w (alSet k v l) = alWeight w l + w v := by
  rw [alSet_of_not_mem v (alFind_eq_none.1 h)]
  simp [alWeight]

theorem alWeight_alSet_some (w : V → Nat) (k : K) (v : V) {l : List (K × V)} {old : V}
    (h : alFind k l = some old) :
    alWeight w (alSet k v l) + w old = alWeight w l + w v := by
  induction l with
  | nil => simp [alFind] at h
  | cons p t ih =>
    by_cases hp : p.1 = k
    · simp only [alFind, hp, if_true, Option.some.injEq] at h
      simp only [alSet, hp, if_true, alWeight, List.map_cons, List.sum_cons, h]
      omega
    · simp only [alFind, hp, if_false] at h
      have := ih h
      simp only [alSet, hp, if_false, alWeight, List.map_cons, List.sum_cons] at this ⊢
      omega

theorem alWeight_le (w : V → Nat) (c : Nat) (l : List (K × V)) (h : ∀ p ∈ l, w p.2 ≤ c) :
    alWeight w l ≤ l.length * c := by
  induction l with
  | nil => simp [alWeight]
  | cons p t ih =>
    have h1 := h p (List.mem_cons_self _ _)
    have h2 := ih (fun x hx => h x (List.mem_cons_of_mem _ hx))
    simp only [alWeight, List.map_cons, List.sum_cons, List.length_cons] at h2 ⊢
    rw [Nat.add_mul, Nat.one_mul]
    omega

end Weights

section EdgeGrowth

variable {T : Type} [DecidableEq T]

theorem mapWeight_set_none (rank : T → Nat) {m : Map T} {k : InternedString} (v : T)
    (h : m.find? k = none) : mapWeight rank (m.set k v) = mapWeight rank m + (1 + rank v) :=
  alWeight_alSet_none _ k v h

theorem mapWeight_set_some (rank : T → Nat) {m : Map T} {k : InternedString} (v : T) {old : T}
    (h : m.find? k = some old) :
    mapWeight rank (m.set k v) + (1 + rank old) = mapWeight rank m + (1 + rank v) :=
  alWeight_alSet_some _ k v h

theorem EdgeGrows.rfl (rank : T → Nat) (e : EdgeState T) : EdgeGrows rank e e :=
  ⟨le_refl _, fun h => Or.inl h⟩

theorem EdgeGrows.trans (rank : T → Nat) {a b c : EdgeState T} (h1 : EdgeGrows rank a b)
    (h2 : EdgeGrows rank b c) : EdgeGrows rank a c := by
  refine ⟨le_trans h1.1 h2.1, ?_⟩
  intro hc
  rcases h2.2 hc with h | h
  · rcases h1.2 h with h' | h'
    · exact Or.inl h'
    · exact Or.inr (lt_of_lt_of_le h' h2.1)
  · exact Or.inr (lt_of_le_of_lt h1.1 h)

variable (analyzer : BBAnalyzer T) (le : T → T → Prop) (rank : T → Nat)

theorem mergeEntry_grows
    (hrank : ∀ a b, le a b → a ≠ b → rank a < rank b)
    (hmerge : ∀ a b, le b (analyzer.merge a b))
    (initial : Bool) (e : EdgeState T) (p : InternedString × T) :
    EdgeGrows rank e (mergeEntry analyzer initial e p) := by
  unfold mergeEntry
  cases hf : e.next.find? p.1 with
  | none =>
    cases initial
    · refine ⟨?_, fun _ => Or.inr ?_⟩ <;>
        simp only [Bool.false_eq_true, if_false, mapWeight_set_none rank _ hf] <;> omega
    · refine ⟨?_, fun _ => Or.inr ?_⟩ <;>
        simp only [if_true, mapWeight_set_none rank _ hf] <;> omega
  | some m =>
    by_cases hm : m = analyzer.merge p.2 m
    · simp only [ne_eq, hm.symm, not_true_eq_false, if_false]
      exact ⟨le_refl _, fun h => Or.inl h⟩
    · have hlt := hrank m (analyzer.merge p.2 m) (hmerge p.2 m) hm
      have hw := mapWeight_set_some rank (analyzer.merge p.2 m) hf
      simp only [ne_eq, hm, not_false_eq_true, if_true]
      refine ⟨?_, fun _ => Or.inr ?_⟩ <;> dsimp only <;> omega

theorem foldl_mergeEntry_grows
    (hrank : ∀ a b, le a b → a ≠ b → rank a < rank b)
    (hmerge : ∀ a b, le b (analyzer.merge a b))
    (initial : Bool) (l : List (InternedString × T)) (e : EdgeState T) :
    EdgeGrows rank e (l.foldl (mergeEntry analyzer initial) e) := by
  induction l generalizing e with
  | nil => exact EdgeGrows.rfl rank e
  | cons p t ih =>
    rw [List.foldl_cons]
    exact EdgeGrows.trans rank (mergeEntry_grows analyzer le rank hrank hmerge initial e p)
      (ih _)

theorem blankEntry_grows
    (hrank : ∀ a b, le a b → a ≠ b → rank a < rank b)
    (hblank : ∀ a, le a (analyzer.mergeBlank a))
    (ending : Map T) (e : EdgeState T) (p : InternedString × T)
    (hp : e.next.find? p.1 = some p.2) :
    EdgeGrows rank e (blankEntry analyzer ending e p) := by
  unfold blankEntry
  by_cases hc : ending.contains p.1 = true
  · simp only [hc, if_true]
    exact EdgeGrows.rfl rank e
  · by_cases hm : analyzer.mergeBlank p.2 = p.2
    · simp only [hc, hm, ne_eq, not_true_eq_false, if_false]
      exact ⟨le_refl _, fun h => Or.inl h⟩
    · have hlt := hrank p.2 (analyzer.mergeBlank p.2) (hblank p.2) (fun h => hm h.symm)
      have hw := mapWeight_set_some rank (analyzer.mergeBlank p.2) hp
      simp only [hc, hm, ne_eq, not_false_eq_true, if_true, if_false, Bool.false_eq_true]
      refine ⟨?_, fun _ => Or.inr ?_⟩ <;> dsimp only <;> omega

theorem foldl_blankEntry_grows
    (hrank : ∀ a b, le a b → a ≠ b → rank a < rank b)
    (hblank : ∀ a, le a (analyzer.mergeBlank a))
    (ending : Map T) (l : List (InternedString × T)) (hl : (l.map Prod.fst).Nodup)
    (e : EdgeState T) (he : ∀ p ∈ l, e.next.find? p.1 = some p.2) :
    EdgeGrows rank e (l.foldl (blankEntry analyzer ending) e) := by
  induction l generalizing e with
  | nil => exact EdgeGrows.rfl rank e
  | cons p t ih =>
    rw [List.map_cons, List.nodup_cons] at hl
    have hp := he p (List.mem_cons_self _ _)
    have he' : ∀ x ∈ t, (blankEntry analyzer ending e p).next.find? x.1 = some x.2 := by
      intro x hx
      have hx1 : x.1 ≠ p.1 := fun h => hl.1 (h ▸ List.mem_map.2 ⟨x, hx, rfl⟩)
      rw [blankEntry_find? analyzer ending e p x.1 hp, if_neg hx1]
      exact he x (List.mem_cons_of_mem _ hx)
    rw [List.foldl_cons]
    exact EdgeGrows.trans rank (blankEntry_grows analyzer le rank hrank hblank ending e p hp)
      (ih hl.2 _ he')

/-- One successor update never lowers the weight of the successor's map, and
raises it when it sets `changed`. -/
theorem mergeEdge_grows
    (hrank : ∀ a b, le a b → a ≠ b → rank a < rank b)
    (hmerge : ∀ a b, le b (analyzer.merge a b))
    (hblank : ∀ a, le a (analyzer.mergeBlank a))
    (ending : Map T) (initial : Bool) (next : Map T) :
    mapWeight rank next ≤ mapWeight rank (mergeEdge analyzer ending initial false next).next ∧
    ((mergeEdge analyzer ending initial false next).changed = true →
      mapWeight rank next < mapWeight rank (mergeEdge analyzer ending initial false next).next)
    := by
  have h1 := foldl_mergeEntry_grows analyzer le rank hrank hmerge initial ending.entries
    { next := next, changed := false, calls := [] }
  have h2 := foldl_blankEntry_grows analyzer le rank hrank hblank ending
    (ending.entries.foldl (mergeEntry analyzer initial)
      { next := next, changed := false, calls := [] }).next.entries (DenseMap.nodup _)
    (ending.entries.foldl (mergeEntry analyzer initial)
      { next := next, changed := false, calls := [] })
    (fun p hp => DenseMap.find?_of_mem_entries _ hp)
  have h := EdgeGrows.trans rank h1 h2
  refine ⟨h.1, fun hc => ?_⟩
  rcases h.2 hc with h' | h'
  · exact Bool.noConfusion h'
  · exact h'

theorem mergeEdge_keys (ending : Map T) (initial changed : Bool) (next : Map T)
    (k : InternedString) :
    k ∈ (mergeEdge analyzer ending initial changed next).next.keys ↔
      k ∈ next.keys ∨ k ∈ ending.keys := by
  rw [DenseMap.mem_keys_iff, DenseMap.mem_keys_iff, DenseMap.mem_keys_iff, mergeEdge_find?]
  cases h1 : ending.find? k <;> cases h2 : next.find? k <;> simp [edgeValue]

end EdgeGrowth

theorem graphReach_mem_blocks {cfg : CFG} (hc : cfg.Closed) {b : CFGBlock}
    (hb : GraphReach cfg b) : b ∈ cfg.blocks := by
  induction hb with
  | refl => exact hc.1
  | tail _ hedge ih => exact hc.2 _ ih _ hedge

section Budget

variable {T : Type} [DecidableEq T]

theorem tableWeight_set_none (rank : T → Nat) {ss : AllMap T} {b : CFGBlock} (m : Map T)
    (h : ss.find? b = none) :
    tableWeight rank (ss.set b m) = tableWeight rank ss + (1 + mapWeight rank m) :=
  alWeight_alSet_none _ b m h

theorem tableWeight_set_some (rank : T → Nat) {ss : AllMap T} {b : CFGBlock} (m : Map T)
    {old : Map T} (h : ss.find? b = some old) :
    tableWeight rank (ss.set b m) + (1 + mapWeight rank old) =
      tableWeight rank ss + (1 + mapWeight rank m) :=
  alWeight_alSet_some _ b m h

theorem tableWeight_getOrInsert (rank : T → Nat) (ss : AllMap T) (b : CFGBlock) :
    tableWeight rank ss ≤ tableWeight rank (ss.getOrInsert b DenseMap.empty).1 := by
  unfold DenseMap.getOrInsert
  cases h : ss.find? b with
  | none =>
    simp only [tableWeight_set_none rank _ h]
    omega
  | some m => exact le_refl _

variable (analyzer : BBAnalyzer T) (le : T → T → Prop) (rank : T → Nat)

theorem updateSuccessor_weight
    (hrank : ∀ a b, le a b → a ≠ b → rank a < rank b)
    (hmerge : ∀ a b, le b (analyzer.merge a b))
    (hblank : ∀ a, le a (analyzer.mergeBlank a))
    (ending : Map T) (st : FPState T) (s : CFGBlock) :
    tableWeight rank st.starting_states ≤
      tableWeight rank (updateSuccessor analyzer ending st s).starting_states ∧
    ((successorEdge analyzer ending st s).changed = true →
      tableWeight rank st.starting_states <
        tableWeight rank (updateSuccessor analyzer ending st s).starting_states) := by
  unfold updateSuccessor
  simp only
  cases hs : st.starting_states.find? s with
  | none =>
    have h1 : (st.starting_states.getOrInsert s DenseMap.empty).1 =
        st.starting_states.set s DenseMap.empty := by
      unfold DenseMap.getOrInsert; rw [hs]
    have h2 := tableWeight_set_none rank (DenseMap.empty : Map T) hs
    have h3 : tableWeight rank ((st.starting_states.set s DenseMap.empty).set s
          (successorEdge analyzer ending st s).next) +
          (1 + mapWeight rank (DenseMap.empty : Map T)) =
        tableWeight rank (st.starting_states.set s DenseMap.empty) +
          (1 + mapWeight rank (successorEdge analyzer ending st s).next) :=
      tableWeight_set_some rank _ (DenseMap.find?_set_self _ s _)
    rw [h1]
    constructor
    · omega
    · intro _; omega
  | some m =>
    have h1 : (st.starting_states.getOrInsert s DenseMap.empty).1 = st.starting_states := by
      rw [DenseMap.getOrInsert_of_find? _ hs]
    have h3 := tableWeight_set_some rank (successorEdge analyzer ending st s).next hs
    have hg := mergeEdge_grows analyzer le rank hrank hmerge hblank ending false m
    rw [← successorEdge_of_some analyzer ending st s hs] at hg
    rw [h1]
    constructor
    · have := hg.1; omega
    · intro hc
      have := hg.2 hc
      omega

theorem updateSuccessor_q_length (ending : Map T) (st : FPState T) (s : CFGBlock) :
    (updateSuccessor analyzer ending st s).q.length ≤ st.q.length + 1 ∧
    ((successorEdge analyzer ending st s).changed = false →
      (updateSuccessor analyzer ending st s).q.length = st.q.length) := by
  have h := congrArg Prod.snd (updateSuccessor_queue analyzer ending st s)
  simp only at h
  rw [h]
  cases hc : (successorEdge analyzer ending st s).changed with
  | false => simp [enqueueIfChanged_false]
  | true =>
    by_cases hm : s ∈ st.in_queue
    · simp [enqueueIfChanged_mem s _ _ hm]
    · simp [enqueueIfChanged_new s _ _ hm]

theorem budget_init (cfg : CFG) : Budget rank (initState cfg : FPState T) := by
  unfold Budget
  have h : tableWeight rank (initState cfg : FPState T).starting_states =
      tableWeight rank (DenseMap.empty : AllMap T) + (1 + mapWeight rank (DenseMap.empty : Map T))
      := tableWeight_set_none rank _ (DenseMap.find?_empty _)
  rw [h]
  simp only [initState, pqPush, List.nil_append, List.length_singleton]
  omega

theorem budget_pop (cfg : CFG) {st : FPState T} {block : CFGBlock} (h : Budget rank st)
    (ht : pqTop (CFGBlockMinIndex cfg) st.q = some block) :
    Budget rank { popBlock cfg block st with
      starting_states := (exitMap analyzer block (popBlock cfg block st)).1 } := by
  unfold Budget at h ⊢
  have hw := tableWeight_getOrInsert rank st.starting_states block
  have hlen : (pqPop (CFGBlockMinIndex cfg) st.q).length + 1 = st.q.length := by
    rw [pqPop_eq _ ht, List.length_erase_of_mem (pqTop_mem _ ht)]
    have : 0 < st.q.length := List.length_pos_of_mem (pqTop_mem _ ht)
    omega
  show (st.num_evaluations + 1) + (pqPop (CFGBlockMinIndex cfg) st.q).length ≤
    tableWeight rank (st.starting_states.getOrInsert block DenseMap.empty).1
  omega

theorem budget_update
    (hrank : ∀ a b, le a b → a ≠ b → rank a < rank b)
    (hmerge : ∀ a b, le b (analyzer.merge a b))
    (hblank : ∀ a, le a (analyzer.mergeBlank a))
    (ending : Map T) {st : FPState T} (s : CFGBlock) (h : Budget rank st) :
    Budget rank (updateSuccessor analyzer ending st s) := by
  unfold Budget at h ⊢
  have hw := updateSuccessor_weight analyzer le rank hrank hmerge hblank ending st s
  have hq := updateSuccessor_q_length analyzer ending st s
  have hn := updateSuccessor_num analyzer ending st s
  rw [hn]
  cases hc : (successorEdge analyzer ending st s).changed with
  | false =>
    have := hq.2 hc
    have := hw.1
    omega
  | true =>
    have := hq.1
    have := hw.2 hc
    omega

theorem budget_reachable (cfg : CFG)
    (hrank : ∀ a b, le a b → a ≠ b → rank a < rank b)
    (hmerge : ∀ a b, le b (analyzer.merge a b))
    (hblank : ∀ a, le a (analyzer.mergeBlank a))
    {st : FPState T} (hr : Reachable cfg analyzer st) : Budget rank st :=
  reachable_induction cfg analyzer (Budget rank) (fun _ _ st => Budget rank st)
    (budget_init rank cfg)
    (fun _ _ hP ht => budget_pop analyzer rank cfg hP ht)
    (fun _ _ ending s _ hQ => budget_update analyzer le rank hrank hmerge hblank ending s hQ)
    (fun _ _ _ hQ _ => hQ) hr

theorem keysIn_reachable (cfg : CFG) (univ : List InternedString)
    (hkeys : ∀ m b, (∀ k ∈ m.keys, k ∈ univ) →
      ∀ k ∈ (analyzer.processBB m b).keys, k ∈ univ)
    {st : FPState T} (hr : Reachable cfg analyzer st) : KeysIn univ st := by
  refine reachable_induction cfg analyzer (KeysIn univ)
    (fun _ ending st => (∀ k ∈ ending.keys, k ∈ univ) ∧ KeysIn univ st) ?_ ?_ ?_ ?_ hr
  · intro b m hm k hk
    rw [initState, DenseMap.find?_set] at hm
    split at hm
    · simp only [Option.some.injEq] at hm
      rw [← hm] at hk
      simp [DenseMap.keys, DenseMap.empty] at hk
    · simp [DenseMap.find?_empty] at hm
  · intro st block hP _
    refine ⟨?_, ?_⟩
    · apply hkeys
      intro k hk
      have hk' : k ∈ (st.starting_states.getOrInsert block DenseMap.empty).2.keys := hk
      rw [DenseMap.getOrInsert_snd] at hk'
      cases hf : st.starting_states.find? block with
      | none =>
        rw [hf] at hk'
        simp [DenseMap.keys, DenseMap.empty] at hk'
      | some m0 =>
        rw [hf] at hk'
        exact hP block m0 hf k hk'
    intro b m hm k hk
    have hm' : (st.starting_states.getOrInsert block DenseMap.empty).1.find? b = some m := hm
    rw [DenseMap.getOrInsert_find?] at hm'
    by_cases hb : b = block
    · subst hb
      rw [if_pos rfl, DenseMap.getOrInsert_snd] at hm'
      cases hf : st.starting_states.find? b with
      | none =>
        rw [hf] at hm'
        simp only [Option.getD_none, Option.some.injEq] at hm'
        rw [← hm'] at hk
        simp [DenseMap.keys, DenseMap.empty] at hk
      | some m0 =>
        rw [hf] at hm'
        simp only [Option.getD_some, Option.some.injEq] at hm'
        rw [← hm'] at hk
        exact hP b m0 hf k hk
    · rw [if_neg hb] at hm'
      exact hP b m hm' k hk
  · intro st block ending s _ hQ
    refine ⟨hQ.1, ?_⟩
    intro b m hm k hk
    rw [updateSuccessor_starting] at hm
    by_cases hb : b = s
    · subst hb
      rw [if_pos rfl] at hm
      simp only [Option.some.injEq] at hm
      rw [← hm] at hk
      unfold successorEdge at hk
      simp only at hk
      rw [mergeEdge_keys] at hk
      rcases hk with hk | hk
      · rw [DenseMap.getOrInsert_snd] at hk
        cases hf : st.starting_states.find? b with
        | none =>
          rw [hf] at hk
          simp [DenseMap.keys, DenseMap.empty] at hk
        | some m0 =>
          rw [hf] at hk
          exact hQ.2 b m0 hf k hk
      · exact hQ.1 k hk
    · rw [if_neg hb] at hm
      exact hQ.2 b m hm k hk
  · intro st block ending hQ _
    exact hQ.2

theorem step_num (cfg : CFG) {st st1 : FPState T} (hs : step cfg analyzer st = some st1) :
    st1.num_evaluations = st.num_evaluations + 1 := by
  unfold step at hs
  cases ht : pqTop (CFGBlockMinIndex cfg) st.q with
  | none => rw [ht] at hs; exact Option.noConfusion hs
  | some block =>
    rw [ht] at hs
    simp only [Option.some.injEq] at hs
    rw [← hs]
    unfold processBlock
    simp only
    exact foldl_updateSuccessor_inv analyzer _
      (fun x => x.num_evaluations = st.num_evaluations + 1) _ _ rfl (fun _ _ _ h => h)

/-- A bound on the evaluation counter of the states with a non-empty queue
makes the loop end within that many iterations. -/
theorem loop_ends_of_bound (cfg : CFG) (bound : Nat)
    (hb : ∀ st, Reachable cfg analyzer st → st.q ≠ [] → st.num_evaluations < bound)
    (fuel : Nat) (st : FPState T) (hr : Reachable cfg analyzer st)
    (hf : bound ≤ st.num_evaluations + fuel) :
    ∃ st1, loop cfg analyzer fuel st = some st1 := by
  induction fuel generalizing st with
  | zero =>
    unfold loop
    by_cases hq : st.q = []
    · exact ⟨st, by rw [if_pos hq]⟩
    · have := hb st hr hq
      omega
  | succ n ih =>
    unfold loop
    cases hs : step cfg analyzer st with
    | none => exact ⟨st, rfl⟩
    | some st1 =>
      have hn := step_num analyzer cfg hs
      exact ih st1 (Reachable.next hr hs) (by omega)

end Budget

theorem unit_finiteHeight : FiniteHeight unitLe 0 where
  refl := fun _ => trivial
  trans := fun _ _ _ _ _ => trivial
  antisymm := fun _ _ _ _ => rfl
  chain := chain_length_of_rank unitLe 0 (fun _ => 0)
    (fun _ => le_refl 0) (fun _ _ _ hne => absurd rfl hne)

section Termination

variable {T : Type} [DecidableEq T]

theorem nodup_length_le {α : Type} {l u : List α} (hn : l.Nodup) (hs : ∀ x ∈ l, x ∈ u) :
    l.length ≤ u.length :=
  (List.subperm_of_subset hn hs).length_le

theorem mapWeight_le (rank : T → Nat) (H : Nat) (hH : ∀ a, rank a ≤ H)
    (univ : List InternedString) (m : Map T) (hm : ∀ k ∈ m.keys, k ∈ univ) :
    mapWeight rank m ≤ univ.length * (H + 1) := by
  have h1 : mapWeight rank m ≤ m.entries.length * (H + 1) :=
    alWeight_le _ _ _ (fun p _ => by have := hH p.2; omega)
  have h2 : m.entries.length ≤ univ.length := by
    have := nodup_length_le m.nodup hm
    simpa [DenseMap.keys] using this
  exact le_trans h1 (Nat.mul_le_mul_right _ h2)

theorem tableWeight_le (rank : T → Nat) (H : Nat) (hH : ∀ a, rank a ≤ H)
    (univ : List InternedString) (blocks : List CFGBlock) (st : FPState T)
    (hk : KeysIn univ st) (hb : ∀ b ∈ st.starting_states.keys, b ∈ blocks) :
    tableWeight rank st.starting_states ≤ blocks.length * (1 + univ.length * (H + 1)) := by
  have h1 : tableWeight rank st.starting_states ≤
      st.starting_states.entries.length * (1 + univ.length * (H + 1)) := by
    apply alWeight_le
    intro p hp
    have := mapWeight_le rank H hH univ p.2
      (hk p.1 p.2 (DenseMap.find?_of_mem_entries _ hp))
    omega
  have h2 : st.starting_states.entries.length ≤ blocks.length := by
    have := nodup_length_le st.starting_states.nodup hb
    simpa [DenseMap.keys] using this
  exact le_trans h1 (Nat.mul_le_mul_right _ h2)

/-- C3, as amended. For a graph whose `N` blocks include the starting block
and all successors, an analyzer whose `merge` and `mergeBlank` never go below
the value merged into (`into ≤ merge(from, into)`, `into ≤ mergeBlank(into)`)
in a partial order of height `H`, and whose `processBB` only adds keys among
`K` given names: the loop reaches an empty queue, `num_evaluations` is then at
most `N * (1 + K * (H + 1))`, and that many iterations are enough for
`computeFixedPoint` to return. -/
theorem terminates_within_bound (ndebug : Bool) (cfg : CFG) (analyzer : BBAnalyzer T)
    (le : T → T → Prop) (H : Nat) (univ : List InternedString)
    (hfh : FiniteHeight le H) (hinf : MergeInflationary analyzer le)
    (hkeys : ∀ m b, (∀ k ∈ m.keys, k ∈ univ) →
      ∀ k ∈ (analyzer.processBB m b).keys, k ∈ univ)
    (hcfg : cfg.Closed) (fuel : Nat)
    (hfuel : cfg.blocks.length * (1 + univ.length * (H + 1)) ≤ fuel) :
    ∃ st, loop cfg analyzer fuel (initState cfg) = some st ∧ st.q = [] ∧
      st.num_evaluations ≤ cfg.blocks.length * (1 + univ.length * (H + 1)) ∧
      computeFixedPoint ndebug cfg analyzer false fuel = Except.ok st.ending_states := by
  obtain ⟨rank, hH, hrank⟩ := exists_rank le H hfh
  have hbound : ∀ st, Reachable cfg analyzer st →
      st.num_evaluations + st.q.length ≤ cfg.blocks.length * (1 + univ.length * (H + 1)) := by
    intro st hr
    have h1 : Budget rank st :=
      budget_reachable analyzer le rank cfg hrank hinf.1 hinf.2 hr
    have h2 := tableWeight_le rank H hH univ cfg.blocks st
      (keysIn_reachable analyzer cfg univ hkeys hr)
      (fun b hb => graphReach_mem_blocks hcfg (allReach_reachable cfg analyzer hr b (Or.inl hb)))
    exact le_trans h1 h2
  have hlt : ∀ st, Reachable cfg analyzer st → st.q ≠ [] →
      st.num_evaluations < cfg.blocks.length * (1 + univ.length * (H + 1)) := by
    intro st hr hq
    have := hbound st hr
    have : 0 < st.q.length := List.length_pos.2 hq
    omega
  obtain ⟨st, hst⟩ := loop_ends_of_bound analyzer cfg _ hlt fuel (initState cfg)
    Reachable.init (by simp only [initState]; omega)
  obtain ⟨hr, hq⟩ := loop_reachable cfg analyzer fuel Reachable.init hst
  refine ⟨st, hst, hq, ?_, ?_⟩
  · have := hbound st hr
    omega
  · simp [computeFixedPoint, hst]

theorem linearCfg_closed : linearCfg.Closed := by
  constructor
  · decide
  · intro b hb s hs
    simp only [linearCfg, List.mem_cons, List.mem_singleton, List.not_mem_nil, or_false] at hb
    rcases hb with rfl | rfl
    · have : s = 1 := by simpa [linearCfg] using hs
      simp [linearCfg, this]
    · simp [linearCfg] at hs

theorem orAnalyzer_keys (m : Map Bool) (b : CFGBlock)
    (hm : ∀ x ∈ m.keys, x ∈ [(0 : InternedString)]) (k : InternedString)
    (hk : k ∈ (orAnalyzer.processBB m b).keys) : k ∈ [(0 : InternedString)] := by
  simp only [orAnalyzer] at hk
  split at hk
  · rcases (DenseMap.mem_keys_set _ _ _ _).1 hk with h | h
    · simp [h]
    · exact hm k h
  · exact hm k hk

theorem terminates_within_bound_witness :
    ∃ st, loop linearCfg orAnalyzer 6 (initState linearCfg) = some st ∧ st.q = [] ∧
      st.num_evaluations ≤ linearCfg.blocks.length * (1 + [(0 : InternedString)].length * (1 + 1)) ∧
      computeFixedPoint false linearCfg orAnalyzer false 6 = Except.ok st.ending_states :=
  terminates_within_bound false linearCfg orAnalyzer boolLe 1 [0] boolLe_finiteHeight
    ⟨fun a b => by cases a <;> cases b <;> simp [boolLe, orAnalyzer],
      fun a => by cases a <;> simp [boolLe, orAnalyzer]⟩
    orAnalyzer_keys linearCfg_closed 6 (by decide)

/-- C3, as stated, fails in two ways.  On `cycleCfg` with `projAnalyzer`, whose
`merge` and `mergeBlank` are monotone for the order `false ≤ true` of height
one, the loop never ends: blocks `1` and `3` keep overwriting the entry of
block `2` with `false` and `true`.  On `growCfg` with `growAnalyzer`, over a
one-point order of height zero in which `merge` and `mergeBlank` are monotone
and above their argument, the loop never ends either: the transfer function
of block `1` adds a new key at every evaluation. -/
theorem monotone_runs_forever :
    (FiniteHeight boolLe 1 ∧ MergeMonotone projAnalyzer boolLe ∧
      cycleCfg.blocks.length = 4 ∧
      ∀ ndebug fuel, computeFixedPoint ndebug cycleCfg projAnalyzer false fuel =
        Except.error Failure.outOfFuel) ∧
    (FiniteHeight unitLe 0 ∧ MergeMonotone growAnalyzer unitLe ∧
      MergeInflationary growAnalyzer unitLe ∧ growCfg.blocks.length = 2 ∧
      ∀ ndebug fuel, computeFixedPoint ndebug growCfg growAnalyzer false fuel =
        Except.error Failure.outOfFuel) := by
  refine ⟨⟨boolLe_finiteHeight, ⟨?_, ?_⟩, rfl, ?_⟩,
    ⟨unit_finiteHeight, ⟨?_, ?_⟩, ⟨?_, ?_⟩, rfl, ?_⟩⟩
  · intro a a1 b b1 h1 _
    exact h1
  · intro a b h
    exact h
  · intro ndebug fuel
    simp [computeFixedPoint, cycle_never_ends fuel]
  · intros; trivial
  · intros; trivial
  · intros; trivial
  · intros; trivial
  · intro ndebug fuel
    simp [computeFixedPoint, grow_never_ends fuel]

end Termination

/-! ## Iterations with a chosen block -/

section TieBasics

variable {T : Type} [DecidableEq T]

theorem popBlock_eq_popAt (cfg : CFG) {st : FPState T} {block : CFGBlock}
    (ht : pqTop (CFGBlockMinIndex cfg) st.q = some block) :
    popBlock cfg block st = popAt block st := by
  unfold popBlock popAt
  rw [pqPop_eq _ ht]

theorem step_eq_evalAt (cfg : CFG) (analyzer : BBAnalyzer T) {st : FPState T}
    {block : CFGBlock} (ht : pqTop (CFGBlockMinIndex cfg) st.q = some block) :
    step cfg analyzer st = some (evalAt cfg analyzer block st) := by
  unfold step evalAt
  rw [ht]
  simp only [popBlock_eq_popAt cfg ht]

theorem step_some_iff (cfg : CFG) (analyzer : BBAnalyzer T) {st st1 : FPState T}
    (hs : step cfg analyzer st = some st1) :
    ∃ block, pqTop (CFGBlockMinIndex cfg) st.q = some block ∧
      st1 = evalAt cfg analyzer block st := by
  cases ht : pqTop (CFGBlockMinIndex cfg) st.q with
  | none => simp [step, ht] at hs
  | some block =>
    rw [step_eq_evalAt cfg analyzer ht] at hs
    simp only [Option.some.injEq] at hs
    exact ⟨block, rfl, hs.symm⟩

theorem isMinPending_of_top (cfg : CFG) {st : FPState T} {block : CFGBlock}
    (ht : pqTop (CFGBlockMinIndex cfg) st.q = some block) : IsMinPending cfg st block :=
  ⟨pqTop_mem _ ht, pqTop_min cfg ht⟩

/-- The engine's own run is one of the runs with a free choice among ties. -/
theorem tieReachable_of_reachable (cfg : CFG) (analyzer : BBAnalyzer T) {st : FPState T}
    (hr : Reachable cfg analyzer st) : TieReachable cfg analyzer st := by
  induction hr with
  | init => exact TieReachable.init
  | next _ hs ih =>
    obtain ⟨block, ht, rfl⟩ := step_some_iff cfg analyzer hs
    exact TieReachable.next ih (isMinPending_of_top cfg ht)

theorem loop_of_step (cfg : CFG) (analyzer : BBAnalyzer T) (n : Nat) {st st1 : FPState T}
    (hs : step cfg analyzer st = some st1) :
    loop cfg analyzer (n + 1) st = loop cfg analyzer n st1 := by
  rw [loop, hs]

theorem loop_of_empty (cfg : CFG) (analyzer : BBAnalyzer T) (n : Nat) {st : FPState T}
    (hq : st.q = []) : loop cfg analyzer n st = some st := by
  cases n with
  | zero => simp [loop, hq]
  | succ k => simp [loop, step, hq, pqTop]

theorem evalTrace_of_step (cfg : CFG) (analyzer : BBAnalyzer T) (n : Nat) {st : FPState T}
    {block : CFGBlock} (ht : pqTop (CFGBlockMinIndex cfg) st.q = some block) :
    evalTrace cfg analyzer (n + 1) st =
      block :: evalTrace cfg analyzer n (evalAt cfg analyzer block st) := by
  rw [evalTrace, ht, step_eq_evalAt cfg analyzer ht]

theorem evalTrace_of_empty (cfg : CFG) (analyzer : BBAnalyzer T) (n : Nat) {st : FPState T}
    (hq : st.q = []) : evalTrace cfg analyzer n st = [] := by
  cases n with
  | zero => rfl
  | succ k => simp [evalTrace, hq, pqTop]

theorem pqTop_single {α : Type} (cmp : α → α → Bool) (a : α) : pqTop cmp [a] = some a := rfl

theorem pqTop_pair_left (cfg : CFG) {a b : CFGBlock} (h : cfg.idx a ≤ cfg.idx b) :
    pqTop (CFGBlockMinIndex cfg) [a, b] = some a := by
  have : ¬ cfg.idx a > cfg.idx b := not_lt.2 h
  simp [pqTop, CFGBlockMinIndex, this]

theorem pqTop_pair_right (cfg : CFG) {a b : CFGBlock} (h : cfg.idx b < cfg.idx a) :
    pqTop (CFGBlockMinIndex cfg) [a, b] = some b := by
  simp [pqTop, CFGBlockMinIndex, h]

end TieBasics

/-! ## Scenarios A and B -/

/-- C13. Scenario A (linear): on the two-block graph `start → B2`, with
`processBB(start)` setting `x = 5` and `processBB(B2)` leaving the map alone,
`merge = max` and `mergeBlank = id`, `computeFixedPoint` returns after two
iterations, whatever the indices, and the table it returns has exactly the
entries `start ↦ {x: 5}` and `B2 ↦ {x: 5}`. -/
theorem scenario_linear (ndebug : Bool) (idx : CFGBlock → Int) (n : Nat) :
    computeFixedPoint ndebug (scenarioA idx) maxAnalyzer false (n + 2) = Except.ok linearResult ∧
    linearResult.keys = [0, 1] ∧
    linearResult.find? 0 = some (singleFact 5) ∧
    linearResult.find? 1 = some (singleFact 5) ∧
    (singleFact 5).entries = [(0, 5)] := by
  refine ⟨?_, rfl, rfl, rfl, rfl⟩
  have h1 : step (scenarioA idx) maxAnalyzer (initState (scenarioA idx)) =
      some (evalAt (scenarioA idx) maxAnalyzer 0 (initState (scenarioA idx))) :=
    step_eq_evalAt _ _ (pqTop_single _ 0)
  have h2 : step (scenarioA idx) maxAnalyzer
      (evalAt (scenarioA idx) maxAnalyzer 0 (initState (scenarioA idx))) =
      some (evalAt (scenarioA idx) maxAnalyzer 1
        (evalAt (scenarioA idx) maxAnalyzer 0 (initState (scenarioA idx)))) :=
    step_eq_evalAt _ _ (pqTop_single _ 1)
  have h3 : loop (scenarioA idx) maxAnalyzer (n + 2) (initState (scenarioA idx)) =
      some (evalAt (scenarioA idx) maxAnalyzer 1
        (evalAt (scenarioA idx) maxAnalyzer 0 (initState (scenarioA idx)))) := by
    rw [loop_of_step _ _ _ h1, loop_of_step _ _ _ h2]
    exact loop_of_empty _ _ _ rfl
  simp only [computeFixedPoint, Bool.false_and, Bool.false_eq_true, if_false, h3]
  rfl

/-- C11. Scenario B (diamond): on `start → B2, start → B3, B2 → B4, B3 → B4`
with indices `B2 < B3 < B4` (so also with `start < B2 < B3 < B4`; the index of
`start` plays no part), `processBB(start)` setting `x = 1`,
`processBB(B2)` setting `x = 2`, the other blocks leaving `x` alone,
`merge = max` and `mergeBlank = id`, `computeFixedPoint` returns after four
iterations that evaluate `start, B2, B3, B4` once each, with
`num_evaluations = 4` and `ending_states[B4] = {x: 2}`. -/
theorem scenario_diamond (ndebug : Bool) (idx : CFGBlock → Int) (h12 : idx 1 < idx 2)
    (h23 : idx 2 < idx 3)
    (n : Nat) :
    loop (scenarioB idx) diamondAnalyzer (n + 4) (initState (scenarioB idx)) =
      some diamondS4 ∧
    computeFixedPoint ndebug (scenarioB idx) diamondAnalyzer false (n + 4) =
      Except.ok diamondS4.ending_states ∧
    diamondS4.ending_states.find? 3 = some (singleFact 2) ∧
    (singleFact 2).entries = [(0, 2)] ∧
    diamondS4.num_evaluations = 4 ∧
    evalTrace (scenarioB idx) diamondAnalyzer (n + 4) (initState (scenarioB idx)) =
      [0, 1, 2, 3] := by
  have e1 : evalAt (scenarioB idx) diamondAnalyzer 0 (initState (scenarioB idx)) = diamondS1 :=
    rfl
  have e2 : evalAt (scenarioB idx) diamondAnalyzer 1 diamondS1 = diamondS2 := rfl
  have e3 : evalAt (scenarioB idx) diamondAnalyzer 2 diamondS2 = diamondS3 := rfl
  have e4 : evalAt (scenarioB idx) diamondAnalyzer 3 diamondS3 = diamondS4 := rfl
  have t1 : pqTop (CFGBlockMinIndex (scenarioB idx))
      (initState (scenarioB idx) : FPState Nat).q = some 0 := pqTop_single _ 0
  have t2 : pqTop (CFGBlockMinIndex (scenarioB idx)) diamondS1.q = some 1 :=
    pqTop_pair_left (scenarioB idx) (le_of_lt h12)
  have t3 : pqTop (CFGBlockMinIndex (scenarioB idx)) diamondS2.q = some 2 :=
    pqTop_pair_left (scenarioB idx) (le_of_lt h23)
  have t4 : pqTop (CFGBlockMinIndex (scenarioB idx)) diamondS3.q = some 3 := pqTop_single _ 3
  have hl : loop (scenarioB idx) diamondAnalyzer (n + 4) (initState (scenarioB idx)) =
      some diamondS4 := by
    rw [loop_of_step _ _ _ (step_eq_evalAt _ _ t1), e1,
      loop_of_step _ _ _ (step_eq_evalAt _ _ t2), e2,
      loop_of_step _ _ _ (step_eq_evalAt _ _ t3), e3,
      loop_of_step _ _ _ (step_eq_evalAt _ _ t4), e4]
    exact loop_of_empty _ _ _ rfl
  refine ⟨hl, ?_, rfl, rfl, rfl, ?_⟩
  · simp only [computeFixedPoint, Bool.false_and, Bool.false_eq_true, if_false, hl]
  · rw [evalTrace_of_step _ _ _ t1, e1, evalTrace_of_step _ _ _ t2, e2,
      evalTrace_of_step _ _ _ t3, e3, evalTrace_of_step _ _ _ t4, e4,
      evalTrace_of_empty _ _ _ rfl]

theorem scenario_diamond_witness :
    computeFixedPoint false (scenarioB (fun b => (b : Int))) diamondAnalyzer false 4 =
      Except.ok diamondS4.ending_states ∧
    diamondS4.ending_states.find? 3 = some (singleFact 2) ∧
    diamondS4.num_evaluations = 4 :=
  have h := scenario_diamond false (fun b => (b : Int)) (by decide) (by decide) 0
  ⟨h.2.1, h.2.2.1, h.2.2.2.2.1⟩

/-! ## Invariants of every run, whatever the choice among ties -/

section TieInvariants

variable {T : Type} [DecidableEq T]

theorem evalAt_eq (cfg : CFG) (analyzer : BBAnalyzer T) (block : CFGBlock) (st : FPState T) :
    evalAt cfg analyzer block st =
      { (cfg.successors block).foldl
          (updateSuccessor analyzer (exitMap analyzer block (popAt block st)).2)
          { popAt block st with
            starting_states := (exitMap analyzer block (popAt block st)).1 } with
        ending_states :=
          ((cfg.successors block).foldl
            (updateSuccessor analyzer (exitMap analyzer block (popAt block st)).2)
            { popAt block st with
              starting_states := (exitMap analyzer block (popAt block st)).1
            }).ending_states.set block (exitMap analyzer block (popAt block st)).2 } := rfl

/-- Induction over the runs with a free choice among ties, in the shape of
`reachable_induction`. -/
theorem tie_induction (cfg : CFG) (analyzer : BBAnalyzer T)
    (P : FPState T → Prop) (Q : CFGBlock → Map T → FPState T → Prop)
    (hinit : P (initState cfg))
    (hpop : ∀ st block, TieReachable cfg analyzer st → P st → IsMinPending cfg st block →
      Q block (exitMap analyzer block (popAt block st)).2
        { popAt block st with
          starting_states := (exitMap analyzer block (popAt block st)).1 })
    (hupd : ∀ st block ending s, s ∈ cfg.successors block → Q block ending st →
      Q block ending (updateSuccessor analyzer ending st s))
    (hfin : ∀ st block ending, Q block ending st →
      (∀ s ∈ cfg.successors block, s ∈ st.starting_states.keys) →
      P { st with ending_states := st.ending_states.set block ending })
    {st : FPState T} (hr : TieReachable cfg analyzer st) : P st := by
  induction hr with
  | init => exact hinit
  | @next st0 block hr0 hmin ih =>
    rw [evalAt_eq]
    apply hfin
    · apply foldl_updateSuccessor_inv analyzer _ (Q block _)
      · exact hpop st0 block hr0 ih hmin
      · intro st' s hs' hQ
        exact hupd st' block _ s hs' hQ
    · exact (foldl_updateSuccessor_keys analyzer _ _ _).2

theorem queueInv_popAt {st : FPState T} {block : CFGBlock} (h : QueueInv st)
    (m : AllMap T) : QueueInv { popAt block st with starting_states := m } := by
  constructor
  · show (st.q.erase block).Nodup
    exact h.1.erase block
  · intro b
    show b ∈ setErase st.in_queue block ↔ b ∈ st.q.erase block
    rw [mem_setErase, h.1.mem_erase_iff, h.2 b, and_comm]

theorem tie_queueInv (cfg : CFG) (analyzer : BBAnalyzer T) {st : FPState T}
    (hr : TieReachable cfg analyzer st) : QueueInv st :=
  tie_induction cfg analyzer QueueInv (fun _ _ st => QueueInv st)
    (queueInv_init cfg)
    (fun _ _ _ hP _ => queueInv_popAt hP _)
    (fun _ _ ending s _ hQ => queueInv_update analyzer ending s hQ)
    (fun _ _ _ hQ _ => hQ) hr

theorem allReach_popAt (cfg : CFG) (analyzer : BBAnalyzer T) {st : FPState T}
    {block : CFGBlock} (h : AllReach cfg st) (hb : block ∈ st.q) :
    GraphReach cfg block ∧
    AllReach cfg { popAt block st with
      starting_states := (exitMap analyzer block (popAt block st)).1 } := by
  have hbr : GraphReach cfg block := h block (Or.inr (Or.inr (Or.inr hb)))
  refine ⟨hbr, ?_⟩
  intro b hmem
  rcases hmem with h1 | h1 | h1 | h1
  · have h2 : b ∈ (st.starting_states.getOrInsert block DenseMap.empty).1.keys := h1
    rw [mem_keys_getOrInsert] at h2
    rcases h2 with h2 | h2
    · rw [h2]; exact hbr
    · exact h b (Or.inl h2)
  · exact h b (Or.inr (Or.inl h1))
  · have h2 : b ∈ setErase st.in_queue block := h1
    rw [mem_setErase] at h2
    exact h b (Or.inr (Or.inr (Or.inl h2.1)))
  · have h2 : b ∈ st.q.erase block := h1
    exact h b (Or.inr (Or.inr (Or.inr (List.mem_of_mem_erase h2))))

theorem tie_allReach (cfg : CFG) (analyzer : BBAnalyzer T) {st : FPState T}
    (hr : TieReachable cfg analyzer st) : AllReach cfg st :=
  tie_induction cfg analyzer (AllReach cfg)
    (fun block _ st => GraphReach cfg block ∧ AllReach cfg st)
    (allReach_init cfg)
    (fun _ _ _ hP hmin => allReach_popAt cfg analyzer hP hmin.1)
    (fun _ _ ending _ hs hQ => allReach_update cfg analyzer ending hs hQ)
    (fun _ _ ending hQ _ => allReach_finish cfg ending hQ) hr

theorem covers_popAt (cfg : CFG) (analyzer : BBAnalyzer T) {st : FPState T}
    {block : CFGBlock} (h : Covers cfg st) :
    CoversMid cfg block { popAt block st with
      starting_states := (exitMap analyzer block (popAt block st)).1 } := by
  have hk : ∀ b, b ∈ (exitMap analyzer block (popAt block st)).1.keys ↔
      b = block ∨ b ∈ st.starting_states.keys := fun b => mem_keys_getOrInsert _ _ _ _
  refine ⟨(hk _).2 (Or.inr h.1), ?_, ?_⟩
  · intro b hb
    rcases (hk b).1 hb with h1 | h1
    · exact Or.inl h1
    · by_cases hbb : b = block
      · exact Or.inl hbb
      · rcases h.2.1 b h1 with h2 | h2
        · exact Or.inr (Or.inl ((mem_setErase _ _ _).2 ⟨h2, hbb⟩))
        · exact Or.inr (Or.inr h2)
  · intro b hb s hs
    exact (hk s).2 (Or.inr (h.2.2 b hb s hs))

theorem tie_covers (cfg : CFG) (analyzer : BBAnalyzer T) {st : FPState T}
    (hr : TieReachable cfg analyzer st) : Covers cfg st :=
  tie_induction cfg analyzer (Covers cfg) (fun block _ st => CoversMid cfg block st)
    (covers_init cfg)
    (fun _ _ _ hP _ => covers_popAt cfg analyzer hP)
    (fun _ _ ending s _ hQ => covers_update cfg analyzer ending s hQ)
    (fun _ _ ending hQ hs => covers_finish cfg ending hQ hs) hr

/-- When the queue is empty every reachable block has been evaluated. -/
theorem tie_covers_final (cfg : CFG) (analyzer : BBAnalyzer T) {st : FPState T}
    (hr : TieReachable cfg analyzer st) (hq : st.q = []) (b : CFGBlock)
    (hb : GraphReach cfg b) : b ∈ st.ending_states.keys := by
  have hc := tie_covers cfg analyzer hr
  have hi := tie_queueInv cfg analyzer hr
  have hse : ∀ x, x ∈ st.starting_states.keys → x ∈ st.ending_states.keys := by
    intro x hx
    rcases hc.2.1 x hx with h1 | h1
    · have := (hi.2 x).1 h1
      rw [hq] at this
      exact absurd this (List.not_mem_nil x)
    · exact h1
  induction hb with
  | refl => exact hse _ hc.1
  | tail _ hedge ih => exact hse _ (hc.2.2 _ ih _ hedge)

theorem tie_queuedHaveStart (cfg : CFG) (analyzer : BBAnalyzer T) {st : FPState T}
    (hr : TieReachable cfg analyzer st) : QueuedHaveStart st := by
  refine tie_induction cfg analyzer QueuedHaveStart (fun _ _ st => QueuedHaveStart st)
    ?_ ?_ ?_ ?_ hr
  · intro b hb
    have : b = cfg.startingBlock := by simpa [initState, pqPush] using hb
    rw [this, initState, DenseMap.mem_keys_set]
    exact Or.inl rfl
  · intro st block _ hP _ b hb
    have hb' : b ∈ st.q.erase block := hb
    exact (mem_keys_getOrInsert _ _ _ _).2 (Or.inr (hP b (List.mem_of_mem_erase hb')))
  · intro st block ending s _ hQ b hb
    rw [updateSuccessor_keys]
    rw [updateSuccessor_q_mem] at hb
    rcases hb with hb | hb
    · exact Or.inr (hQ b hb)
    · exact Or.inl hb.1
  · intro st block ending hQ _
    exact hQ

theorem fresh_popAt (analyzer : BBAnalyzer T) {st : FPState T} (block : CFGBlock)
    (h : Fresh analyzer st) :
    FreshMid analyzer block (exitMap analyzer block (popAt block st)).2
      { popAt block st with
        starting_states := (exitMap analyzer block (popAt block st)).1 } := by
  have hfind : ∀ x m, st.starting_states.find? x = some m →
      (exitMap analyzer block (popAt block st)).1.find? x = some m := by
    intro x m hx
    show (st.starting_states.getOrInsert block DenseMap.empty).1.find? x = some m
    rw [DenseMap.getOrInsert_find?]
    by_cases hxb : x = block
    · subst hxb
      rw [if_pos rfl, DenseMap.getOrInsert_snd, hx]
      rfl
    · rw [if_neg hxb, hx]
  constructor
  · intro b e hb he hq
    have hq' : b ∉ st.in_queue := fun hmem => hq ((mem_setErase _ _ _).2 ⟨hmem, hb⟩)
    obtain ⟨m, hm1, hm2⟩ := h b e he hq'
    exact ⟨m, hfind b m hm1, hm2⟩
  · intro _
    refine ⟨(st.starting_states.getOrInsert block DenseMap.empty).2, ?_, rfl⟩
    show (st.starting_states.getOrInsert block DenseMap.empty).1.find? block = _
    rw [DenseMap.getOrInsert_find?, if_pos rfl]

theorem fresh_update (analyzer : BBAnalyzer T) {st : FPState T} {block : CFGBlock}
    {ending : Map T} (s : CFGBlock) (h : FreshMid analyzer block ending st) :
    FreshMid analyzer block ending (updateSuccessor analyzer ending st s) := by
  have hq_old : ∀ b, b ∉ (updateSuccessor analyzer ending st s).in_queue → b ∉ st.in_queue :=
    fun b hq hmem => hq ((updateSuccessor_in_queue_mem analyzer ending st s b).2 (Or.inl hmem))
  constructor
  · intro b e hb he hq
    obtain ⟨m, hm1, hm2⟩ := h.1 b e hb he (hq_old b hq)
    exact ⟨m, updateSuccessor_find?_of_not_queued analyzer ending st s b hm1 hq, hm2⟩
  · intro hq
    obtain ⟨m, hm1, hm2⟩ := h.2 (hq_old block hq)
    exact ⟨m, updateSuccessor_find?_of_not_queued analyzer ending st s block hm1 hq, hm2⟩

theorem fresh_finish (analyzer : BBAnalyzer T) {st : FPState T} {block : CFGBlock}
    {ending : Map T} (h : FreshMid analyzer block ending st) :
    Fresh analyzer { st with ending_states := st.ending_states.set block ending } := by
  intro b e he hq
  have he' : (st.ending_states.set block ending).find? b = some e := he
  rw [DenseMap.find?_set] at he'
  by_cases hb : b = block
  · subst hb
    rw [if_pos rfl] at he'
    simp only [Option.some.injEq] at he'
    subst he'
    exact h.2 hq
  · rw [if_neg hb] at he'
    exact h.1 b e hb he' hq

theorem tie_fresh (cfg : CFG) (analyzer : BBAnalyzer T) {st : FPState T}
    (hr : TieReachable cfg analyzer st) : Fresh analyzer st :=
  tie_induction cfg analyzer (Fresh analyzer) (fun block ending st => FreshMid analyzer block ending st)
    (fun b e he => by simp [initState, DenseMap.find?_empty] at he)
    (fun _ block _ hP _ => fresh_popAt analyzer block hP)
    (fun _ _ _ s _ hQ => fresh_update analyzer s hQ)
    (fun _ _ _ hQ _ => fresh_finish analyzer hQ) hr

end TieInvariants

/-! ## Relations kept along the edges -/

section EdgeRelations

variable {T : Type} [DecidableEq T]

theorem succRel_update (analyzer : BBAnalyzer T) (R : Map T → Map T → Prop)
    (hfirst : ∀ e, R e e)
    (hlater : ∀ e m, R e (mergeEdge analyzer e false false m).next)
    (ending : Map T) (st : FPState T) (s : CFGBlock) :
    SuccRel R ending s (updateSuccessor analyzer ending st s) := by
  refine ⟨_, by rw [updateSuccessor_starting, if_pos rfl], ?_⟩
  cases hs : st.starting_states.find? s with
  | none =>
    rw [successorEdge_of_none analyzer ending st s hs, mergeEdge_initial]
    exact hfirst ending
  | some m =>
    rw [successorEdge_of_some analyzer ending st s hs]
    exact hlater ending m

theorem succRel_preserved (analyzer : BBAnalyzer T) (R : Map T → Map T → Prop)
    (hpres : ∀ e other m, R e m → R e (mergeEdge analyzer other false false m).next)
    (ending other : Map T) (st : FPState T) (s s' : CFGBlock)
    (h : SuccRel R ending s st) :
    SuccRel R ending s (updateSuccessor analyzer other st s') := by
  obtain ⟨m, hm, ha⟩ := h
  by_cases hss : s = s'
  · subst hss
    refine ⟨_, by rw [updateSuccessor_starting, if_pos rfl], ?_⟩
    rw [successorEdge_of_some analyzer other st s hm]
    exact hpres ending other m ha
  · exact ⟨m, by rw [updateSuccessor_starting, if_neg hss]; exact hm, ha⟩

theorem foldl_succRel (analyzer : BBAnalyzer T) (R : Map T → Map T → Prop)
    (hfirst : ∀ e, R e e)
    (hlater : ∀ e m, R e (mergeEdge analyzer e false false m).next)
    (hpres : ∀ e other m, R e m → R e (mergeEdge analyzer other false false m).next)
    (ending : Map T) (l : List CFGBlock) (st : FPState T) :
    ∀ s ∈ l, SuccRel R ending s (l.foldl (updateSuccessor analyzer ending) st) := by
  induction l generalizing st with
  | nil => intro s hs; exact absurd hs (List.not_mem_nil s)
  | cons x t ih =>
    intro s hs
    rw [List.foldl_cons]
    by_cases hst : s ∈ t
    · exact ih _ s hst
    · have hsx : s = x := (List.mem_cons.1 hs).resolve_right hst
      subst hsx
      exact foldl_updateSuccessor_inv analyzer ending (SuccRel R ending s) t _
        (succRel_update analyzer R hfirst hlater ending st s)
        (fun st' s' _ h => succRel_preserved analyzer R hpres ending ending st' s s' h)

theorem edgeRel_evalAt (cfg : CFG) (analyzer : BBAnalyzer T) (R : Map T → Map T → Prop)
    (hfirst : ∀ e, R e e)
    (hlater : ∀ e m, R e (mergeEdge analyzer e false false m).next)
    (hpres : ∀ e other m, R e m → R e (mergeEdge analyzer other false false m).next)
    (block : CFGBlock) {st : FPState T} (h : EdgeRel cfg R st) :
    EdgeRel cfg R (evalAt cfg analyzer block st) := by
  rw [evalAt_eq]
  intro b e he s hs
  have he' : (((cfg.successors block).foldl
      (updateSuccessor analyzer (exitMap analyzer block (popAt block st)).2)
      { popAt block st with
        starting_states := (exitMap analyzer block (popAt block st)).1
      }).ending_states.set block (exitMap analyzer block (popAt block st)).2).find? b =
      some e := he
  rw [foldl_updateSuccessor_ending, DenseMap.find?_set] at he'
  show SuccRel R e s ((cfg.successors block).foldl
    (updateSuccessor analyzer (exitMap analyzer block (popAt block st)).2)
    { popAt block st with starting_states := (exitMap analyzer block (popAt block st)).1 })
  by_cases hb : b = block
  · subst hb
    rw [if_pos rfl] at he'
    simp only [Option.some.injEq] at he'
    rw [← he']
    exact foldl_succRel analyzer R hfirst hlater hpres _ _ _ s hs
  · rw [if_neg hb] at he'
    obtain ⟨m, hm, hr⟩ := h b e he' s hs
    apply foldl_updateSuccessor_inv analyzer _ (SuccRel R e s)
    · refine ⟨m, ?_, hr⟩
      show (st.starting_states.getOrInsert block DenseMap.empty).1.find? s = some m
      rw [DenseMap.getOrInsert_find?]
      by_cases hsb : s = block
      · subst hsb
        rw [if_pos rfl, DenseMap.getOrInsert_snd, hm]
        rfl
      · rw [if_neg hsb, hm]
    · intro st' s' _ hrel
      exact succRel_preserved analyzer R hpres e _ st' s s' hrel

/-- A relation between maps that holds between a map and itself, that an
update establishes between the exit map and the updated map, and that no
update of the second map breaks, holds along every edge out of every
evaluated block, at every loop head. -/
theorem tie_edgeRel (cfg : CFG) (analyzer : BBAnalyzer T) (R : Map T → Map T → Prop)
    (hfirst : ∀ e, R e e)
    (hlater : ∀ e m, R e (mergeEdge analyzer e false false m).next)
    (hpres : ∀ e other m, R e m → R e (mergeEdge analyzer other false false m).next)
    {st : FPState T} (hr : TieReachable cfg analyzer st) : EdgeRel cfg R st := by
  induction hr with
  | init =>
    intro b e he
    simp [initState, DenseMap.find?_empty] at he
  | next _ _ ih => exact edgeRel_evalAt cfg analyzer R hfirst hlater hpres _ ih

theorem keysSubset_later (analyzer : BBAnalyzer T) (e m : Map T) :
    KeysSubset e (mergeEdge analyzer e false false m).next :=
  fun k hk => (mergeEdge_keys analyzer e false false m k).2 (Or.inr hk)

theorem keysSubset_grow (analyzer : BBAnalyzer T) (other m : Map T) :
    KeysSubset m (mergeEdge analyzer other false false m).next :=
  fun k hk => (mergeEdge_keys analyzer other false false m k).2 (Or.inl hk)

theorem tie_edgeKeys (cfg : CFG) (analyzer : BBAnalyzer T) {st : FPState T}
    (hr : TieReachable cfg analyzer st) : EdgeRel cfg KeysSubset st :=
  tie_edgeRel cfg analyzer KeysSubset (fun _ _ hk => hk)
    (fun e m => keysSubset_later analyzer e m)
    (fun _ other m h k hk => keysSubset_grow analyzer other m k (h k hk)) hr

theorem mapLe_later (analyzer : BBAnalyzer T) (le : T → T → Prop)
    (hsrc : ∀ a b, le a (analyzer.merge a b)) (hblank : ∀ a, le a (analyzer.mergeBlank a))
    (e m : Map T) : MapLe le e (mergeEdge analyzer e false false m).next := by
  intro k v hv
  rw [mergeEdge_find?, hv]
  cases hm : m.find? k with
  | none => exact ⟨_, rfl, hblank v⟩
  | some w => exact ⟨_, rfl, hsrc v w⟩

theorem mapLe_grow (analyzer : BBAnalyzer T) (le : T → T → Prop)
    (htrans : ∀ a b c, le a b → le b c → le a c)
    (hinto : ∀ a b, le b (analyzer.merge a b)) (hblank : ∀ a, le a (analyzer.mergeBlank a))
    (e other m : Map T) (h : MapLe le e m) :
    MapLe le e (mergeEdge analyzer other false false m).next := by
  intro k v hv
  obtain ⟨w, hw, hvw⟩ := h k v hv
  rw [mergeEdge_find?, hw]
  cases ho : other.find? k with
  | none => exact ⟨_, rfl, htrans _ _ _ hvw (hblank w)⟩
  | some o => exact ⟨_, rfl, htrans _ _ _ hvw (hinto o w)⟩

theorem tie_edgeLe (cfg : CFG) (analyzer : BBAnalyzer T) (le : T → T → Prop)
    (hrefl : ∀ a, le a a) (htrans : ∀ a b c, le a b → le b c → le a c)
    (hsrc : ∀ a b, le a (analyzer.merge a b)) (hinto : ∀ a b, le b (analyzer.merge a b))
    (hblank : ∀ a, le a (analyzer.mergeBlank a))
    {st : FPState T} (hr : TieReachable cfg analyzer st) : EdgeRel cfg (MapLe le) st :=
  tie_edgeRel cfg analyzer (MapLe le) (fun _ _ v hv => ⟨v, hv, hrefl v⟩)
    (fun e m => mapLe_later analyzer le hsrc hblank e m)
    (fun e other m h => mapLe_grow analyzer le htrans hinto hblank e other m h) hr

theorem foldl_updateSuccessor_frame (analyzer : BBAnalyzer T) (ending : Map T)
    (l : List CFGBlock) (st : FPState T) (c : CFGBlock) (hc : c ∉ l) :
    (l.foldl (updateSuccessor analyzer ending) st).starting_states.find? c =
      st.starting_states.find? c := by
  induction l generalizing st with
  | nil => rfl
  | cons x t ih =>
    rw [List.mem_cons, not_or] at hc
    rw [List.foldl_cons, ih _ hc.2, updateSuccessor_starting, if_neg hc.1]

theorem foldl_updateSuccessor_keeps_keys (analyzer : BBAnalyzer T) (ending : Map T)
    (l : List CFGBlock) (st : FPState T) (c : CFGBlock) (m : Map T)
    (hm : st.starting_states.find? c = some m) :
    ∃ m1, (l.foldl (updateSuccessor analyzer ending) st).starting_states.find? c = some m1 ∧
      KeysSubset m m1 := by
  apply foldl_updateSuccessor_inv analyzer ending
    (fun x => ∃ m1, x.starting_states.find? c = some m1 ∧ KeysSubset m m1)
  · exact ⟨m, hm, fun _ hk => hk⟩
  · rintro st' s _ ⟨m1, h1, h2⟩
    by_cases hcs : c = s
    · subst hcs
      refine ⟨_, by rw [updateSuccessor_starting, if_pos rfl], ?_⟩
      rw [successorEdge_of_some analyzer ending st' c h1]
      exact fun k hk => keysSubset_grow analyzer ending m1 k (h2 k hk)
    · exact ⟨m1, by rw [updateSuccessor_starting, if_neg hcs]; exact h1, h2⟩

theorem evalAt_keeps_keys (cfg : CFG) (analyzer : BBAnalyzer T) (block : CFGBlock)
    (st : FPState T) (c : CFGBlock) (m : Map T) (hm : st.starting_states.find? c = some m) :
    ∃ m1, (evalAt cfg analyzer block st).starting_states.find? c = some m1 ∧
      KeysSubset m m1 := by
  rw [evalAt_eq]
  apply foldl_updateSuccessor_keeps_keys
  show (st.starting_states.getOrInsert block DenseMap.empty).1.find? c = some m
  rw [DenseMap.getOrInsert_find?]
  by_cases hcb : c = block
  · subst hcb
    rw [if_pos rfl, DenseMap.getOrInsert_snd, hm]
    rfl
  · rw [if_neg hcb, hm]

end EdgeRelations

/-! ## Frame, freshness of the exit maps, and soundness along the edges -/

section RunClaims

variable {T : Type} [DecidableEq T]

/-- C17. Frame of one evaluation: an iteration that starts at a loop head and
evaluates `block` writes `ending_states` only at `block` (where it stores
the transfer of the entry map `block` had), and leaves `starting_states`
as it was at every block that is not a successor of `block`; the transfer
function works on a copy, so right after it `starting_states` is what it
was, and the entry of `block` itself is untouched unless `block` is one of
its own successors. -/
theorem evaluation_frame (cfg : CFG) (analyzer : BBAnalyzer T) (st st1 : FPState T)
    (hr : Reachable cfg analyzer st) (hs : step cfg analyzer st = some st1) :
    ∃ block m, pqTop (CFGBlockMinIndex cfg) st.q = some block ∧
      st.starting_states.find? block = some m ∧
      st1.ending_states.find? block = some (analyzer.processBB m block) ∧
      (∀ c, c ≠ block → st1.ending_states.find? c = st.ending_states.find? c) ∧
      (∀ c, c ∉ cfg.successors block →
        st1.starting_states.find? c = st.starting_states.find? c) ∧
      (block ∉ cfg.successors block → st1.starting_states.find? block = some m) ∧
      (∀ st0, midState cfg analyzer st 0 = some st0 →
        st0.starting_states = st.starting_states) := by
  obtain ⟨block, ht, rfl⟩ := step_some_iff cfg analyzer hs
  have hq := tie_queuedHaveStart cfg analyzer (tieReachable_of_reachable cfg analyzer hr)
    block (pqTop_mem _ ht)
  obtain ⟨m, hm⟩ : ∃ m, st.starting_states.find? block = some m := by
    have := (DenseMap.mem_keys_iff _ _).1 hq
    cases hf : st.starting_states.find? block with
    | none => rw [hf] at this; exact Bool.noConfusion this
    | some m => exact ⟨m, rfl⟩
  have hx : exitMap analyzer block (popAt block st) =
      (st.starting_states, analyzer.processBB m block) := by
    unfold exitMap
    have : (popAt block st).starting_states = st.starting_states := rfl
    simp only [this, DenseMap.getOrInsert_of_find? _ hm]
  have hframe : ∀ c, c ∉ cfg.successors block →
      (evalAt cfg analyzer block st).starting_states.find? c =
        st.starting_states.find? c := by
    intro c hc
    rw [evalAt_eq]
    refine (foldl_updateSuccessor_frame analyzer _ (cfg.successors block) _ c hc).trans ?_
    show (exitMap analyzer block (popAt block st)).1.find? c = _
    rw [hx]
  refine ⟨block, m, ht, hm, ?_, ?_, hframe, ?_, ?_⟩
  · rw [evalAt, processBlock_ending, DenseMap.find?_set_self, hx]
  · intro c hc
    rw [evalAt, processBlock_ending, DenseMap.find?_set_ne _ _ hc]
    rfl
  · intro hself
    rw [hframe block hself, hm]
  · intro st0 h0
    simp only [midState, ht, List.take_zero, List.foldl_nil, Option.some.injEq] at h0
    rw [← h0, popBlock_eq_popAt cfg ht, hx]

theorem evaluation_frame_witness :
    ∃ block m, pqTop (CFGBlockMinIndex linearCfg) (initState linearCfg : FPState Nat).q =
        some block ∧
      (initState linearCfg : FPState Nat).starting_states.find? block = some m ∧
      linearMid.ending_states.find? block = some (maxAnalyzer.processBB m block) ∧
      (block ∉ linearCfg.successors block → linearMid.starting_states.find? block = some m) :=
  have ⟨block, m, h⟩ := evaluation_frame linearCfg maxAnalyzer (initState linearCfg) linearMid
    Reachable.init rfl
  ⟨block, m, h.1, h.2.1, h.2.2.1, h.2.2.2.2.2.1⟩

/-- C18. The output is consistent with the final entry facts: at the start of
every loop iteration, a block that has an entry in `ending_states` and is
not pending has there the transfer of its current entry map; hence, when
the loop has ended and `computeFixedPoint` returns the table, every entry
of the table is the transfer of the block's final entry map. -/
theorem exit_map_is_transfer (ndebug : Bool) (cfg : CFG) (analyzer : BBAnalyzer T)
    (st : FPState T)
    (hr : Reachable cfg analyzer st) :
    (∀ b e, st.ending_states.find? b = some e → b ∉ st.q →
      ∃ m, st.starting_states.find? b = some m ∧ e = analyzer.processBB m b) ∧
    (st.q = [] → ∀ b e, st.ending_states.find? b = some e →
      ∃ m, st.starting_states.find? b = some m ∧ e = analyzer.processBB m b) ∧
    (∀ fuel final, loop cfg analyzer fuel (initState cfg) = some final →
      computeFixedPoint ndebug cfg analyzer false fuel = Except.ok final.ending_states ∧
      ∀ b e, final.ending_states.find? b = some e →
        ∃ m, final.starting_states.find? b = some m ∧ e = analyzer.processBB m b) := by
  have key : ∀ s : FPState T, Reachable cfg analyzer s → ∀ b e,
      s.ending_states.find? b = some e → b ∉ s.q →
      ∃ m, s.starting_states.find? b = some m ∧ e = analyzer.processBB m b := by
    intro s hs b e he hq
    have ht := tieReachable_of_reachable cfg analyzer hs
    have hiq : b ∉ s.in_queue := fun hmem => hq (((tie_queueInv cfg analyzer ht).2 b).1 hmem)
    obtain ⟨m, hm1, hm2⟩ := tie_fresh cfg analyzer ht b e he hiq
    exact ⟨m, hm1, hm2.symm⟩
  refine ⟨key st hr, ?_, ?_⟩
  · intro hq b e he
    exact key st hr b e he (by rw [hq]; exact List.not_mem_nil b)
  · intro fuel final hl
    obtain ⟨hrf, hqf⟩ := loop_reachable cfg analyzer fuel Reachable.init hl
    refine ⟨by simp [computeFixedPoint, hl], ?_⟩
    intro b e he
    exact key final hrf b e he (by rw [hqf]; exact List.not_mem_nil b)

theorem exit_map_is_transfer_witness :
    ∃ m, linearMid.starting_states.find? 0 = some m ∧
      singleFact 5 = maxAnalyzer.processBB m 0 :=
  (exit_map_is_transfer false linearCfg maxAnalyzer linearMid linearMid_reachable).1 0
    (singleFact 5) (by decide) (by decide)

/-- C19. No fact key is dropped: a successor update and a whole iteration keep
every key of every map of `starting_states`, for every analyzer; and when
the loop has ended, for every block of the returned table and every
successor of it, every key of the block's exit map is a key of the
successor's entry map. -/
theorem keys_never_dropped (ndebug : Bool) (cfg : CFG) (analyzer : BBAnalyzer T) :
    (∀ (ending : Map T) (st : FPState T) (s c : CFGBlock) (m : Map T),
      st.starting_states.find? c = some m →
      ∃ m1, (updateSuccessor analyzer ending st s).starting_states.find? c = some m1 ∧
        ∀ k, k ∈ m.keys → k ∈ m1.keys) ∧
    (∀ (st st1 : FPState T) (c : CFGBlock) (m : Map T), step cfg analyzer st = some st1 →
      st.starting_states.find? c = some m →
      ∃ m1, st1.starting_states.find? c = some m1 ∧ ∀ k, k ∈ m.keys → k ∈ m1.keys) ∧
    (∀ fuel final, loop cfg analyzer fuel (initState cfg) = some final →
      computeFixedPoint ndebug cfg analyzer false fuel = Except.ok final.ending_states ∧
      ∀ b e, final.ending_states.find? b = some e → ∀ s ∈ cfg.successors b,
        ∃ ms, final.starting_states.find? s = some ms ∧ ∀ k, k ∈ e.keys → k ∈ ms.keys) := by
  refine ⟨?_, ?_, ?_⟩
  · intro ending st s c m hm
    exact foldl_updateSuccessor_keeps_keys analyzer ending [s] st c m hm
  · intro st st1 c m hs hm
    obtain ⟨block, _, rfl⟩ := step_some_iff cfg analyzer hs
    exact evalAt_keeps_keys cfg analyzer block st c m hm
  · intro fuel final hl
    obtain ⟨hrf, _⟩ := loop_reachable cfg analyzer fuel Reachable.init hl
    refine ⟨by simp [computeFixedPoint, hl], ?_⟩
    intro b e he s hs
    exact tie_edgeKeys cfg analyzer (tieReachable_of_reachable cfg analyzer hrf) b e he s hs

theorem keys_never_dropped_witness :
    loop linearCfg maxAnalyzer 2 (initState linearCfg) = some linearFinal ∧
    ∃ ms, linearFinal.starting_states.find? 1 = some ms ∧
      ∀ k, k ∈ (singleFact 5).keys → k ∈ ms.keys :=
  ⟨rfl, ((keys_never_dropped false linearCfg maxAnalyzer).2.2 2 linearFinal rfl).2 0
    (singleFact 5) (by decide) 1 (by decide)⟩

/-- C20. Edge soundness under an inflationary analyzer: if `le` is reflexive
and transitive (as a partial order is), `a ≤ merge(a, b)`, `b ≤ merge(a, b)`
and `a ≤ mergeBlank(a)`, then when the loop has ended, for every block `b`
of the returned table, every successor `s` of `b` and every key `k` of
`ending_states[b]`, the entry map of `s` has `k` with a value that
`ending_states[b][k]` is below. -/
theorem edge_soundness (ndebug : Bool) (cfg : CFG) (analyzer : BBAnalyzer T)
    (le : T → T → Prop)
    (hrefl : ∀ a, le a a) (htrans : ∀ a b c, le a b → le b c → le a c)
    (hsrc : ∀ a b, le a (analyzer.merge a b)) (hinto : ∀ a b, le b (analyzer.merge a b))
    (hblank : ∀ a, le a (analyzer.mergeBlank a))
    (fuel : Nat) (final : FPState T)
    (hl : loop cfg analyzer fuel (initState cfg) = some final) :
    computeFixedPoint ndebug cfg analyzer false fuel = Except.ok final.ending_states ∧
    ∀ b e, final.ending_states.find? b = some e → ∀ s ∈ cfg.successors b,
      ∃ ms, final.starting_states.find? s = some ms ∧
        ∀ k v, e.find? k = some v → ∃ w, ms.find? k = some w ∧ le v w := by
  obtain ⟨hrf, _⟩ := loop_reachable cfg analyzer fuel Reachable.init hl
  refine ⟨by simp [computeFixedPoint, hl], ?_⟩
  intro b e he s hs
  exact tie_edgeLe cfg analyzer le hrefl htrans hsrc hinto hblank
    (tieReachable_of_reachable cfg analyzer hrf) b e he s hs

theorem edge_soundness_witness :
    loop linearCfg maxAnalyzer 2 (initState linearCfg) = some linearFinal ∧
    ∃ ms, linearFinal.starting_states.find? 1 = some ms ∧
      ∀ k v, (singleFact 5).find? k = some v → ∃ w, ms.find? k = some w ∧ v ≤ w :=
  ⟨rfl,
    (edge_soundness false linearCfg maxAnalyzer (fun a b => a ≤ b) Nat.le_refl
      (fun _ _ _ => Nat.le_trans) (fun a b => Nat.le_max_left a b)
      (fun a b => Nat.le_max_right a b) (fun a => Nat.le_refl a) 2 linearFinal rfl).2 0
      (singleFact 5) (by decide) 1 (by decide)⟩

end RunClaims

/-! ## Scenario D -/

section ScenarioD

variable {T : Type} [DecidableEq T]

theorem oneFact_find? (v : T) (k : InternedString) :
    (oneFact v).find? k = if k = 0 then some v else none := by
  rw [oneFact, DenseMap.find?_set, DenseMap.find?_empty]

theorem evalAt_two (cfg : CFG) (analyzer : BBAnalyzer T) (block s1 s2 : CFGBlock)
    (st u1 u2 : FPState T) (ss : AllMap T) (ending : Map T)
    (hsucc : cfg.successors block = [s1, s2])
    (hx : exitMap analyzer block (popAt block st) = (ss, ending))
    (h1 : updateSuccessor analyzer ending { popAt block st with starting_states := ss } s1 = u1)
    (h2 : updateSuccessor analyzer ending u1 s2 = u2) :
    evalAt cfg analyzer block st =
      { u2 with ending_states := u2.ending_states.set block ending } := by
  rw [evalAt_eq, hsucc, hx]
  simp only [List.foldl_cons, List.foldl_nil, h1, h2]

theorem widen_step2 (merge : T → T → T) (mergeBlank : T → T) (v : T) (idx : CFGBlock → Int) :
    evalAt (scenarioD idx) (loopAnalyzer merge mergeBlank v) 1 widenS1 = widenS2 := by
  have h := evalAt_two (scenarioD idx) (loopAnalyzer merge mergeBlank v) 1 2 3
    widenS1
    { starting_states := (widenS1 : FPState T).starting_states.set 2 DenseMap.empty
      ending_states := (widenS1 : FPState T).ending_states
      in_queue := [2]
      q := [2]
      num_evaluations := 2 }
    { starting_states := (widenS2 : FPState T).starting_states
      ending_states := (widenS1 : FPState T).ending_states
      in_queue := [3, 2]
      q := [2, 3]
      num_evaluations := 2 }
    (widenS1 : FPState T).starting_states DenseMap.empty rfl rfl rfl rfl
  rw [h]
  rfl

theorem widen_step4 (merge : T → T → T) (mergeBlank : T → T) (v : T) (idx : CFGBlock → Int) :
    evalAt (scenarioD idx) (loopAnalyzer merge mergeBlank v) 1 (widenS3 mergeBlank v) =
      widenS4 mergeBlank v := by
  have h := evalAt_two (scenarioD idx) (loopAnalyzer merge mergeBlank v) 1 2 3
    (widenS3 mergeBlank v)
    { starting_states :=
        (widenS3 mergeBlank v).starting_states.set 2 (oneFact (mergeBlank (mergeBlank v)))
      ending_states := (widenS3 mergeBlank v).ending_states
      in_queue := [2, 3]
      q := [3, 2]
      num_evaluations := 4 }
    { starting_states := (widenS4 mergeBlank v).starting_states
      ending_states := (widenS3 mergeBlank v).ending_states
      in_queue := [2, 3]
      q := [3, 2]
      num_evaluations := 4 }
    (widenS3 mergeBlank v).starting_states (oneFact (mergeBlank v)) rfl rfl rfl rfl
  rw [h]
  rfl

theorem widen_step5 (merge : T → T → T) (mergeBlank : T → T) (v : T) (idx : CFGBlock → Int)
    (hm : merge v (mergeBlank v) = mergeBlank v) :
    evalAt (scenarioD idx) (loopAnalyzer merge mergeBlank v) 2 (widenS4 mergeBlank v) =
      widenS5 mergeBlank v := by
  have habs : Absorbed (loopAnalyzer merge mergeBlank v) (oneFact v)
      (oneFact (mergeBlank v)) := by
    constructor
    · intro k e he
      rw [oneFact_find?] at he
      by_cases hk : k = 0
      · rw [if_pos hk] at he
        simp only [Option.some.injEq] at he
        refine ⟨mergeBlank v, by rw [oneFact_find?, if_pos hk], ?_⟩
        rw [← he]
        exact hm
      · rw [if_neg hk] at he
        exact Option.noConfusion he
    · intro k w he hw
      rw [oneFact_find?] at he hw
      by_cases hk : k = 0
      · rw [if_pos hk] at he
        exact Option.noConfusion he
      · rw [if_neg hk] at hw
        exact Option.noConfusion hw
  have hstart : ({ popAt 2 (widenS4 mergeBlank v) with
      starting_states := (widenS4 mergeBlank v).starting_states } :
      FPState T).starting_states.find? 1 = some (oneFact (mergeBlank v)) := rfl
  have hc : (successorEdge (loopAnalyzer merge mergeBlank v) (oneFact v)
      { popAt 2 (widenS4 mergeBlank v) with
        starting_states := (widenS4 mergeBlank v).starting_states } 1).changed = false := by
    rw [successorEdge_of_some _ _ _ 1 hstart]
    exact (absorbed_unchanged _ habs).2
  have hu := updateSuccessor_eq_self (loopAnalyzer merge mergeBlank v) (oneFact v)
    { popAt 2 (widenS4 mergeBlank v) with
      starting_states := (widenS4 mergeBlank v).starting_states } 1 hstart hc
  have he : evalAt (scenarioD idx) (loopAnalyzer merge mergeBlank v) 2 (widenS4 mergeBlank v) =
      { updateSuccessor (loopAnalyzer merge mergeBlank v) (oneFact v)
          { popAt 2 (widenS4 mergeBlank v) with
            starting_states := (widenS4 mergeBlank v).starting_states } 1 with
        ending_states := (updateSuccessor (loopAnalyzer merge mergeBlank v) (oneFact v)
          { popAt 2 (widenS4 mergeBlank v) with
            starting_states := (widenS4 mergeBlank v).starting_states }
          1).ending_states.set 2 (oneFact v) } := rfl
  rw [he, hu]
  rfl

/-- C12. Scenario D (widen-on-exit): on the loop `S → H, H → B, H → E, B → H`
with `H < E` and `B < E` in index (as when `S < H < B < E`), where only
`processBB(B)` sets `y := v` and `merge(v, mergeBlank(v)) = mergeBlank(v)`,
`computeFixedPoint` returns after six iterations, and `ending_states[E]` is
`{y: mergeBlank(mergeBlank(v))}`: the value the block after the loop has
for `y` comes out of `mergeBlank`, and it is not the loop-interior value `v`
whenever `mergeBlank(mergeBlank(v)) ≠ v`. -/
theorem scenario_widen_on_exit (ndebug : Bool) (merge : T → T → T) (mergeBlank : T → T)
    (v : T)
    (idx : CFGBlock → Int) (h13 : idx 1 < idx 3) (h23 : idx 2 < idx 3)
    (hm : merge v (mergeBlank v) = mergeBlank v) (n : Nat) :
    loop (scenarioD idx) (loopAnalyzer merge mergeBlank v) (n + 6) (initState (scenarioD idx)) =
      some (widenS6 mergeBlank v) ∧
    computeFixedPoint ndebug (scenarioD idx) (loopAnalyzer merge mergeBlank v) false (n + 6) =
      Except.ok (widenS6 mergeBlank v).ending_states ∧
    (widenS6 mergeBlank v).ending_states.find? 3 =
      some (oneFact (mergeBlank (mergeBlank v))) ∧
    (oneFact (mergeBlank (mergeBlank v))).find? 0 = some (mergeBlank (mergeBlank v)) ∧
    (mergeBlank (mergeBlank v) ≠ v →
      ∀ m, (widenS6 mergeBlank v).ending_states.find? 3 = some m → m.find? 0 ≠ some v) ∧
    evalTrace (scenarioD idx) (loopAnalyzer merge mergeBlank v) (n + 6)
      (initState (scenarioD idx)) = [0, 1, 2, 1, 2, 3] := by
  have e1 : evalAt (scenarioD idx) (loopAnalyzer merge mergeBlank v) 0
      (initState (scenarioD idx)) = widenS1 := rfl
  have e2 := widen_step2 merge mergeBlank v idx
  have e3 : evalAt (scenarioD idx) (loopAnalyzer merge mergeBlank v) 2 widenS2 =
      widenS3 mergeBlank v := rfl
  have e4 := widen_step4 merge mergeBlank v idx
  have e5 := widen_step5 merge mergeBlank v idx hm
  have e6 : evalAt (scenarioD idx) (loopAnalyzer merge mergeBlank v) 3 (widenS5 mergeBlank v) =
      widenS6 mergeBlank v := rfl
  have t1 : pqTop (CFGBlockMinIndex (scenarioD idx))
      (initState (scenarioD idx) : FPState T).q = some 0 := pqTop_single _ 0
  have t2 : pqTop (CFGBlockMinIndex (scenarioD idx)) (widenS1 : FPState T).q = some 1 :=
    pqTop_single _ 1
  have t3 : pqTop (CFGBlockMinIndex (scenarioD idx)) (widenS2 : FPState T).q = some 2 :=
    pqTop_pair_left (scenarioD idx) (le_of_lt h23)
  have t4 : pqTop (CFGBlockMinIndex (scenarioD idx)) (widenS3 mergeBlank v).q = some 1 :=
    pqTop_pair_right (scenarioD idx) h13
  have t5 : pqTop (CFGBlockMinIndex (scenarioD idx)) (widenS4 mergeBlank v).q = some 2 :=
    pqTop_pair_right (scenarioD idx) h23
  have t6 : pqTop (CFGBlockMinIndex (scenarioD idx)) (widenS5 mergeBlank v).q = some 3 :=
    pqTop_single _ 3
  have hl : loop (scenarioD idx) (loopAnalyzer merge mergeBlank v) (n + 6)
      (initState (scenarioD idx)) = some (widenS6 mergeBlank v) := by
    rw [loop_of_step _ _ _ (step_eq_evalAt _ _ t1), e1,
      loop_of_step _ _ _ (step_eq_evalAt _ _ t2), e2,
      loop_of_step _ _ _ (step_eq_evalAt _ _ t3), e3,
      loop_of_step _ _ _ (step_eq_evalAt _ _ t4), e4,
      loop_of_step _ _ _ (step_eq_evalAt _ _ t5), e5,
      loop_of_step _ _ _ (step_eq_evalAt _ _ t6), e6]
    exact loop_of_empty _ _ _ rfl
  have h3 : (widenS6 mergeBlank v).ending_states.find? 3 =
      some (oneFact (mergeBlank (mergeBlank v))) := rfl
  refine ⟨hl, ?_, h3, rfl, ?_, ?_⟩
  · simp only [computeFixedPoint, Bool.false_and, Bool.false_eq_true, if_false, hl]
  · intro hne m hm3 hv
    rw [h3] at hm3
    simp only [Option.some.injEq] at hm3
    rw [← hm3] at hv
    have : (oneFact (mergeBlank (mergeBlank v))).find? 0 = some (mergeBlank (mergeBlank v)) :=
      rfl
    rw [this] at hv
    simp only [Option.some.injEq] at hv
    exact hne hv
  · rw [evalTrace_of_step _ _ _ t1, e1, evalTrace_of_step _ _ _ t2, e2,
      evalTrace_of_step _ _ _ t3, e3, evalTrace_of_step _ _ _ t4, e4,
      evalTrace_of_step _ _ _ t5, e5, evalTrace_of_step _ _ _ t6, e6,
      evalTrace_of_empty _ _ _ rfl]

theorem scenario_widen_on_exit_witness :
    computeFixedPoint false (scenarioD (fun b => (b : Int)))
        (loopAnalyzer (fun a b => max a b) (fun a => if a = 1 then 2 else a) 1) false 6 =
      Except.ok (widenS6 (fun a => if a = 1 then 2 else a) 1).ending_states ∧
    (widenS6 (fun a : Nat => if a = 1 then 2 else a) 1).ending_states.find? 3 =
      some (oneFact 2) :=
  have h := scenario_widen_on_exit false (fun a b : Nat => max a b)
    (fun a : Nat => if a = 1 then 2 else a) 1 (fun b => (b : Int)) (by decide) (by decide)
    (by decide) 0
  ⟨h.2.1, h.2.2.1⟩

end ScenarioD

/-! ## Scenario C: constants under `max` on a graph with cycles -/

section Bounded

variable {T : Type} [DecidableEq T]

/-- The loop ends within `N * (1 + K * (H + 1))` iterations under the
conditions of the amended termination claim. -/
theorem loop_ends_within (cfg : CFG) (analyzer : BBAnalyzer T)
    (le : T → T → Prop) (H : Nat) (univ : List InternedString)
    (hfh : FiniteHeight le H) (hinf : MergeInflationary analyzer le)
    (hkeys : ∀ m b, (∀ k ∈ m.keys, k ∈ univ) →
      ∀ k ∈ (analyzer.processBB m b).keys, k ∈ univ)
    (hcfg : cfg.Closed) (fuel : Nat)
    (hfuel : cfg.blocks.length * (1 + univ.length * (H + 1)) ≤ fuel) :
    ∃ st, loop cfg analyzer fuel (initState cfg) = some st ∧
      st.num_evaluations ≤ cfg.blocks.length * (1 + univ.length * (H + 1)) := by
  obtain ⟨rank, hH, hrank⟩ := exists_rank le H hfh
  have hbound : ∀ st, Reachable cfg analyzer st →
      st.num_evaluations + st.q.length ≤ cfg.blocks.length * (1 + univ.length * (H + 1)) := by
    intro st hr
    exact le_trans (budget_reachable analyzer le rank cfg hrank hinf.1 hinf.2 hr)
      (tableWeight_le rank H hH univ cfg.blocks st
        (keysIn_reachable analyzer cfg univ hkeys hr)
        (fun b hb => graphReach_mem_blocks hcfg
          (allReach_reachable cfg analyzer hr b (Or.inl hb))))
  have hlt : ∀ st, Reachable cfg analyzer st → st.q ≠ [] →
      st.num_evaluations < cfg.blocks.length * (1 + univ.length * (H + 1)) := by
    intro st hr hq
    have := hbound st hr
    have : 0 < st.q.length := List.length_pos.2 hq
    omega
  obtain ⟨st, hst⟩ := loop_ends_of_bound analyzer cfg _ hlt fuel (initState cfg)
    Reachable.init (by simp only [initState]; omega)
  obtain ⟨hr, _⟩ := loop_reachable cfg analyzer fuel Reachable.init hst
  exact ⟨st, hst, by have := hbound st hr; omega⟩

end Bounded

section ScenarioC

variable {K : Nat}

theorem fin_finiteHeight (K : Nat) : FiniteHeight (fun a b : Fin (K + 1) => a ≤ b) K where
  refl := fun a => le_refl a
  trans := fun _ _ _ h1 h2 => le_trans h1 h2
  antisymm := fun _ _ h1 h2 => le_antisymm h1 h2
  chain := chain_length_of_rank _ K (fun a => a.val)
    (fun a => Nat.lt_succ_iff.1 a.isLt)
    (fun _ _ hab hne => lt_of_le_of_ne hab (fun h => hne (Fin.ext h)))

theorem constAnalyzer_inflationary (c : CFGBlock → Option (Fin (K + 1))) :
    MergeInflationary (constAnalyzer K c) (fun a b => a ≤ b) :=
  ⟨fun src into => le_max_right src into, fun into => le_refl into⟩

theorem constAnalyzer_keys (c : CFGBlock → Option (Fin (K + 1))) (m : Map (Fin (K + 1)))
    (b : CFGBlock) (hm : ∀ k ∈ m.keys, k ∈ [(0 : InternedString)]) :
    ∀ k ∈ ((constAnalyzer K c).processBB m b).keys, k ∈ [(0 : InternedString)] := by
  intro k hk
  simp only [constAnalyzer] at hk
  cases hc : c b with
  | none => rw [hc] at hk; exact hm k hk
  | some n =>
    rw [hc] at hk
    rcases (DenseMap.mem_keys_set _ _ _ _).1 hk with h | h
    · simp [h]
    · exact hm k h

theorem constAnalyzer_out (c : CFGBlock → Option (Fin (K + 1))) (m : Map (Fin (K + 1)))
    (b : CFGBlock) : ((constAnalyzer K c).processBB m b).find? 0 = outValue c b (m.find? 0) := by
  simp only [constAnalyzer, outValue]
  cases c b with
  | none => rfl
  | some n => exact DenseMap.find?_set_self m 0 n

theorem optLe_none_right {α : Type} (le : α → α → Prop) {v : Option α}
    (h : optLe le v none) : v = none := by
  cases v with
  | none => rfl
  | some a => exact absurd h (by simp [optLe])

/-- Every entry value of `x` is carried in along some path. -/
theorem carried_attained (cfg : CFG) (c : CFGBlock → Option (Fin (K + 1)))
    {st : FPState (Fin (K + 1))} (hr : TieReachable cfg (constAnalyzer K c) st) :
    ∀ b m, st.starting_states.find? b = some m → Carried cfg c b (m.find? 0) := by
  refine tie_induction cfg (constAnalyzer K c)
    (fun st => ∀ b m, st.starting_states.find? b = some m → Carried cfg c b (m.find? 0))
    (fun block ending st => (∀ s ∈ cfg.successors block, Carried cfg c s (ending.find? 0)) ∧
      ∀ b m, st.starting_states.find? b = some m → Carried cfg c b (m.find? 0))
    ?_ ?_ ?_ ?_ hr
  · intro b m hm
    rw [initState, DenseMap.find?_set] at hm
    split at hm
    · rename_i hb
      simp only [Option.some.injEq] at hm
      rw [hb, ← hm]
      exact Carried.start
    · simp [DenseMap.find?_empty] at hm
  · intro st block htr hP hmin
    have hq := tie_queuedHaveStart cfg (constAnalyzer K c) htr block hmin.1
    obtain ⟨m0, hm0⟩ : ∃ m, st.starting_states.find? block = some m := by
      have := (DenseMap.mem_keys_iff _ _).1 hq
      cases hf : st.starting_states.find? block with
      | none => rw [hf] at this; exact Bool.noConfusion this
      | some m => exact ⟨m, rfl⟩
    have hx : exitMap (constAnalyzer K c) block (popAt block st) =
        (st.starting_states, (constAnalyzer K c).processBB m0 block) := by
      unfold exitMap
      have : (popAt block st).starting_states = st.starting_states := rfl
      simp only [this, DenseMap.getOrInsert_of_find? _ hm0]
    rw [hx]
    refine ⟨?_, hP⟩
    intro s hs
    rw [constAnalyzer_out]
    exact Carried.edge (hP block m0 hm0) hs
  · intro st block ending s hs hQ
    refine ⟨hQ.1, ?_⟩
    intro b m hm
    rw [updateSuccessor_starting] at hm
    by_cases hb : b = s
    · subst hb
      rw [if_pos rfl] at hm
      simp only [Option.some.injEq] at hm
      rw [← hm]
      have hE := hQ.1 b hs
      cases hold : st.starting_states.find? b with
      | none =>
        rw [successorEdge_of_none _ _ _ _ hold, mergeEdge_initial]
        exact hE
      | some old =>
        have hO := hQ.2 b old hold
        rw [successorEdge_of_some _ _ _ _ hold, mergeEdge_find?]
        cases he : ending.find? 0 with
        | none =>
          cases ho : old.find? 0 with
          | none => rw [ho] at hO; exact hO
          | some w => rw [ho] at hO; exact hO
        | some v =>
          rw [he] at hE
          cases ho : old.find? 0 with
          | none => exact hE
          | some w =>
            rw [ho] at hO
            show Carried cfg c b (some (max v w))
            rcases max_choice v w with h | h
            · rw [h]; exact hE
            · rw [h]; exact hO
    · rw [if_neg hb] at hm
      exact hQ.2 b m hm
  · intro st block ending hQ _
    exact hQ.2

/-- Every value carried into a block along a path is below the final entry
value of `x` at that block. -/
theorem carried_below (cfg : CFG) (c : CFGBlock → Option (Fin (K + 1)))
    {st : FPState (Fin (K + 1))} (hr : TieReachable cfg (constAnalyzer K c) st) (hq : st.q = [])
    {b : CFGBlock} {v : Option (Fin (K + 1))} (hc : Carried cfg c b v) :
    ∃ m, st.starting_states.find? b = some m ∧ optLe (fun a b => a ≤ b) v (m.find? 0) := by
  have hcov := tie_covers cfg (constAnalyzer K c) hr
  have hqi := tie_queueInv cfg (constAnalyzer K c) hr
  have hfresh := tie_fresh cfg (constAnalyzer K c) hr
  have hedge := tie_edgeLe cfg (constAnalyzer K c) (fun a b => a ≤ b) (fun a => le_refl a)
    (fun _ _ _ h1 h2 => le_trans h1 h2) (fun a b => le_max_left a b)
    (fun a b => le_max_right a b) (fun a => le_refl a) hr
  have hnq : ∀ x, x ∉ st.in_queue := by
    intro x hx
    have := (hqi.2 x).1 hx
    rw [hq] at this
    exact List.not_mem_nil x this
  induction hc with
  | start =>
    cases hf : st.starting_states.find? cfg.startingBlock with
    | none =>
      have := (DenseMap.mem_keys_iff _ _).1 hcov.1
      rw [hf] at this
      exact Bool.noConfusion this
    | some m => exact ⟨m, rfl, trivial⟩
  | edge hcb hs ih =>
    rename_i b s v
    obtain ⟨m, hm, hle⟩ := ih
    have hbk : b ∈ st.starting_states.keys := by
      rw [DenseMap.mem_keys_iff, hm]; rfl
    have hbe : b ∈ st.ending_states.keys := by
      rcases hcov.2.1 b hbk with h | h
      · exact absurd h (hnq b)
      · exact h
    obtain ⟨e, he⟩ : ∃ e, st.ending_states.find? b = some e := by
      have := (DenseMap.mem_keys_iff _ _).1 hbe
      cases hf : st.ending_states.find? b with
      | none => rw [hf] at this; exact Bool.noConfusion this
      | some e => exact ⟨e, rfl⟩
    obtain ⟨m1, hm1, hpe⟩ := hfresh b e he (hnq b)
    rw [hm] at hm1
    simp only [Option.some.injEq] at hm1
    subst hm1
    obtain ⟨ms, hms, hrel⟩ := hedge b e he s hs
    refine ⟨ms, hms, ?_⟩
    have hout : e.find? 0 = outValue c b (m.find? 0) := by
      rw [← hpe]; exact constAnalyzer_out c m b
    cases hov : outValue c b v with
    | none => trivial
    | some a =>
      have : ∃ a1, e.find? 0 = some a1 ∧ a ≤ a1 := by
        rw [hout]
        simp only [outValue] at hov ⊢
        cases hcb2 : c b with
        | some n =>
          rw [hcb2] at hov
          simp only [Option.some.injEq] at hov
          exact ⟨n, rfl, le_of_eq hov.symm⟩
        | none =>
          rw [hcb2] at hov
          simp only at hov ⊢
          rw [hov] at hle
          cases hm0 : m.find? 0 with
          | none => rw [hm0] at hle; exact absurd hle (by simp [optLe])
          | some a1 => rw [hm0] at hle; exact ⟨a1, rfl, hle⟩
      obtain ⟨a1, ha1, hle1⟩ := this
      obtain ⟨w, hw, hle2⟩ := hrel 0 a1 ha1
      rw [hw]
      exact le_trans hle1 hle2

/-- C14. Scenario C: one variable `x` over the integers `0, ..., K`,
`merge = max`, `mergeBlank = id`, every block either sets `x` to its constant
or leaves the map alone, on any graph (with or without back-edges) whose `N`
listed blocks include the starting block and all successors. With fuel for
`N * (K + 2)` iterations the loop ends and `computeFixedPoint` returns; the
number of evaluations is at most `N * (K + 2)`, which is at most `3 * N * K`
when `1 ≤ K`. For every block `b` of the returned table, with `m` its final
entry map: the exit map is the transfer of `m`, the entry value `m[x]` (or
its absence) is carried into `b` along some path from the starting block,
every value carried into `b` along a path is below it, and `x` is absent from
`m` exactly when no path carries a value into `b`. -/
theorem scenario_cycle (ndebug : Bool) (K : Nat) (cfg : CFG)
    (c : CFGBlock → Option (Fin (K + 1)))
    (hcfg : cfg.Closed) (fuel : Nat) (hfuel : cfg.blocks.length * (K + 2) ≤ fuel) :
    ∃ final, loop cfg (constAnalyzer K c) fuel (initState cfg) = some final ∧
      computeFixedPoint ndebug cfg (constAnalyzer K c) false fuel = Except.ok final.ending_states ∧
      final.num_evaluations ≤ cfg.blocks.length * (K + 2) ∧
      (1 ≤ K → final.num_evaluations ≤ 3 * (cfg.blocks.length * K)) ∧
      ∀ b e, final.ending_states.find? b = some e →
        ∃ m, final.starting_states.find? b = some m ∧
          e = (constAnalyzer K c).processBB m b ∧
          e.find? 0 = outValue c b (m.find? 0) ∧
          Carried cfg c b (m.find? 0) ∧
          (∀ v, Carried cfg c b v → optLe (fun x y => x ≤ y) v (m.find? 0)) ∧
          (m.find? 0 = none ↔ ∀ v, Carried cfg c b v → v = none) := by
  have harith : cfg.blocks.length * (1 + [(0 : InternedString)].length * (K + 1)) =
      cfg.blocks.length * (K + 2) := by
    simp only [List.length_singleton]
    congr 1
    omega
  obtain ⟨final, hl, hnum⟩ := loop_ends_within cfg (constAnalyzer K c) (fun a b => a ≤ b) K
    [(0 : InternedString)] (fin_finiteHeight K) (constAnalyzer_inflationary c)
    (fun m b hm => constAnalyzer_keys c m b hm) hcfg fuel (by rw [harith]; exact hfuel)
  rw [harith] at hnum
  obtain ⟨hrf, hq⟩ := loop_reachable cfg (constAnalyzer K c) fuel Reachable.init hl
  have htr := tieReachable_of_reachable cfg (constAnalyzer K c) hrf
  have hqi := tie_queueInv cfg (constAnalyzer K c) htr
  refine ⟨final, hl, by simp [computeFixedPoint, hl], hnum, ?_, ?_⟩
  · intro hK
    refine le_trans hnum ?_
    have : cfg.blocks.length * (K + 2) ≤ cfg.blocks.length * (3 * K) :=
      Nat.mul_le_mul_left _ (by omega)
    calc cfg.blocks.length * (K + 2) ≤ cfg.blocks.length * (3 * K) := this
      _ = 3 * (cfg.blocks.length * K) := by ring
  · intro b e he
    have hnq : b ∉ final.in_queue := by
      intro hx
      have := (hqi.2 b).1 hx
      rw [hq] at this
      exact List.not_mem_nil b this
    obtain ⟨m, hm, hpe⟩ := tie_fresh cfg (constAnalyzer K c) htr b e he hnq
    have hatt := carried_attained cfg c htr b m hm
    have hup : ∀ v, Carried cfg c b v → optLe (fun x y => x ≤ y) v (m.find? 0) := by
      intro v hv
      obtain ⟨m1, hm1, hle⟩ := carried_below cfg c htr hq hv
      rw [hm] at hm1
      simp only [Option.some.injEq] at hm1
      rw [hm1]
      exact hle
    refine ⟨m, hm, hpe.symm, ?_, hatt, hup, ?_⟩
    · rw [← hpe]; exact constAnalyzer_out c m b
    · constructor
      · intro h0 v hv
        have := hup v hv
        rw [h0] at this
        exact optLe_none_right _ this
      · intro h
        exact h _ hatt

theorem scenario_cycle_witness :
    selfLoopCfg.Closed ∧ selfLoopCfg.blocks.length * (3 + 2) ≤ 5 ∧
    ∃ final, loop selfLoopCfg (constAnalyzer 3 (fun _ => some 2)) 5 (initState selfLoopCfg) =
        some final ∧
      computeFixedPoint false selfLoopCfg (constAnalyzer 3 (fun _ => some 2)) false 5 =
        Except.ok final.ending_states ∧
      final.num_evaluations ≤ selfLoopCfg.blocks.length * (3 + 2) ∧
      (1 ≤ 3 → final.num_evaluations ≤ 3 * (selfLoopCfg.blocks.length * 3)) ∧
      ∀ b e, final.ending_states.find? b = some e →
        ∃ m, final.starting_states.find? b = some m ∧
          e = (constAnalyzer 3 (fun _ => some 2)).processBB m b ∧
          e.find? 0 = outValue (fun _ => some 2) b (m.find? 0) ∧
          Carried selfLoopCfg (fun _ => some 2) b (m.find? 0) ∧
          (∀ v, Carried selfLoopCfg (fun _ => some (2 : Fin (3 + 1))) b v →
            optLe (fun x y => x ≤ y) v (m.find? 0)) ∧
          (m.find? 0 = none ↔
            ∀ v, Carried selfLoopCfg (fun _ => some (2 : Fin (3 + 1))) b v → v = none) :=
  have hc : selfLoopCfg.Closed :=
    ⟨by decide, fun b hb s hs => by
      simp only [selfLoopCfg, List.mem_singleton] at hb
      subst hb
      simpa [selfLoopCfg] using hs⟩
  ⟨hc, by decide, scenario_cycle false 3 selfLoopCfg (fun _ => some 2) hc 5 (by decide)⟩

end ScenarioC

/-! ## Graphs indexed in topological order -/

section SinglePass

variable {T : Type} [DecidableEq T]

theorem DenseMap.keys_set {K V : Type} [DecidableEq K] (m : DenseMap K V) (k : K) (v : V) :
    (m.set k v).keys = if k ∈ m.keys then m.keys else m.keys ++ [k] :=
  alSet_keys k v m.entries

theorem tie_ordered (cfg : CFG) (analyzer : BBAnalyzer T) (hcfg : cfg.Closed)
    (hinj : ∀ a ∈ cfg.blocks, ∀ b ∈ cfg.blocks, cfg.idx a = cfg.idx b → a = b)
    (hedge : ∀ b ∈ cfg.blocks, ∀ s ∈ cfg.successors b, cfg.idx b < cfg.idx s)
    {st : FPState T} (hr : TieReachable cfg analyzer st) : Ordered cfg st := by
  refine tie_induction cfg analyzer (Ordered cfg) (fun block _ st => OrderedMid cfg block st)
    ?_ ?_ ?_ ?_ hr
  · exact ⟨fun e he => by simp [initState, DenseMap.keys, DenseMap.empty] at he, rfl⟩
  · intro st block htr hP hmin
    have hqi := tie_queueInv cfg analyzer htr
    have har := tie_allReach cfg analyzer htr
    have hbr : GraphReach cfg block := har block (Or.inr (Or.inr (Or.inr hmin.1)))
    refine ⟨?_, ?_, ?_, ?_, hbr⟩
    · intro e he p hp
      exact hP.1 e he p (List.mem_of_mem_erase hp)
    · intro p hp
      have hp2 := (hqi.1.mem_erase_iff).1 hp
      refine lt_of_le_of_ne (hmin.2 p hp2.2) ?_
      intro heq
      exact hp2.1 (hinj block (graphReach_mem_blocks hcfg hbr) p
        (graphReach_mem_blocks hcfg (har p (Or.inr (Or.inr (Or.inr hp2.2))))) heq).symm
    · intro e he
      exact hP.1 e he block hmin.1
    · show st.num_evaluations + 1 = st.ending_states.keys.length + 1
      rw [hP.2]
  · intro st block ending s hs hQ
    obtain ⟨h1, h2, h3, h4, h5⟩ := hQ
    have hbs : cfg.idx block < cfg.idx s := hedge block (graphReach_mem_blocks hcfg h5) s hs
    refine ⟨?_, ?_, h3, h4, h5⟩
    · intro e he p hp
      rcases (updateSuccessor_q_mem analyzer ending st s p).1 hp with h | ⟨rfl, _⟩
      · exact h1 e he p h
      · exact lt_trans (h3 e he) hbs
    · intro p hp
      rcases (updateSuccessor_q_mem analyzer ending st s p).1 hp with h | ⟨rfl, _⟩
      · exact h2 p h
      · exact hbs
  · intro st block ending hQ _
    obtain ⟨h1, h2, h3, h4, _⟩ := hQ
    have hnot : block ∉ st.ending_states.keys := fun h => lt_irrefl _ (h3 block h)
    constructor
    · intro e he p hp
      rcases (DenseMap.mem_keys_set _ _ _ _).1 he with rfl | h
      · exact h2 p hp
      · exact h1 e h p hp
    · show st.num_evaluations = (st.ending_states.set block ending).keys.length
      rw [DenseMap.keys_set, if_neg hnot, List.length_append, h4]
      rfl

theorem evalAt_ending_keys (cfg : CFG) (analyzer : BBAnalyzer T) (block : CFGBlock)
    (st : FPState T) (b : CFGBlock) :
    b ∈ (evalAt cfg analyzer block st).ending_states.keys ↔
      b = block ∨ b ∈ st.ending_states.keys := by
  rw [evalAt, processBlock_ending, DenseMap.mem_keys_set]
  rfl

theorem evalAt_num (cfg : CFG) (analyzer : BBAnalyzer T) (block : CFGBlock)
    (st : FPState T) :
    (evalAt cfg analyzer block st).num_evaluations = st.num_evaluations + 1 := by
  rw [evalAt_eq]
  exact foldl_updateSuccessor_inv analyzer _
    (fun x => x.num_evaluations = st.num_evaluations + 1) _ _ rfl (fun _ _ _ h => h)

/-- The blocks evaluated from a state on, on a graph indexed in topological
order. -/
theorem trace_ordered (cfg : CFG) (analyzer : BBAnalyzer T) (hcfg : cfg.Closed)
    (hinj : ∀ a ∈ cfg.blocks, ∀ b ∈ cfg.blocks, cfg.idx a = cfg.idx b → a = b)
    (hedge : ∀ b ∈ cfg.blocks, ∀ s ∈ cfg.successors b, cfg.idx b < cfg.idx s)
    (fuel : Nat) {st final : FPState T} (hr : TieReachable cfg analyzer st)
    (hl : loop cfg analyzer fuel st = some final) :
    (evalTrace cfg analyzer fuel st).Pairwise (fun a b => cfg.idx a < cfg.idx b) ∧
    (∀ b ∈ evalTrace cfg analyzer fuel st, ∀ e ∈ st.ending_states.keys,
      cfg.idx e < cfg.idx b) ∧
    (∀ b, b ∈ final.ending_states.keys ↔
      b ∈ st.ending_states.keys ∨ b ∈ evalTrace cfg analyzer fuel st) ∧
    final.num_evaluations = st.num_evaluations + (evalTrace cfg analyzer fuel st).length := by
  induction fuel generalizing st with
  | zero =>
    have hq : st.q = [] := by
      unfold loop at hl
      by_cases hq : st.q = []
      · exact hq
      · rw [if_neg hq] at hl; exact Option.noConfusion hl
    rw [loop_of_empty cfg analyzer 0 hq] at hl
    simp only [Option.some.injEq] at hl
    subst hl
    simp [evalTrace]
  | succ n ih =>
    by_cases hq : st.q = []
    · rw [loop_of_empty cfg analyzer (n + 1) hq] at hl
      simp only [Option.some.injEq] at hl
      subst hl
      simp [evalTrace_of_empty cfg analyzer (n + 1) hq]
    · obtain ⟨block, ht⟩ := pqTop_isSome (CFGBlockMinIndex cfg) hq
      have hmin := isMinPending_of_top cfg ht
      rw [loop_of_step cfg analyzer n (step_eq_evalAt cfg analyzer ht)] at hl
      rw [evalTrace_of_step cfg analyzer n ht]
      obtain ⟨i1, i2, i3, i4⟩ := ih (TieReachable.next hr hmin) hl
      have hord := tie_ordered cfg analyzer hcfg hinj hedge hr
      refine ⟨?_, ?_, ?_, ?_⟩
      · rw [List.pairwise_cons]
        refine ⟨?_, i1⟩
        intro b hb
        exact i2 b hb block ((evalAt_ending_keys cfg analyzer block st block).2 (Or.inl rfl))
      · intro b hb e he
        rcases List.mem_cons.1 hb with rfl | hb
        · exact hord.1 e he b hmin.1
        · exact i2 b hb e ((evalAt_ending_keys cfg analyzer block st e).2 (Or.inr he))
      · intro b
        rw [i3 b, evalAt_ending_keys, List.mem_cons]
        tauto
      · rw [i4, evalAt_num, List.length_cons]
        omega

/-- C16. Single pass on graphs indexed in topological order: if the listed
blocks of the graph include the starting block and all successors, have
pairwise different indices, and every edge `b → s` has `idx b < idx s`, then
for any analyzer, with fuel for as many iterations as there are blocks, the
loop ends and `computeFixedPoint` returns; the blocks are evaluated in
strictly increasing index order; a block reachable from the starting block is
evaluated exactly once and no other block is evaluated; the returned table
has exactly the reachable blocks; and `num_evaluations` is the number of
evaluated blocks, which is the number of reachable blocks. -/
theorem single_pass (ndebug : Bool) (cfg : CFG) (analyzer : BBAnalyzer T)
    (hcfg : cfg.Closed)
    (hinj : ∀ a ∈ cfg.blocks, ∀ b ∈ cfg.blocks, cfg.idx a = cfg.idx b → a = b)
    (hedge : ∀ b ∈ cfg.blocks, ∀ s ∈ cfg.successors b, cfg.idx b < cfg.idx s)
    (fuel : Nat) (hfuel : cfg.blocks.length ≤ fuel) :
    ∃ final, loop cfg analyzer fuel (initState cfg) = some final ∧
      computeFixedPoint ndebug cfg analyzer false fuel = Except.ok final.ending_states ∧
      (evalTrace cfg analyzer fuel (initState cfg)).Pairwise
        (fun a b => cfg.idx a < cfg.idx b) ∧
      (∀ b, GraphReach cfg b → (evalTrace cfg analyzer fuel (initState cfg)).count b = 1) ∧
      (∀ b, ¬ GraphReach cfg b → (evalTrace cfg analyzer fuel (initState cfg)).count b = 0) ∧
      (∀ b, b ∈ final.ending_states.keys ↔ GraphReach cfg b) ∧
      final.num_evaluations = (evalTrace cfg analyzer fuel (initState cfg)).length ∧
      final.num_evaluations = Set.ncard {b | GraphReach cfg b} := by
  have hlt : ∀ st, Reachable cfg analyzer st → st.q ≠ [] →
      st.num_evaluations < cfg.blocks.length := by
    intro st hrs hq
    have htr := tieReachable_of_reachable cfg analyzer hrs
    have hord := tie_ordered cfg analyzer hcfg hinj hedge htr
    have hqi := tie_queueInv cfg analyzer htr
    have har := tie_allReach cfg analyzer htr
    have hnd : (st.ending_states.keys ++ st.q).Nodup := by
      refine List.Nodup.append st.ending_states.nodup hqi.1 ?_
      intro x hx1 hx2
      exact lt_irrefl _ (hord.1 x hx1 x hx2)
    have hsub : ∀ x ∈ st.ending_states.keys ++ st.q, x ∈ cfg.blocks := by
      intro x hx
      rcases List.mem_append.1 hx with h | h
      · exact graphReach_mem_blocks hcfg (har x (Or.inr (Or.inl h)))
      · exact graphReach_mem_blocks hcfg (har x (Or.inr (Or.inr (Or.inr h))))
    have hlen := nodup_length_le hnd hsub
    rw [List.length_append] at hlen
    have : 0 < st.q.length := List.length_pos.2 hq
    rw [hord.2]
    omega
  obtain ⟨final, hl⟩ := loop_ends_of_bound analyzer cfg _ hlt fuel (initState cfg)
    Reachable.init (by simp only [initState]; omega)
  obtain ⟨hrf, hq⟩ := loop_reachable cfg analyzer fuel Reachable.init hl
  have htf := tieReachable_of_reachable cfg analyzer hrf
  obtain ⟨t1, _, t3, t4⟩ := trace_ordered cfg analyzer hcfg hinj hedge fuel
    (TieReachable.init : TieReachable cfg analyzer (initState cfg)) hl
  have hnd : (evalTrace cfg analyzer fuel (initState cfg)).Nodup :=
    t1.imp (fun h heq => by rw [heq] at h; exact lt_irrefl _ h)
  have hkeys : ∀ b, b ∈ final.ending_states.keys ↔ GraphReach cfg b := by
    intro b
    constructor
    · intro hb
      exact tie_allReach cfg analyzer htf b (Or.inr (Or.inl hb))
    · intro hb
      exact tie_covers_final cfg analyzer htf hq b hb
  have hmem : ∀ b, b ∈ evalTrace cfg analyzer fuel (initState cfg) ↔ GraphReach cfg b := by
    intro b
    rw [← hkeys b, t3 b]
    constructor
    · intro h; exact Or.inr h
    · intro h
      rcases h with h | h
      · simp [initState, DenseMap.keys, DenseMap.empty] at h
      · exact h
  have hnum : final.num_evaluations = (evalTrace cfg analyzer fuel (initState cfg)).length := by
    rw [t4]
    simp [initState]
  refine ⟨final, hl, by simp [computeFixedPoint, hl], t1, ?_, ?_, hkeys, hnum, ?_⟩
  · intro b hb
    exact List.count_eq_one_of_mem hnd ((hmem b).2 hb)
  · intro b hb
    exact List.count_eq_zero_of_not_mem (fun h => hb ((hmem b).1 h))
  · have hset : {b | GraphReach cfg b} =
        ((evalTrace cfg analyzer fuel (initState cfg)).toFinset : Set CFGBlock) := by
      ext b
      simp [hmem b]
    rw [hset, Set.ncard_coe_Finset, List.toFinset_card_of_nodup hnd]
    exact hnum

theorem single_pass_witness :
    (scenarioB (fun b => (b : Int))).Closed ∧
    (scenarioB (fun b => (b : Int))).blocks.length ≤ 4 ∧
    ∃ final, loop (scenarioB (fun b => (b : Int))) diamondAnalyzer 4
        (initState (scenarioB (fun b => (b : Int)))) = some final ∧
      computeFixedPoint false (scenarioB (fun b => (b : Int))) diamondAnalyzer false 4 =
        Except.ok final.ending_states ∧
      (evalTrace (scenarioB (fun b => (b : Int))) diamondAnalyzer 4
        (initState (scenarioB (fun b => (b : Int))))).Pairwise
        (fun a b => (scenarioB (fun b => (b : Int))).idx a <
          (scenarioB (fun b => (b : Int))).idx b) ∧
      (∀ b, GraphReach (scenarioB (fun b => (b : Int))) b →
        (evalTrace (scenarioB (fun b => (b : Int))) diamondAnalyzer 4
          (initState (scenarioB (fun b => (b : Int))))).count b = 1) ∧
      (∀ b, ¬ GraphReach (scenarioB (fun b => (b : Int))) b →
        (evalTrace (scenarioB (fun b => (b : Int))) diamondAnalyzer 4
          (initState (scenarioB (fun b => (b : Int))))).count b = 0) ∧
      (∀ b, b ∈ final.ending_states.keys ↔ GraphReach (scenarioB (fun b => (b : Int))) b) ∧
      final.num_evaluations = (evalTrace (scenarioB (fun b => (b : Int))) diamondAnalyzer 4
        (initState (scenarioB (fun b => (b : Int))))).length ∧
      final.num_evaluations = Set.ncard {b | GraphReach (scenarioB (fun b => (b : Int))) b} :=
  have hc : (scenarioB (fun b => (b : Int))).Closed := by
    constructor
    · decide
    · show ∀ b ∈ [0, 1, 2, 3], ∀ s ∈ (scenarioB (fun b => (b : Int))).successors b,
        s ∈ [0, 1, 2, 3]
      decide
  ⟨hc, by decide,
    single_pass false (scenarioB (fun b => (b : Int))) diamondAnalyzer hc
      (fun a _ b _ h => Int.ofNat.inj h)
      (by
        show ∀ b ∈ [0, 1, 2, 3], ∀ s ∈ (scenarioB (fun b => (b : Int))).successors b,
          ((b : Nat) : Int) < ((s : Nat) : Int)
        decide)
      4 (by decide)⟩

end SinglePass

/-! ## Ties between pending blocks -/

section TieBreak

variable {T : Type} [DecidableEq T]

theorem tieRun_reachable (cfg : CFG) (analyzer : BBAnalyzer T) {st st1 : FPState T}
    {l : List CFGBlock} (hr : TieReachable cfg analyzer st)
    (h : TieRun cfg analyzer st l st1) : TieReachable cfg analyzer st1 := by
  induction h with
  | done _ => exact hr
  | next hmin _ ih => exact ih (TieReachable.next hr hmin)

theorem tieRun_evalList (cfg : CFG) (analyzer : BBAnalyzer T) {st st1 : FPState T}
    {l : List CFGBlock} (h : TieRun cfg analyzer st l st1) :
    st1 = evalList cfg analyzer l st := by
  induction h with
  | done _ => rfl
  | next _ _ ih => exact ih

theorem tie_sorted (cfg : CFG) (analyzer : BBAnalyzer T)
    (hedge : ∀ b s, s ∈ cfg.successors b → cfg.idx b < cfg.idx s)
    {st : FPState T} (hr : TieReachable cfg analyzer st) : Sorted cfg st := by
  refine tie_induction cfg analyzer (Sorted cfg) (fun block _ st => SortedMid cfg block st)
    ?_ ?_ ?_ ?_ hr
  · exact ⟨fun e he => by simp [initState, DenseMap.keys, DenseMap.empty] at he,
      fun e he => by simp [initState, DenseMap.keys, DenseMap.empty] at he⟩
  · intro st block htr hP hmin
    have hqi := tie_queueInv cfg analyzer htr
    refine ⟨?_, ?_, ?_, ?_, ?_, ?_⟩
    · intro e he p hp
      exact hP.1 e he p (List.mem_of_mem_erase hp)
    · intro e he hp
      exact hP.2 e he (List.mem_of_mem_erase hp)
    · intro p hp
      exact hmin.2 p (List.mem_of_mem_erase hp)
    · intro e he
      exact hP.1 e he block hmin.1
    · intro hp
      exact ((hqi.1.mem_erase_iff).1 hp).1 rfl
    · intro he
      exact hP.2 block he hmin.1
  · intro st block ending s hs hQ
    obtain ⟨h1, h2, h3, h4, h5, h6⟩ := hQ
    have hbs : cfg.idx block < cfg.idx s := hedge block s hs
    refine ⟨?_, ?_, ?_, h4, ?_, h6⟩
    · intro e he p hp
      rcases (updateSuccessor_q_mem analyzer ending st s p).1 hp with h | ⟨rfl, _⟩
      · exact h1 e he p h
      · exact le_of_lt (lt_of_le_of_lt (h4 e he) hbs)
    · intro e he hp
      rcases (updateSuccessor_q_mem analyzer ending st s e).1 hp with h | ⟨rfl, _⟩
      · exact h2 e he h
      · exact absurd (h4 e he) (not_le.2 hbs)
    · intro p hp
      rcases (updateSuccessor_q_mem analyzer ending st s p).1 hp with h | ⟨rfl, _⟩
      · exact h3 p h
      · exact le_of_lt hbs
    · intro hp
      rcases (updateSuccessor_q_mem analyzer ending st s block).1 hp with h | ⟨rfl, _⟩
      · exact h5 h
      · exact lt_irrefl _ hbs
  · intro st block ending hQ _
    obtain ⟨h1, h2, h3, h4, h5, h6⟩ := hQ
    constructor
    · intro e he p hp
      rcases (DenseMap.mem_keys_set _ _ _ _).1 he with rfl | h
      · exact h3 p hp
      · exact h1 e h p hp
    · intro e he hp
      rcases (DenseMap.mem_keys_set _ _ _ _).1 he with rfl | h
      · exact h5 hp
      · exact h2 e h hp

theorem edgeValue_symm (analyzer : BBAnalyzer T) (hl : TieLaws analyzer) (a b : Option T) :
    edgeValue analyzer false a b = edgeValue analyzer false b a := by
  cases a <;> cases b <;> simp [edgeValue, joined, hl.merge_comm]

theorem keyJoin_right_comm (analyzer : BBAnalyzer T) (hl : TieLaws analyzer)
    (s : Option (Option T)) (a b : Option T) :
    keyJoin analyzer (keyJoin analyzer s a) b = keyJoin analyzer (keyJoin analyzer s b) a := by
  cases s with
  | none =>
    simp only [keyJoin]
    rw [edgeValue_symm analyzer hl]
  | some c =>
    simp only [keyJoin, Option.some.injEq]
    cases a with
    | none =>
      cases b with
      | none => rfl
      | some b =>
        cases c with
        | none => simp [edgeValue, joined, hl.blank_idem]
        | some c => simp [edgeValue, joined, hl.blank_merge]
    | some a =>
      cases b with
      | none =>
        cases c with
        | none => simp [edgeValue, joined, hl.blank_idem]
        | some c => simp [edgeValue, joined, hl.blank_merge]
      | some b =>
        cases c with
        | none =>
          simp only [edgeValue, joined, Option.some.injEq, Bool.false_eq_true, if_false]
          rw [← hl.blank_merge, ← hl.blank_merge, hl.merge_comm]
        | some c =>
          simp only [edgeValue, joined, Option.some.injEq]
          rw [← hl.merge_assoc, ← hl.merge_assoc, hl.merge_comm b a]

theorem updateSuccessor_entryVal (analyzer : BBAnalyzer T) (ending : Map T) (st : FPState T)
    (s b : CFGBlock) (k : InternedString) :
    entryVal (updateSuccessor analyzer ending st s) b k =
      if s = b then keyJoin analyzer (entryVal st b k) (ending.find? k) else entryVal st b k := by
  unfold entryVal
  rw [updateSuccessor_starting]
  by_cases h : b = s
  · subst h
    rw [if_pos rfl, if_pos rfl]
    cases hold : st.starting_states.find? b with
    | none =>
      rw [successorEdge_of_none _ _ _ _ hold, mergeEdge_initial]
      rfl
    | some old =>
      rw [successorEdge_of_some _ _ _ _ hold]
      simp only [Option.map_some', mergeEdge_find?]
      rfl
  · rw [if_neg h, if_neg (fun h1 => h h1.symm)]

theorem foldl_entryVal (analyzer : BBAnalyzer T) (ending : Map T) (b : CFGBlock)
    (k : InternedString) (l : List CFGBlock) (st : FPState T) :
    entryVal (l.foldl (updateSuccessor analyzer ending) st) b k =
      (List.replicate (l.count b) (ending.find? k)).foldl (keyJoin analyzer)
        (entryVal st b k) := by
  induction l generalizing st with
  | nil => rfl
  | cons s t ih =>
    rw [List.foldl_cons, ih, updateSuccessor_entryVal, List.count_cons]
    by_cases h : s = b
    · subst h
      simp [List.replicate_succ]
    · simp [h]

theorem evalAt_entryVal (cfg : CFG) (analyzer : BBAnalyzer T) (block : CFGBlock)
    (st : FPState T) (m0 : Map T) (hm : st.starting_states.find? block = some m0)
    (b : CFGBlock) (k : InternedString) :
    entryVal (evalAt cfg analyzer block st) b k =
      (List.replicate ((cfg.successors block).count b)
        ((analyzer.processBB m0 block).find? k)).foldl (keyJoin analyzer)
        (entryVal st b k) := by
  have hx : exitMap analyzer block (popAt block st) =
      (st.starting_states, analyzer.processBB m0 block) := by
    unfold exitMap
    have : (popAt block st).starting_states = st.starting_states := rfl
    simp only [this, DenseMap.getOrInsert_of_find? _ hm]
  rw [evalAt_eq, hx]
  exact foldl_entryVal analyzer _ b k (cfg.successors block) _

theorem evalAt_ending_find? (cfg : CFG) (analyzer : BBAnalyzer T) (block : CFGBlock)
    (st : FPState T) (m0 : Map T) (hm : st.starting_states.find? block = some m0)
    (p : CFGBlock) :
    (evalAt cfg analyzer block st).ending_states.find? p =
      if p = block then some (analyzer.processBB m0 block) else st.ending_states.find? p := by
  have hx : exitMap analyzer block (popAt block st) =
      (st.starting_states, analyzer.processBB m0 block) := by
    unfold exitMap
    have : (popAt block st).starting_states = st.starting_states := rfl
    simp only [this, DenseMap.getOrInsert_of_find? _ hm]
  rw [evalAt, processBlock_ending, hx, DenseMap.find?_set]
  rfl

theorem hist_init (cfg : CFG) (analyzer : BBAnalyzer T) :
    Hist cfg analyzer (initState cfg : FPState T) := by
  refine ⟨[], List.nodup_nil, ?_, ?_⟩
  · intro p
    simp [initState, DenseMap.keys, DenseMap.empty]
  · intro b k
    simp only [arrivals, List.flatMap_nil, List.foldl_nil, entryVal, firstVal, initState]
    rw [DenseMap.find?_set]
    by_cases h : b = cfg.startingBlock
    · rw [if_pos h, if_pos h]; rfl
    · rw [if_neg h, if_neg h]; rfl

theorem hist_evalAt (cfg : CFG) (analyzer : BBAnalyzer T)
    (hedge : ∀ b s, s ∈ cfg.successors b → cfg.idx b < cfg.idx s)
    {st : FPState T} {block : CFGBlock} (hr : TieReachable cfg analyzer st)
    (hmin : IsMinPending cfg st block) (hh : Hist cfg analyzer st) :
    Hist cfg analyzer (evalAt cfg analyzer block st) := by
  obtain ⟨l, hnd, hmem, hval⟩ := hh
  have hs := tie_sorted cfg analyzer hedge hr
  obtain ⟨m0, hm0⟩ : ∃ m, st.starting_states.find? block = some m := by
    have := (DenseMap.mem_keys_iff _ _).1 (tie_queuedHaveStart cfg analyzer hr block hmin.1)
    cases hf : st.starting_states.find? block with
    | none => rw [hf] at this; exact Bool.noConfusion this
    | some m => exact ⟨m, rfl⟩
  have hnot : block ∉ l := fun h => hs.2 block ((hmem block).1 h) hmin.1
  refine ⟨l ++ [block], ?_, ?_, ?_⟩
  · exact List.Nodup.append hnd (List.nodup_singleton block)
      (by
        intro x hx1 hx2
        rw [List.mem_singleton] at hx2
        rw [hx2] at hx1
        exact hnot hx1)
  · intro p
    rw [evalAt_ending_keys, List.mem_append, List.mem_singleton, hmem p]
    tauto
  · intro b k
    have hexit : ∀ p, exitVal (evalAt cfg analyzer block st) p k =
        if p = block then (analyzer.processBB m0 block).find? k else exitVal st p k := by
      intro p
      unfold exitVal
      rw [evalAt_ending_find? cfg analyzer block st m0 hm0]
      by_cases h : p = block
      · rw [if_pos h, if_pos h]; rfl
      · rw [if_neg h, if_neg h]
    have hold : arrivals cfg (evalAt cfg analyzer block st) b k l = arrivals cfg st b k l := by
      unfold arrivals
      apply List.flatMap_congr
      intro p hp
      have hpb : p ≠ block := fun h => hnot (by rw [← h]; exact hp)
      rw [hexit p, if_neg hpb]
    have hnew : arrivals cfg (evalAt cfg analyzer block st) b k [block] =
        List.replicate ((cfg.successors block).count b)
          ((analyzer.processBB m0 block).find? k) := by
      unfold arrivals
      simp only [List.flatMap_cons, List.flatMap_nil, List.append_nil]
      rw [hexit block, if_pos rfl]
    have happ : arrivals cfg (evalAt cfg analyzer block st) b k (l ++ [block]) =
        arrivals cfg (evalAt cfg analyzer block st) b k l ++
          arrivals cfg (evalAt cfg analyzer block st) b k [block] := by
      unfold arrivals
      exact List.flatMap_append _ _ _
    rw [happ, hold, hnew, List.foldl_append, ← hval b k]
    exact evalAt_entryVal cfg analyzer block st m0 hm0 b k

theorem tie_hist (cfg : CFG) (analyzer : BBAnalyzer T)
    (hedge : ∀ b s, s ∈ cfg.successors b → cfg.idx b < cfg.idx s)
    {st : FPState T} (hr : TieReachable cfg analyzer st) : Hist cfg analyzer st := by
  induction hr with
  | init => exact hist_init cfg analyzer
  | next hr0 hmin ih => exact hist_evalAt cfg analyzer hedge hr0 hmin ih

theorem idx_start_le (cfg : CFG)
    (hedge : ∀ b s, s ∈ cfg.successors b → cfg.idx b < cfg.idx s)
    {b : CFGBlock} (hb : GraphReach cfg b) : cfg.idx cfg.startingBlock ≤ cfg.idx b := by
  induction hb with
  | refl => exact le_refl _
  | tail _ he ih => exact le_trans ih (le_of_lt (hedge _ _ he))

/-- At the end of two runs, the entry and exit values of every reachable block
agree. -/
theorem final_values_agree (cfg : CFG) (analyzer : BBAnalyzer T)
    (hedge : ∀ b s, s ∈ cfg.successors b → cfg.idx b < cfg.idx s)
    (hl : TieLaws analyzer) {f1 f2 : FPState T}
    (h1 : TieReachable cfg analyzer f1) (hq1 : f1.q = [])
    (h2 : TieReachable cfg analyzer f2) (hq2 : f2.q = [])
    (n : Nat) (b : CFGBlock) (hb : GraphReach cfg b)
    (hn : cfg.idx b < cfg.idx cfg.startingBlock + n) :
    (∀ k, entryVal f1 b k = entryVal f2 b k) ∧ (∀ k, exitVal f1 b k = exitVal f2 b k) := by
  induction n generalizing b with
  | zero =>
    have := idx_start_le cfg hedge hb
    simp only [Nat.cast_zero, add_zero] at hn
    exact absurd this (not_le.2 hn)
  | succ n ih =>
    obtain ⟨l1, hnd1, hmem1, hval1⟩ := tie_hist cfg analyzer hedge h1
    obtain ⟨l2, hnd2, hmem2, hval2⟩ := tie_hist cfg analyzer hedge h2
    have hkeys : ∀ (f : FPState T), TieReachable cfg analyzer f → f.q = [] →
        ∀ p, p ∈ f.ending_states.keys ↔ GraphReach cfg p := by
      intro f hf hq p
      exact ⟨fun hp => tie_allReach cfg analyzer hf p (Or.inr (Or.inl hp)),
        fun hp => tie_covers_final cfg analyzer hf hq p hp⟩
    have hperm : l1.Perm l2 := by
      rw [List.perm_ext_iff_of_nodup hnd1 hnd2]
      intro p
      rw [hmem1 p, hmem2 p, hkeys f1 h1 hq1 p, hkeys f2 h2 hq2 p]
    have hentry : ∀ k, entryVal f1 b k = entryVal f2 b k := by
      intro k
      rw [hval1 b k, hval2 b k]
      have hc : arrivals cfg f1 b k l1 = arrivals cfg f2 b k l1 := by
        unfold arrivals
        apply List.flatMap_congr
        intro p hp
        by_cases hcount : (cfg.successors p).count b = 0
        · rw [hcount]; rfl
        · have hbp : b ∈ cfg.successors p := List.count_pos_iff.1 (Nat.pos_of_ne_zero hcount)
          have hpr : GraphReach cfg p := (hkeys f1 h1 hq1 p).1 ((hmem1 p).1 hp)
          have hlt := hedge p b hbp
          have := (ih p hpr (by push_cast at hn ⊢; omega)).2 k
          rw [this]
      have hp2 : (arrivals cfg f2 b k l1).Perm (arrivals cfg f2 b k l2) := by
        unfold arrivals
        exact List.Perm.flatMap_right _ hperm
      rw [hc]
      haveI : RightCommutative (keyJoin analyzer) := ⟨keyJoin_right_comm analyzer hl⟩
      exact List.Perm.foldl_eq hp2 _
    refine ⟨hentry, ?_⟩
    intro k
    have hfresh : ∀ (f : FPState T), TieReachable cfg analyzer f → f.q = [] →
        ∃ m, f.starting_states.find? b = some m ∧
          f.ending_states.find? b = some (analyzer.processBB m b) := by
      intro f hf hq
      have hbk := (hkeys f hf hq b).2 hb
      obtain ⟨e, he⟩ : ∃ e, f.ending_states.find? b = some e := by
        have := (DenseMap.mem_keys_iff _ _).1 hbk
        cases hfe : f.ending_states.find? b with
        | none => rw [hfe] at this; exact Bool.noConfusion this
        | some e => exact ⟨e, rfl⟩
      have hnq : b ∉ f.in_queue := by
        intro hx
        have := ((tie_queueInv cfg analyzer hf).2 b).1 hx
        rw [hq] at this
        exact List.not_mem_nil b this
      obtain ⟨m, hm, hpe⟩ := tie_fresh cfg analyzer hf b e he hnq
      exact ⟨m, hm, by rw [he, hpe]⟩
    obtain ⟨m1, hm1, he1⟩ := hfresh f1 h1 hq1
    obtain ⟨m2, hm2, he2⟩ := hfresh f2 h2 hq2
    have hmeq : MapEq m1 m2 := by
      intro k1
      have := hentry k1
      simp only [entryVal, hm1, hm2, Option.map_some', Option.some.injEq] at this
      exact this
    have := hl.transfer_ext m1 m2 b hmeq k
    simp only [exitVal, he1, he2, Option.some_bind]
    exact this

theorem tieFanCfg_edges (b s : CFGBlock) (hs : s ∈ tieFanCfg.successors b) :
    tieFanCfg.idx b < tieFanCfg.idx s := by
  by_cases h0 : b = 0
  · subst h0
    have : s = 1 ∨ s = 2 ∨ s = 3 := by simpa [tieFanCfg] using hs
    rcases this with rfl | rfl | rfl <;> decide
  · by_cases h1 : b = 1 ∨ b = 2 ∨ b = 3
    · have : s = 4 := by simpa [tieFanCfg, h0, h1] using hs
      subst this
      rcases h1 with rfl | rfl | rfl <;> decide
    · simp [tieFanCfg, h0, h1] at hs

theorem raiseAnalyzer_laws : TieLaws raiseAnalyzer where
  merge_comm := fun a b => max_comm a b
  merge_assoc := fun a b c => max_assoc a b c
  blank_idem := fun a => by
    show max (max a 2) 2 = max a 2
    rw [max_assoc, max_self]
  blank_merge := fun a b => max_assoc a b 2
  transfer_ext := fun m m1 b h k => by
    show (if b = 1 then m.set 0 0 else if b = 3 then m.set 0 1 else m).find? k =
      (if b = 1 then m1.set 0 0 else if b = 3 then m1.set 0 1 else m1).find? k
    by_cases h1 : b = 1
    · rw [if_pos h1, if_pos h1, DenseMap.find?_set, DenseMap.find?_set, h k]
    · rw [if_neg h1, if_neg h1]
      by_cases h3 : b = 3
      · rw [if_pos h3, if_pos h3, DenseMap.find?_set, DenseMap.find?_set, h k]
      · rw [if_neg h3, if_neg h3]
        exact h k

/-- C15, as amended. Tie-break independence on graphs indexed in topological
order: if every edge `b → s` has `idx b < idx s` (blocks not joined by an edge
may share an index), `merge` is commutative and associative, `mergeBlank` is
idempotent and `mergeBlank (merge a b) = merge a (mergeBlank b)`, and
`processBB` looks only at the keys and values of its map, then any two runs
that each time evaluate some pending block of least index, and go on until no
block is pending, end with `ending_states` tables that have the same blocks
and, at every block, the same keys with the same values; and the table
`computeFixedPoint` returns agrees with them in the same sense. -/
theorem tie_break_independent (ndebug : Bool) (cfg : CFG) (analyzer : BBAnalyzer T)
    (hedge : ∀ b s, s ∈ cfg.successors b → cfg.idx b < cfg.idx s)
    (hl : TieLaws analyzer) (l1 l2 : List CFGBlock) (f1 f2 : FPState T)
    (h1 : TieRun cfg analyzer (initState cfg) l1 f1) (hq1 : f1.q = [])
    (h2 : TieRun cfg analyzer (initState cfg) l2 f2) (hq2 : f2.q = []) :
    TableEq f1.ending_states f2.ending_states ∧
    ∀ fuel final, loop cfg analyzer fuel (initState cfg) = some final →
      computeFixedPoint ndebug cfg analyzer false fuel = Except.ok final.ending_states ∧
      TableEq final.ending_states f1.ending_states := by
  have hr1 := tieRun_reachable cfg analyzer TieReachable.init h1
  have hr2 := tieRun_reachable cfg analyzer TieReachable.init h2
  have main : ∀ g1 g2 : FPState T, TieReachable cfg analyzer g1 → g1.q = [] →
      TieReachable cfg analyzer g2 → g2.q = [] →
      TableEq g1.ending_states g2.ending_states := by
    intro f1 f2 hr1 hq1 hr2 hq2
    have hkeys : ∀ (f : FPState T), TieReachable cfg analyzer f → f.q = [] →
        ∀ p, p ∈ f.ending_states.keys ↔ GraphReach cfg p := by
      intro f hf hq p
      exact ⟨fun hp => tie_allReach cfg analyzer hf p (Or.inr (Or.inl hp)),
        fun hp => tie_covers_final cfg analyzer hf hq p hp⟩
    constructor
    · intro c
      rw [hkeys f1 hr1 hq1 c, hkeys f2 hr2 hq2 c]
    · intro c m m1 hm hm1 k
      have hc : GraphReach cfg c := by
        apply (hkeys f1 hr1 hq1 c).1
        rw [DenseMap.mem_keys_iff, hm]
        rfl
      have hle := idx_start_le cfg hedge hc
      have := (final_values_agree cfg analyzer hedge hl hr1 hq1 hr2 hq2
        ((cfg.idx c - cfg.idx cfg.startingBlock).toNat + 1) c hc
        (by push_cast; rw [Int.toNat_of_nonneg (by omega)]; omega)).2 k
      simp only [exitVal, hm, hm1, Option.some_bind] at this
      exact this
  refine ⟨main f1 f2 hr1 hq1 hr2 hq2, ?_⟩
  intro fuel final hfin
  obtain ⟨hrf, hqf⟩ := loop_reachable cfg analyzer fuel Reachable.init hfin
  exact ⟨by simp [computeFixedPoint, hfin],
    main final f1 (tieReachable_of_reachable cfg analyzer hrf) hqf hr1 hq1⟩

theorem tie_break_independent_witness :
    (∀ b s, s ∈ tieFanCfg.successors b → tieFanCfg.idx b < tieFanCfg.idx s) ∧
    TieLaws raiseAnalyzer ∧
    TieRun tieFanCfg raiseAnalyzer (initState tieFanCfg) [0, 1, 2, 3, 4]
      (evalList tieFanCfg raiseAnalyzer [0, 1, 2, 3, 4] (initState tieFanCfg)) ∧
    (evalList tieFanCfg raiseAnalyzer [0, 1, 2, 3, 4] (initState tieFanCfg)).q = [] ∧
    TieRun tieFanCfg raiseAnalyzer (initState tieFanCfg) [0, 1, 3, 2, 4]
      (evalList tieFanCfg raiseAnalyzer [0, 1, 3, 2, 4] (initState tieFanCfg)) ∧
    (evalList tieFanCfg raiseAnalyzer [0, 1, 3, 2, 4] (initState tieFanCfg)).q = [] ∧
    TableEq (evalList tieFanCfg raiseAnalyzer [0, 1, 2, 3, 4] (initState tieFanCfg)).ending_states
      (evalList tieFanCfg raiseAnalyzer [0, 1, 3, 2, 4] (initState tieFanCfg)).ending_states :=
  have hA : TieRun tieFanCfg raiseAnalyzer (initState tieFanCfg) [0, 1, 2, 3, 4]
      (evalList tieFanCfg raiseAnalyzer [0, 1, 2, 3, 4] (initState tieFanCfg)) :=
    TieRun.next ⟨by decide, by decide⟩ (TieRun.next ⟨by decide, by decide⟩
      (TieRun.next ⟨by decide, by decide⟩ (TieRun.next ⟨by decide, by decide⟩
        (TieRun.next ⟨by decide, by decide⟩ (TieRun.done _)))))
  have hB : TieRun tieFanCfg raiseAnalyzer (initState tieFanCfg) [0, 1, 3, 2, 4]
      (evalList tieFanCfg raiseAnalyzer [0, 1, 3, 2, 4] (initState tieFanCfg)) :=
    TieRun.next ⟨by decide, by decide⟩ (TieRun.next ⟨by decide, by decide⟩
      (TieRun.next ⟨by decide, by decide⟩ (TieRun.next ⟨by decide, by decide⟩
        (TieRun.next ⟨by decide, by decide⟩ (TieRun.done _)))))
  ⟨tieFanCfg_edges, raiseAnalyzer_laws, hA, rfl, hB, rfl,
    (tie_break_independent false tieFanCfg raiseAnalyzer tieFanCfg_edges raiseAnalyzer_laws
      [0, 1, 2, 3, 4] [0, 1, 3, 2, 4] _ _ hA rfl hB rfl).1⟩

/-- C15, as stated, fails. On `tieFanCfg`, where the blocks `1`, `2` and `3`
share an index and every edge goes to a larger index, with `widenAnalyzer`
(`merge = max`, commutative, associative and monotone; a monotone `mergeBlank`
that widens `1` to `2`): the run that takes the tied blocks in the order
`1, 2, 3` ends with `x = 1` at block `4`, the run that takes them in the
order `1, 3, 2` ends with `x = 2` there. -/
theorem tie_break_matters :
    TieRun tieFanCfg widenAnalyzer (initState tieFanCfg) [0, 1, 2, 3, 4]
      (evalList tieFanCfg widenAnalyzer [0, 1, 2, 3, 4] (initState tieFanCfg)) ∧
    (evalList tieFanCfg widenAnalyzer [0, 1, 2, 3, 4] (initState tieFanCfg)).q = [] ∧
    TieRun tieFanCfg widenAnalyzer (initState tieFanCfg) [0, 1, 3, 2, 4]
      (evalList tieFanCfg widenAnalyzer [0, 1, 3, 2, 4] (initState tieFanCfg)) ∧
    (evalList tieFanCfg widenAnalyzer [0, 1, 3, 2, 4] (initState tieFanCfg)).q = [] ∧
    (evalList tieFanCfg widenAnalyzer [0, 1, 2, 3, 4]
      (initState tieFanCfg)).ending_states.find? 4 = some (singleFact 1) ∧
    (evalList tieFanCfg widenAnalyzer [0, 1, 3, 2, 4]
      (initState tieFanCfg)).ending_states.find? 4 = some (singleFact 2) ∧
    ¬ TableEq
      (evalList tieFanCfg widenAnalyzer [0, 1, 2, 3, 4] (initState tieFanCfg)).ending_states
      (evalList tieFanCfg widenAnalyzer [0, 1, 3, 2, 4] (initState tieFanCfg)).ending_states ∧
    (∀ b s, s ∈ tieFanCfg.successors b → tieFanCfg.idx b < tieFanCfg.idx s) ∧
    (∀ a b, widenAnalyzer.merge a b = widenAnalyzer.merge b a) ∧
    (∀ a b c, widenAnalyzer.merge (widenAnalyzer.merge a b) c =
      widenAnalyzer.merge a (widenAnalyzer.merge b c)) ∧
    (∀ a b c d, a ≤ b → c ≤ d → widenAnalyzer.merge a c ≤ widenAnalyzer.merge b d) ∧
    (∀ a b, a ≤ b → widenAnalyzer.mergeBlank a ≤ widenAnalyzer.mergeBlank b) := by
  have hA : (evalList tieFanCfg widenAnalyzer [0, 1, 2, 3, 4]
      (initState tieFanCfg)).ending_states.find? 4 = some (singleFact 1) := by decide
  have hB : (evalList tieFanCfg widenAnalyzer [0, 1, 3, 2, 4]
      (initState tieFanCfg)).ending_states.find? 4 = some (singleFact 2) := by decide
  refine ⟨?_, rfl, ?_, rfl, hA, hB, ?_, tieFanCfg_edges, ?_, ?_, ?_, ?_⟩
  · exact TieRun.next ⟨by decide, by decide⟩ (TieRun.next ⟨by decide, by decide⟩
      (TieRun.next ⟨by decide, by decide⟩ (TieRun.next ⟨by decide, by decide⟩
        (TieRun.next ⟨by decide, by decide⟩ (TieRun.done _)))))
  · exact TieRun.next ⟨by decide, by decide⟩ (TieRun.next ⟨by decide, by decide⟩
      (TieRun.next ⟨by decide, by decide⟩ (TieRun.next ⟨by decide, by decide⟩
        (TieRun.next ⟨by decide, by decide⟩ (TieRun.done _)))))
  · intro h
    have := h.2 4 _ _ hA hB 0
    exact absurd this (by decide)
  · intro a b
    exact max_comm a b
  · intro a b c
    exact max_assoc a b c
  · intro a b c d hab hcd
    exact max_le_max hab hcd
  · intro a b hab
    simp only [widenAnalyzer]
    split_ifs <;> omega

theorem dropAnalyzer_laws : TieLaws dropAnalyzer where
  merge_comm := fun a b => max_comm a b
  merge_assoc := fun a b c => max_assoc a b c
  blank_idem := fun _ => rfl
  blank_merge := fun _ _ => rfl
  transfer_ext := fun m m1 b h k => by
    show (if b = 0 then m.set 0 1 else if b = 1 then m.set 0 5
        else if b = 2 then (if m.find? 0 = some 5 then m.set 0 0 else m) else m).find? k =
      (if b = 0 then m1.set 0 1 else if b = 1 then m1.set 0 5
        else if b = 2 then (if m1.find? 0 = some 5 then m1.set 0 0 else m1) else m1).find? k
    rw [← h 0]
    split_ifs <;> simp only [DenseMap.find?_set, h k]

/-- Without the order of the indices along the edges the tie-break matters,
whatever the laws of `merge` and `mergeBlank`: on the acyclic graph `skewCfg`
the tied blocks `1` and `2` are joined by an edge, `dropAnalyzer` has all the
laws of `TieLaws`, and the run that takes block `1` first ends with `x = 0` at
block `3` while the run that takes block `2` first ends with `x = 1` there. -/
theorem tie_break_needs_order :
    TieLaws dropAnalyzer ∧
    TieRun skewCfg dropAnalyzer (initState skewCfg) [0, 1, 2, 3]
      (evalList skewCfg dropAnalyzer [0, 1, 2, 3] (initState skewCfg)) ∧
    (evalList skewCfg dropAnalyzer [0, 1, 2, 3] (initState skewCfg)).q = [] ∧
    TieRun skewCfg dropAnalyzer (initState skewCfg) [0, 2, 1, 2, 3]
      (evalList skewCfg dropAnalyzer [0, 2, 1, 2, 3] (initState skewCfg)) ∧
    (evalList skewCfg dropAnalyzer [0, 2, 1, 2, 3] (initState skewCfg)).q = [] ∧
    (evalList skewCfg dropAnalyzer [0, 1, 2, 3]
      (initState skewCfg)).ending_states.find? 3 = some (singleFact 0) ∧
    (evalList skewCfg dropAnalyzer [0, 2, 1, 2, 3]
      (initState skewCfg)).ending_states.find? 3 = some (singleFact 1) := by
  refine ⟨dropAnalyzer_laws, ?_, rfl, ?_, rfl, by decide, by decide⟩
  · exact TieRun.next ⟨by decide, by decide⟩ (TieRun.next ⟨by decide, by decide⟩
      (TieRun.next ⟨by decide, by decide⟩ (TieRun.next ⟨by decide, by decide⟩
        (TieRun.done _))))
  · exact TieRun.next ⟨by decide, by decide⟩ (TieRun.next ⟨by decide, by decide⟩
      (TieRun.next ⟨by decide, by decide⟩ (TieRun.next ⟨by decide, by decide⟩
        (TieRun.next ⟨by decide, by decide⟩ (TieRun.done _)))))

end TieBreak

end pyston
